import Mathlib

/-!
# locale-id: a shallow embedding of `src/index.js`

The JavaScript module is embedded function by function.

* A JavaScript string is a list of characters (`JsString`).  `String.length` counts UTF-16 code
  units, so `jsLength` counts two units for a character outside the basic plane.
* A locale argument is `undefined`, `null` or a string (`JsVal`); `JsVal.truthy` is the
  JavaScript truthiness test used by `if (x)` and `!x`.
* A thrown exception is an `Except.error`: `JsError.typeError` for the `TypeError` raised when a
  property of `undefined` is read (this includes destructuring `undefined`), and
  `JsError.error msg` for `throw new Error(msg)`.
* The case conversions `String.prototype.toLowerCase`, `String.prototype.toUpperCase` and lodash
  `capitalize` are library code outside the module: they are the parameter `CaseOps`.
  `asciiOps` is their restriction to ASCII letters, used to evaluate the functions on examples;
  `sharpSOps` adds the letter `ß`, whose upper case is the two letters `SS`.
* An object used as a dictionary is an association list of its own properties in insertion
  order (`objGet`, `objSet`).  The index `lgs` starts as `{}`, so a read `lgs[language]` that
  finds no own property falls back to the member of `Object.prototype` of that name, if there
  is one (`idxGet`); a write of `main` on such a member is recorded in the index
  (`SupportedIndex.inheritedMain`), and `main` is read back from the member, or from
  `Object.prototype`, which the other members inherit from (`inheritedMainOf`).  Each call is
  modelled from a state in which these members carry no `main`, `countries` or `firstCountry`
  property.
* `debug` logging has no effect on results and is left out.
* The two regular expressions of `normalizeAcceptLanguage` are embedded as matchers that make
  the greedy choices of the pattern in order (`matchTag`, `matchQuality`, `matchItem`), and the
  global `match` as a scan from left to right (`matchAllFrom`).
-/

namespace LocaleId

/-! ## JavaScript values -/

/-- A JavaScript string, as the list of its characters. -/
abbrev JsString := List Char

/-- The `length` property of a string: the number of UTF-16 code units. -/
def jsLength : JsString → Nat
  | [] => 0
  | c :: cs => (if c.toNat < 65536 then 1 else 2) + jsLength cs

/-- The values a locale argument can take. -/
inductive JsVal where
  | undefined : JsVal
  | null : JsVal
  | str (s : JsString) : JsVal
deriving DecidableEq, Repr

/-- JavaScript truthiness: `undefined`, `null` and the empty string are falsy. -/
def JsVal.truthy : JsVal → Bool
  | .undefined => false
  | .null => false
  | .str s => !s.isEmpty

/-- The conversion `String(v)`, also used by template literals. -/
def JsVal.toStr : JsVal → JsString
  | .undefined => "undefined".toList
  | .null => "null".toList
  | .str s => s

/-- Truthiness of a property that is either unset (`none`) or holds a string. -/
def optTruthy : Option JsString → Bool
  | none => false
  | some s => !s.isEmpty

/-- The value of a property that is either unset or holds a string. -/
def optVal : Option JsString → JsVal
  | none => .undefined
  | some s => .str s

/-- Exceptions the module can raise. -/
inductive JsError where
  | typeError : JsError
  | error (message : JsString) : JsError
deriving DecidableEq, Repr

deriving instance DecidableEq for Except

/-- The case conversions the module calls: `toLowerCase`, `toUpperCase`, lodash `capitalize`. -/
structure CaseOps where
  toLowerCase : JsString → JsString
  toUpperCase : JsString → JsString
  capitalize : JsString → JsString

/-- The case conversions map non-empty strings to non-empty strings. -/
def CaseOps.KeepsNonEmpty (ops : CaseOps) : Prop :=
  ∀ s : JsString, s ≠ [] →
    ops.toLowerCase s ≠ [] ∧ ops.toUpperCase s ≠ [] ∧ ops.capitalize s ≠ []

/-- ASCII lower-casing of one character. -/
def asciiLower (c : Char) : Char :=
  if 65 ≤ c.toNat ∧ c.toNat ≤ 90 then Char.ofNat (c.toNat + 32) else c

/-- ASCII upper-casing of one character. -/
def asciiUpper (c : Char) : Char :=
  if 97 ≤ c.toNat ∧ c.toNat ≤ 122 then Char.ofNat (c.toNat - 32) else c

/-- The case conversions on ASCII letters; `capitalize` upper-cases the first character and
lower-cases the others. -/
def asciiOps : CaseOps where
  toLowerCase := fun s => s.map asciiLower
  toUpperCase := fun s => s.map asciiUpper
  capitalize := fun s =>
    match s with
    | [] => []
    | c :: cs => asciiUpper c :: cs.map asciiLower

/-! ## String and array primitives -/

/-- The method `indexOf` for a one-character needle; `none` stands for the result `-1`. -/
def indexOf (c : Char) : JsString → Option Nat
  | [] => none
  | x :: xs => if x = c then some 0 else (indexOf c xs).map (· + 1)

/-- The global replacement of one character by another, as `replace` does with the regular
expression matching every hyphen. -/
def replaceAll (a b : Char) (s : JsString) : JsString :=
  s.map fun c => if c = a then b else c

/-- The method `split` for a one-character separator. -/
def split (sep : Char) : JsString → List JsString
  | [] => [[]]
  | c :: cs =>
    if c = sep then [] :: split sep cs
    else
      match split sep cs with
      | [] => [[c]]
      | p :: ps => (c :: p) :: ps

/-- The method `shift`: the removed first element (`none` for `undefined`) and the rest. -/
def shift (parts : List JsString) : Option JsString × List JsString :=
  match parts with
  | [] => (none, [])
  | p :: ps => (some p, ps)

/-- The method `pop`: the removed last element (`none` for `undefined`) and the rest. -/
def pop (parts : List JsString) : Option JsString × List JsString :=
  (parts.getLast?, parts.dropLast)

/-! ## parse -/

/-- The record returned by `parse`.  `keyword` is always a property of the record and may hold
`undefined` (`none`); the other optional properties are set only when present. -/
structure ParsedLocale where
  keyword : Option JsString
  language : JsString
  variant : Option JsString := none
  country : Option JsString := none
  script : Option JsString := none
deriving DecidableEq, Repr

/-- The function `parse`; `Except.ok none` is the result `undefined`. -/
def parse (ops : CaseOps) (locale : JsVal) : Except JsError (Option ParsedLocale) :=
  if !locale.truthy then .ok none
  else
    let stringLocale := locale.toStr
    let keywordPos := indexOf '@' stringLocale
    let keyword : Option JsString :=
      match keywordPos with
      | some i => some (stringLocale.drop (i + 1))
      | none => none
    let localeWithoutKeyword : JsString :=
      match keywordPos with
      | some i => stringLocale.take i
      | none => stringLocale
    let parts := split '_' (replaceAll '-' '_' localeWithoutKeyword)
    if parts.length = 0 ∨ parts.length > 4 then .ok none
    else
      match shift parts with
      | (none, _) => .ok none
      | (some language, parts) =>
        if language.isEmpty then .ok none
        else
          let retVar : ParsedLocale := { keyword := keyword, language := ops.toLowerCase language }
          if parts.length = 0 then .ok (some retVar)
          else
            let afterVariant : ParsedLocale × List JsString :=
              if parts.length = 3 then
                match pop parts with
                | (some variant, rest) =>
                  if variant.isEmpty then (retVar, rest)
                  else ({ retVar with variant := some (ops.toUpperCase variant) }, rest)
                | (none, rest) => (retVar, rest)
              else (retVar, parts)
            let retVar := afterVariant.1
            let parts := afterVariant.2
            match pop parts with
            | (none, _) => .error .typeError
            | (some country, parts) =>
              let afterLong : ParsedLocale × Option JsString × List JsString :=
                if jsLength country > 3 then
                  ({ retVar with keyword := some country }, (pop parts).1, (pop parts).2)
                else (retVar, some country, parts)
              let retVar := afterLong.1
              let country := afterLong.2.1
              let parts := afterLong.2.2
              let retVar : ParsedLocale :=
                match country with
                | some c =>
                  if c.isEmpty then retVar else { retVar with country := some (ops.toUpperCase c) }
                | none => retVar
              if parts.length = 0 then .ok (some retVar)
              else
                match pop parts with
                | (some script, _) =>
                  if script.isEmpty then .ok (some retVar)
                  else
                    .ok (some { retVar with
                      script := some (ops.capitalize (ops.toLowerCase script)) })
                | (none, _) => .ok (some retVar)

/-! ## Accessors and normalize -/

/-- The function `getLanguage`: `obj && obj.language`. -/
def getLanguage (ops : CaseOps) (locale : JsVal) : Except JsError JsVal :=
  match parse ops locale with
  | .error e => .error e
  | .ok none => .ok .undefined
  | .ok (some obj) => .ok (.str obj.language)

/-- The function `getCountry`: `obj && obj.country`. -/
def getCountry (ops : CaseOps) (locale : JsVal) : Except JsError JsVal :=
  match parse ops locale with
  | .error e => .error e
  | .ok none => .ok .undefined
  | .ok (some obj) => .ok (optVal obj.country)

/-- The function `getScript`: `obj && obj.script`. -/
def getScript (ops : CaseOps) (locale : JsVal) : Except JsError JsVal :=
  match parse ops locale with
  | .error e => .error e
  | .ok none => .ok .undefined
  | .ok (some obj) => .ok (optVal obj.script)

/-- The function `getVariant`: `obj && obj.variant`. -/
def getVariant (ops : CaseOps) (locale : JsVal) : Except JsError JsVal :=
  match parse ops locale with
  | .error e => .error e
  | .ok none => .ok .undefined
  | .ok (some obj) => .ok (optVal obj.variant)

/-- The function `getKeyword`: `obj && obj.keyword`. -/
def getKeyword (ops : CaseOps) (locale : JsVal) : Except JsError JsVal :=
  match parse ops locale with
  | .error e => .error e
  | .ok none => .ok .undefined
  | .ok (some obj) => .ok (optVal obj.keyword)

/-- The function `normalize`.  The parameter default applies when `delimeter` is `undefined`. -/
def normalize (ops : CaseOps) (locale : JsVal) (delimeter : JsVal) : Except JsError JsVal :=
  let delimeter : JsVal := if delimeter = .undefined then .str ['_'] else delimeter
  match parse ops locale with
  | .error e => .error e
  | .ok none => .ok .undefined
  | .ok (some obj) =>
    let result := obj.language
    let result :=
      match obj.script with
      | some script => if script.isEmpty then result else result ++ (delimeter.toStr ++ script)
      | none => result
    let result :=
      match obj.country with
      | some country => if country.isEmpty then result else result ++ (delimeter.toStr ++ country)
      | none => result
    .ok (.str result)

/-! ## prepareSupported -/

/-- Read of the own property `k` of an object used as a dictionary; `none` when the object has
no such property.  It is the whole of `countries[country]`: the keys of `countries` are results
of `toUpperCase`, and no member of `Object.prototype` has a name in upper case. -/
def objGet {α : Type} (o : List (JsString × α)) (k : JsString) : Option α :=
  match o with
  | [] => none
  | (k', v) :: rest => if k' = k then some v else objGet rest k

/-- Property write `o[k] = v`: an existing key keeps its place, a new key is added last. -/
def objSet {α : Type} (o : List (JsString × α)) (k : JsString) (v : α) : List (JsString × α) :=
  match o with
  | [] => [(k, v)]
  | (k', v') :: rest => if k' = k then (k', v) :: rest else (k', v') :: objSet rest k v

/-- The names of the members that every object inherits from `Object.prototype`.  Each member is
an object of its own (a function; for `__proto__` the prototype itself), hence truthy, without
`countries` and `firstCountry`.  With the JavaScript `toLowerCase` the only one of these names
that a language can be is `constructor`: the others hold an upper-case letter or a `_`, at
which `parse` cuts its argument. -/
def objectPrototypeKeys : List JsString :=
  ["constructor".toList, "hasOwnProperty".toList, "isPrototypeOf".toList,
   "propertyIsEnumerable".toList, "toLocaleString".toList, "toString".toList,
   "valueOf".toList, "__proto__".toList, "__defineGetter__".toList,
   "__defineSetter__".toList, "__lookupGetter__".toList, "__lookupSetter__".toList]

/-- The name is that of a member of `Object.prototype`. -/
def isInheritedKey (k : JsString) : Bool := decide (k ∈ objectPrototypeKeys)

/-- One entry of the index: `{ countries, firstCountry, main }`. -/
structure LanguageEntry where
  countries : List (JsString × JsString)
  firstCountry : Option JsString
  main : Option JsString
deriving DecidableEq, Repr

/-- The index built by `prepareSupported`, with what is reachable from it: the own properties
of `lgs` (language to entry), and the `main` property written on members of
`Object.prototype` that were reached through `lgs` (member name to value). -/
structure SupportedIndex where
  own : List (JsString × LanguageEntry)
  inheritedMain : List (JsString × JsString)
deriving DecidableEq, Repr

/-- What a read `lgs[language]` finds: an own entry, or the inherited member of that name. -/
inductive IndexValue where
  | entry (e : LanguageEntry) : IndexValue
  | inherited (k : JsString) : IndexValue
deriving DecidableEq, Repr

/-- The read `lgs[language]`: the own property if there is one, else the member of
`Object.prototype` of that name, else `undefined` (`none`). -/
def idxGet (lgs : SupportedIndex) (k : JsString) : Option IndexValue :=
  match objGet lgs.own k with
  | some e => some (.entry e)
  | none => if isInheritedKey k then some (.inherited k) else none

/-- The property `main` read on the inherited member of name `k`: the one written on the member
itself, else the one written on `Object.prototype` (through the name `__proto__`), which the
other members inherit, else `undefined` (`none`). -/
def inheritedMainOf (lgs : SupportedIndex) (k : JsString) : Option JsString :=
  match objGet lgs.inheritedMain k with
  | some m => some m
  | none => objGet lgs.inheritedMain "__proto__".toList

/-- The message of the error thrown by `prepareSupported`. -/
def notParsable (supportedLocale : JsString) : JsString :=
  "Locale ".toList ++ supportedLocale ++ " is not parsable".toList

/-- The body of the `forEach` callback of `prepareSupported`, on the accumulator `lgs`.  When
`lgs[language]` is an inherited member, no entry is created; `lg.countries` is then `undefined`,
so the write `lg.countries[country] = ...` throws a `TypeError`, and `lg.main = ...` writes on
the member. -/
def prepareStep (ops : CaseOps) (lgs : SupportedIndex) (supportedLocale : JsString) :
    Except JsError SupportedIndex :=
  match parse ops (.str supportedLocale) with
  | .error e => .error e
  | .ok none => .error .typeError
  | .ok (some obj) =>
    let language := obj.language
    let country := obj.country
    if language.isEmpty then .error (.error (notParsable supportedLocale))
    else
      let lgs : SupportedIndex :=
        match idxGet lgs language with
        | none =>
          { lgs with
            own := objSet lgs.own language { countries := [], firstCountry := none, main := none } }
        | some _ => lgs
      match idxGet lgs language with
      | none => .error .typeError
      | some (.entry lg) =>
        if optTruthy country then
          let lg : LanguageEntry :=
            { lg with countries := objSet lg.countries (optVal country).toStr supportedLocale }
          let lg : LanguageEntry :=
            if !optTruthy lg.firstCountry then { lg with firstCountry := some supportedLocale }
            else lg
          .ok { lgs with own := objSet lgs.own language lg }
        else .ok { lgs with own := objSet lgs.own language { lg with main := some supportedLocale } }
      | some (.inherited k) =>
        if optTruthy country then .error .typeError
        else .ok { lgs with inheritedMain := objSet lgs.inheritedMain k supportedLocale }

/-- The `forEach` loop of `prepareSupported` from a given accumulator. -/
def prepareFrom (ops : CaseOps) (lgs : SupportedIndex) :
    List JsString → Except JsError SupportedIndex
  | [] => .ok lgs
  | supportedLocale :: rest =>
    match prepareStep ops lgs supportedLocale with
    | .error e => .error e
    | .ok lgs' => prepareFrom ops lgs' rest

/-- The function `prepareSupported`: the loop from `lgs = {}`. -/
def prepareSupported (ops : CaseOps) (supported : List JsString) :
    Except JsError SupportedIndex :=
  prepareFrom ops { own := [], inheritedMain := [] } supported

/-! ## getBest -/

/-- The first argument of `getBest`: an array of locale strings or a prepared index. -/
inductive Supported where
  | array (items : List JsString) : Supported
  | index (lgs : SupportedIndex) : Supported

/-- The function `getBest`, with a bound on the depth of the calls: `fuel` is the number of
nested activations allowed, and `none` means that the bound was reached.  In an own entry
`countries` is an object, hence truthy, so the test `!countries || !country` is `!country`.
When `lgs[language]` is an inherited member, `countries` and `firstCountry` are `undefined` and
`main` is the `main` written on the member, or the default locale: the result is `main`. -/
def getBestFuel (ops : CaseOps) :
    Nat → Supported → JsVal → JsVal → Bool → Option (Except JsError JsVal)
  | 0, _, _, _, _ => none
  | fuel + 1, supported, locale, defaultLocale, getAnyCountry =>
    let prepared : Except JsError SupportedIndex :=
      match supported with
      | .array items => prepareSupported ops items
      | .index lgs => .ok lgs
    match prepared with
    | .error e => some (.error e)
    | .ok lgs =>
      if !locale.truthy && defaultLocale.truthy then
        getBestFuel ops fuel supported defaultLocale .undefined getAnyCountry
      else if !locale.truthy then some (.ok .undefined)
      else
        match parse ops locale with
        | .error e => some (.error e)
        | .ok none => some (.error .typeError)
        | .ok (some obj) =>
          let language := obj.language
          let country := obj.country
          if language.isEmpty then some (.ok defaultLocale)
          else
            match idxGet lgs language with
            | none =>
              if locale = defaultLocale then some (.ok .undefined)
              else getBestFuel ops fuel supported defaultLocale .null getAnyCountry
            | some (.inherited k) =>
              match inheritedMainOf lgs k with
              | some m => some (.ok (.str m))
              | none => some (.ok defaultLocale)
            | some (.entry entry) =>
              let countries := entry.countries
              let main : JsVal :=
                match entry.main with
                | some m => .str m
                | none => defaultLocale
              let firstCountry := entry.firstCountry
              if !optTruthy country then
                if getAnyCountry && optTruthy firstCountry then some (.ok (optVal firstCountry))
                else some (.ok main)
              else if getAnyCountry && optTruthy firstCountry then
                if optTruthy (objGet countries (optVal country).toStr) then
                  some (.ok (optVal (objGet countries (optVal country).toStr)))
                else some (.ok (optVal firstCountry))
              else if optTruthy (objGet countries (optVal country).toStr) then
                some (.ok (optVal (objGet countries (optVal country).toStr)))
              else some (.ok main)

/-! ## Reference notions used in the statements -/

/-- A segment of a well-formed identifier: non-empty, without `-`, `_` or `@`. -/
def PlainSegment (s : JsString) : Prop :=
  s ≠ [] ∧ ∀ c ∈ s, c ≠ '-' ∧ c ≠ '_' ∧ c ≠ '@'

instance (s : JsString) : Decidable (PlainSegment s) := by
  unfold PlainSegment; infer_instance

/-- A delimiter between segments: `-` or `_`. -/
def IsDelim (d : Char) : Prop := d = '-' ∨ d = '_'

instance (d : Char) : Decidable (IsDelim d) := by
  unfold IsDelim; infer_instance

/-- The segments of an identifier, by the spec's words: the part before the first `@`, cut at
every `-` and every `_`. -/
def specSegments (s : JsString) : List JsString :=
  List.splitOnP (fun c => c == '-' || c == '_') (s.takeWhile (fun c => c != '@'))

/-- Set `field := some (f v)` style update used by `parse`: the converted value when the
segment is non-empty, nothing otherwise. -/
def caseField (f : JsString → JsString) (v : JsString) : Option JsString :=
  if v.isEmpty then none else some (f v)

/-- The tentative keyword of `parse`: the text after the first `@`, if any. -/
def keywordOf (s : JsString) : Option JsString :=
  match indexOf '@' s with
  | some i => some (s.drop (i + 1))
  | none => none

/-- The parts that `parse` cuts its argument into. -/
def partsOf (s : JsString) : List JsString :=
  split '_' (replaceAll '-' '_'
    (match indexOf '@' s with
     | some i => s.take i
     | none => s))

/-- The normalized form by the spec's words: the language, then the delimiter and the script
if there is a script, then the delimiter and the country if there is a country. -/
def specNormalize (p : ParsedLocale) (d : JsString) : JsString :=
  p.language ++
    (match p.script with
     | some script => d ++ script
     | none => []) ++
    (match p.country with
     | some country => d ++ country
     | none => [])

/-- The language that a supported string parses to, if it parses. -/
def langOf (ops : CaseOps) (s : JsString) : Option JsString :=
  match parse ops (.str s) with
  | .ok (some p) => some p.language
  | _ => none

/-- The country that a supported string parses to, if it parses and has one. -/
def countryOf (ops : CaseOps) (s : JsString) : Option JsString :=
  match parse ops (.str s) with
  | .ok (some p) => p.country
  | _ => none

/-- The string parses to language `L` and to the country `C` (`none`: to no country). -/
def hasLangCountry (ops : CaseOps) (L : JsString) (C : Option JsString) (s : JsString) : Bool :=
  decide (langOf ops s = some L ∧ countryOf ops s = C)

/-- The string parses to language `L` and to some country. -/
def hasLangAnyCountry (ops : CaseOps) (L : JsString) (s : JsString) : Bool :=
  decide (langOf ops s = some L ∧ (countryOf ops s).isSome = true)

/-- By the spec's words: the last element of the list with language `L` and no country. -/
def specMain (ops : CaseOps) (supported : List JsString) (L : JsString) : Option JsString :=
  supported.reverse.find? (hasLangCountry ops L none)

/-- By the spec's words: the first element of the list with language `L` and a country. -/
def specFirstCountry (ops : CaseOps) (supported : List JsString) (L : JsString) :
    Option JsString :=
  supported.find? (hasLangAnyCountry ops L)

/-- By the spec's words: the last element of the list with language `L` and country `C`. -/
def specCountry (ops : CaseOps) (supported : List JsString) (L C : JsString) :
    Option JsString :=
  supported.reverse.find? (hasLangCountry ops L (some C))

/-- Every element of the list is accepted by `parse`. -/
def AllParse (ops : CaseOps) (supported : List JsString) : Prop :=
  ∀ s ∈ supported, (langOf ops s).isSome = true

instance (ops : CaseOps) (supported : List JsString) : Decidable (AllParse ops supported) := by
  unfold AllParse; infer_instance

/-- The values `null` and `undefined` both stand for an absent locale: `null` is mapped to
`undefined`, a string is kept. -/
def absentAsUndefined : JsVal → JsVal
  | .null => .undefined
  | v => v

/-- The choice that `getBest` makes once the entry of the requested language is found, as a
function of the entry, the requested country, the default locale and the flag. -/
def bestOfEntry (entry : LanguageEntry) (country : Option JsString) (defaultLocale : JsVal)
    (getAnyCountry : Bool) : JsVal :=
  let main : JsVal :=
    match entry.main with
    | some m => .str m
    | none => defaultLocale
  if !optTruthy country then
    if getAnyCountry && optTruthy entry.firstCountry then optVal entry.firstCountry else main
  else if getAnyCountry && optTruthy entry.firstCountry then
    if optTruthy (objGet entry.countries (optVal country).toStr) then
      optVal (objGet entry.countries (optVal country).toStr)
    else optVal entry.firstCountry
  else if optTruthy (objGet entry.countries (optVal country).toStr) then
    optVal (objGet entry.countries (optVal country).toStr)
  else main

/-- The updates that `prepareStep` makes to the entry `lg` of the language. -/
def updateEntry (lg : LanguageEntry) (country : Option JsString) (supportedLocale : JsString) :
    LanguageEntry :=
  if optTruthy country then
    let lg : LanguageEntry :=
      { lg with countries := objSet lg.countries (optVal country).toStr supportedLocale }
    if !optTruthy lg.firstCountry then { lg with firstCountry := some supportedLocale }
    else lg
  else { lg with main := some supportedLocale }

/-- The entry that `prepareStep` creates for a language seen for the first time. -/
def emptyEntry : LanguageEntry := { countries := [], firstCountry := none, main := none }

/-- The string parses to a language that names a member of `Object.prototype`, and to a
country: `prepareSupported` throws on it. -/
def inheritedWithCountry (ops : CaseOps) (s : JsString) : Bool :=
  match langOf ops s with
  | some L => isInheritedKey L && (countryOf ops s).isSome
  | none => false

/-- No element of the list parses to a language that names a member of `Object.prototype`. -/
def NoInheritedLanguage (ops : CaseOps) (supported : List JsString) : Prop :=
  ∀ s ∈ supported, ∀ L, langOf ops s = some L → isInheritedKey L = false

/-- The index agrees with the reference description of the list: it has an own entry exactly
for the languages of the list that name no member of `Object.prototype`, each entry holds the
reference `main`, `firstCountry` and `countries`, and the `main` written on a member is the
reference `main` of its name. -/
def IndexOf (ops : CaseOps) (supported : List JsString) (lgs : SupportedIndex) : Prop :=
  (∀ L, objGet lgs.own L = none ↔
    (isInheritedKey L = true ∨ ¬ ∃ s ∈ supported, langOf ops s = some L)) ∧
  (∀ L e, objGet lgs.own L = some e →
    e.main = specMain ops supported L ∧
    e.firstCountry = specFirstCountry ops supported L ∧
    ∀ C, objGet e.countries C = specCountry ops supported L C) ∧
  (∀ k, objGet lgs.inheritedMain k =
    if isInheritedKey k = true then specMain ops supported k else none)

/-- Closed form of `parse` by the number of parts (`parse_str_eq` proves it equal to `parse`):
one part is the language; with two or three parts the last one is the country unless it is
longer than three code units, in which case it is the keyword and the part before it the
country; with four parts the last one is the variant and the others are read as for three. -/
def parseByShape (ops : CaseOps) (keyword : Option JsString) :
    List JsString → Option ParsedLocale
  | [l] =>
    if l.isEmpty then none
    else some { keyword := keyword, language := ops.toLowerCase l }
  | [l, a] =>
    if l.isEmpty then none
    else if 3 < jsLength a then
      some { keyword := some a, language := ops.toLowerCase l }
    else
      some { keyword := keyword, language := ops.toLowerCase l,
             country := caseField ops.toUpperCase a }
  | [l, a, b] =>
    if l.isEmpty then none
    else if 3 < jsLength b then
      some { keyword := some b, language := ops.toLowerCase l,
             country := caseField ops.toUpperCase a }
    else
      some { keyword := keyword, language := ops.toLowerCase l,
             country := caseField ops.toUpperCase b,
             script := caseField (fun x => ops.capitalize (ops.toLowerCase x)) a }
  | [l, a, b, c] =>
    if l.isEmpty then none
    else if 3 < jsLength b then
      some { keyword := some b, language := ops.toLowerCase l,
             variant := caseField ops.toUpperCase c,
             country := caseField ops.toUpperCase a }
    else
      some { keyword := keyword, language := ops.toLowerCase l,
             variant := caseField ops.toUpperCase c,
             country := caseField ops.toUpperCase b,
             script := caseField (fun x => ops.capitalize (ops.toLowerCase x)) a }
  | _ => none

/-- The value is absent (`undefined`, `null`, the empty string) or a string that `parse`
accepts. -/
def AbsentOrParses (ops : CaseOps) : JsVal → Prop
  | .str s => s = [] ∨ (langOf ops s).isSome = true
  | _ => True

instance (ops : CaseOps) (v : JsVal) : Decidable (AbsentOrParses ops v) := by
  cases v <;> unfold AbsentOrParses <;> infer_instance

/-- The string `s'` is `s` with some `-` replaced by `_` or some `_` replaced by `-` in the
part before the first `@`: these parts have the same length and agree position by position up
to the choice of the delimiter, and what follows them is the same. -/
def SameUpToDelims (s s' : JsString) : Prop :=
  (s.takeWhile (fun c => c != '@')).length = (s'.takeWhile (fun c => c != '@')).length ∧
  (∀ p ∈ (s.takeWhile (fun c => c != '@')).zip (s'.takeWhile (fun c => c != '@')),
    p.1 = p.2 ∨ (IsDelim p.1 ∧ IsDelim p.2)) ∧
  s.dropWhile (fun c => c != '@') = s'.dropWhile (fun c => c != '@')

instance (s s' : JsString) : Decidable (SameUpToDelims s s') := by
  unfold SameUpToDelims; infer_instance

/-- Lower-casing and upper-casing a second time change nothing. -/
def CaseOps.Idempotent (ops : CaseOps) : Prop :=
  ∀ s : JsString, ops.toLowerCase (ops.toLowerCase s) = ops.toLowerCase s ∧
    ops.toUpperCase (ops.toUpperCase s) = ops.toUpperCase s

/-- The string is made of ASCII characters. -/
def IsAscii (s : JsString) : Prop := ∀ c ∈ s, c.toNat < 128

/-- On ASCII strings the case conversions are the ASCII ones. -/
def CaseOps.AsciiExact (ops : CaseOps) : Prop :=
  ∀ s : JsString, IsAscii s →
    ops.toLowerCase s = asciiOps.toLowerCase s ∧ ops.toUpperCase s = asciiOps.toUpperCase s ∧
      ops.capitalize s = asciiOps.capitalize s

/-- Upper-casing of one character, on ASCII letters and on `ß`, whose upper case is `SS`. -/
def sharpSUpper (c : Char) : JsString :=
  if c = 'ß' then ['S', 'S'] else [asciiUpper c]

/-- The case conversions of JavaScript and lodash on ASCII letters and on `ß`: `ß` is its own
lower case and its upper case is `SS`; `capitalize` lower-cases the string and then upper-cases
its first character. -/
def sharpSOps : CaseOps where
  toLowerCase := fun s => s.map asciiLower
  toUpperCase := fun s => s.flatMap sharpSUpper
  capitalize := fun s =>
    match s.map asciiLower with
    | [] => []
    | c :: cs => sharpSUpper c ++ cs

/-- The string contains none of `-`, `_`, `@`. -/
def Plain (s : JsString) : Prop := ∀ c ∈ s, c ≠ '-' ∧ c ≠ '_' ∧ c ≠ '@'

/-- The case conversions introduce none of `-`, `_`, `@`. -/
def CaseOps.KeepsPlain (ops : CaseOps) : Prop :=
  ∀ s : JsString, Plain s →
    Plain (ops.toLowerCase s) ∧ Plain (ops.toUpperCase s) ∧ Plain (ops.capitalize s)

/-! ## normalizeAcceptLanguage -/

/-- The class `[a-z]` under the flag `i` (without the flag `u`): an ASCII letter. -/
def isAsciiLetter (c : Char) : Bool :=
  (65 ≤ c.toNat && c.toNat ≤ 90) || (97 ≤ c.toNat && c.toNat ≤ 122)

/-- The class `[0-9]`. -/
def isAsciiDigit (c : Char) : Bool := 48 ≤ c.toNat && c.toNat ≤ 57

/-- The class `\s`: the white space and line terminator characters of JavaScript. -/
def isJsSpace (c : Char) : Bool :=
  decide (c.toNat ∈ [9, 10, 11, 12, 13, 32, 160, 5760, 8232, 8233, 8239, 8287, 12288, 65279]) ||
    (8192 ≤ c.toNat && c.toNat ≤ 8202)

/-- The greedy quantifier `[a-z]{1,n}` at the start of a string: the letters it takes (none
when the string does not start with a letter). -/
def takeLetters : Nat → JsString → JsString
  | 0, _ => []
  | _ + 1, [] => []
  | n + 1, c :: cs => if isAsciiLetter c then c :: takeLetters n cs else []

/-- The pattern `[a-z]{1,8}(-[a-z]{1,8})?` at the start of a string: the text matched, `none`
when there is no match.  What follows in the patterns can match the empty string, so the
greedy choice is never undone. -/
def matchTag (s : JsString) : Option JsString :=
  let lang := takeLetters 8 s
  if lang.isEmpty then none
  else
    match s.drop lang.length with
    | [] => some lang
    | c :: rest =>
      if c = '-' then
        let sub := takeLetters 8 rest
        if sub.isEmpty then some lang else some (lang ++ '-' :: sub)
      else some lang

/-- The pattern `(1|0\.[0-9]+)` at the start of a string. -/
def matchWeight (s : JsString) : Option JsString :=
  match s with
  | [] => none
  | c :: rest =>
    if c = '1' then some ['1']
    else if c = '0' then
      match rest with
      | [] => none
      | d :: rest' =>
        if d = '.' then
          let digits := rest'.takeWhile isAsciiDigit
          if digits.isEmpty then none else some ('0' :: '.' :: digits)
        else none
    else none

/-- The pattern `;\s*q\s*=\s*(1|0\.[0-9]+)` at the start of a string; under the flag `i` the
letter `q` is matched by `q` and `Q`. -/
def matchQuality (s : JsString) : Option JsString :=
  match s with
  | [] => none
  | c :: r1 =>
    if c = ';' then
      let w1 := r1.takeWhile isJsSpace
      match r1.drop w1.length with
      | [] => none
      | q :: r2 =>
        if q = 'q' ∨ q = 'Q' then
          let w2 := r2.takeWhile isJsSpace
          match r2.drop w2.length with
          | [] => none
          | e :: r3 =>
            if e = '=' then
              let w3 := r3.takeWhile isJsSpace
              match matchWeight (r3.drop w3.length) with
              | some w => some (';' :: (w1 ++ q :: (w2 ++ '=' :: (w3 ++ w))))
              | none => none
            else none
        else none
    else none

/-- The pattern `splitAcceptLanguageRegEx` at the start of a string: the tag, white space, and
the quality part when it is there. -/
def matchItem (s : JsString) : Option JsString :=
  match matchTag s with
  | none => none
  | some tag =>
    let r := s.drop tag.length
    let ws := r.takeWhile isJsSpace
    match matchQuality (r.drop ws.length) with
    | some q => some (tag ++ (ws ++ q))
    | none => some (tag ++ ws)

/-- The method `match` with the global pattern `splitAcceptLanguageRegEx`: all the matches from
left to right.  The first argument is the number of characters still covered by the last match;
where no match starts the search moves on by one character. -/
def matchAllFrom : Nat → JsString → List JsString
  | _, [] => []
  | skip + 1, _ :: cs => matchAllFrom skip cs
  | 0, c :: cs =>
    match matchItem (c :: cs) with
    | some m => m :: matchAllFrom (m.length - 1) cs
    | none => matchAllFrom 0 cs

/-- The `forEach` loop of `normalizeAcceptLanguage` on the accumulator `returnItems`. -/
def pushItems (ops : CaseOps) : List JsString → List JsVal → Except JsError (List JsVal)
  | [], returnItems => .ok returnItems
  | acceptLanguageItem :: rest, returnItems =>
    let matches0 : JsVal :=
      match matchTag acceptLanguageItem with
      | some tag => .str tag
      | none => .undefined
    match normalize ops matches0 .undefined with
    | .error e => .error e
    | .ok locale =>
      if locale.truthy then pushItems ops rest (returnItems ++ [locale])
      else pushItems ops rest returnItems

/-- The function `normalizeAcceptLanguage`. -/
def normalizeAcceptLanguage (ops : CaseOps) (acceptLanguage : JsVal) :
    Except JsError (List JsVal) :=
  if !acceptLanguage.truthy then .ok []
  else pushItems ops (matchAllFrom 0 acceptLanguage.toStr) []

/-- One entry of an `Accept-Language` header: a language, an optional subtag and an optional
weight (the text after `;q=`). -/
structure AcceptEntry where
  lang : JsString
  subtag : Option JsString
  weight : Option JsString

/-- One to eight ASCII letters. -/
def IsLetters (s : JsString) : Prop :=
  1 ≤ s.length ∧ s.length ≤ 8 ∧ ∀ c ∈ s, isAsciiLetter c = true

instance (s : JsString) : Decidable (IsLetters s) := by
  unfold IsLetters; infer_instance

/-- A weight: `1`, or `0.` followed by one digit or more. -/
def IsWeight (w : JsString) : Prop :=
  w = ['1'] ∨
    (w.take 2 = ['0', '.'] ∧ w.drop 2 ≠ [] ∧ ∀ c ∈ w.drop 2, isAsciiDigit c = true)

instance (w : JsString) : Decidable (IsWeight w) := by
  unfold IsWeight; infer_instance

/-- The entry has the form `lang[-subtag][;q=weight]`. -/
def AcceptEntry.WellFormed (e : AcceptEntry) : Prop :=
  IsLetters e.lang ∧
  (match e.subtag with
   | some s => IsLetters s
   | none => True) ∧
  (match e.weight with
   | some w => IsWeight w
   | none => True)

instance (e : AcceptEntry) : Decidable e.WellFormed := by
  unfold AcceptEntry.WellFormed
  cases e.subtag <;> cases e.weight <;> infer_instance

/-- The part `lang[-subtag]` of an entry. -/
def AcceptEntry.tag (e : AcceptEntry) : JsString :=
  match e.subtag with
  | some s => e.lang ++ '-' :: s
  | none => e.lang

/-- The part `[;q=weight]` of an entry. -/
def AcceptEntry.quality (e : AcceptEntry) : JsString :=
  match e.weight with
  | some w => ';' :: 'q' :: '=' :: w
  | none => []

/-- The text of an entry. -/
def AcceptEntry.text (e : AcceptEntry) : JsString := e.tag ++ e.quality

/-- The header made of the entries, separated by commas. -/
def headerOf : List AcceptEntry → JsString
  | [] => []
  | [e] => e.text
  | e :: rest => e.text ++ ',' :: headerOf rest

/-- The value of `normalize` with the default delimiter, `undefined` if it throws. -/
def normalizeValue (ops : CaseOps) (s : JsString) : JsVal :=
  match normalize ops (.str s) .undefined with
  | .ok v => v
  | .error _ => .undefined

/-- What follows an entry in a header: nothing, or a comma and more. -/
def EndsItem (r : JsString) : Prop := r = [] ∨ ∃ r', r = ',' :: r'

/-- The choice that `getBest` makes on what the read `lgs[language]` found: on an own entry it
is `bestOfEntry`; on an inherited member, `countries` and `firstCountry` are `undefined`, so the
result is the `main` of the member, or the default locale when the member has none. -/
def bestOfValue (lgs : SupportedIndex) (v : IndexValue) (country : Option JsString)
    (defaultLocale : JsVal) (getAnyCountry : Bool) : JsVal :=
  match v with
  | .entry e => bestOfEntry e country defaultLocale getAnyCountry
  | .inherited k =>
    match inheritedMainOf lgs k with
    | some m => .str m
    | none => defaultLocale

/-! ## Facts about the string primitives -/

theorem split_ne_nil (sep : Char) (s : JsString) : split sep s ≠ [] := by
  induction s with
  | nil => simp [split]
  | cons c cs ih =>
    unfold split
    split_ifs
    · simp
    · cases h : split sep cs <;> simp

theorem split_of_not_mem (sep : Char) (s : JsString) (h : ∀ c ∈ s, c ≠ sep) :
    split sep s = [s] := by
  induction s with
  | nil => simp [split]
  | cons c cs ih =>
    have hc : c ≠ sep := h c (by simp)
    have := ih (fun x hx => h x (by simp [hx]))
    simp [split, hc, this]

theorem split_append_sep (sep : Char) (l r : JsString) (h : ∀ c ∈ l, c ≠ sep) :
    split sep (l ++ sep :: r) = l :: split sep r := by
  induction l with
  | nil => simp [split]
  | cons c cs ih =>
    have hc : c ≠ sep := h c (by simp)
    have := ih (fun x hx => h x (by simp [hx]))
    simp [split, hc, this]

theorem replaceAll_of_not_mem (a b : Char) (s : JsString) (h : ∀ c ∈ s, c ≠ a) :
    replaceAll a b s = s := by
  unfold replaceAll
  conv_rhs => rw [← List.map_id s]
  apply List.map_congr_left
  intro c hc
  simp [h c hc]

theorem replaceAll_append (a b : Char) (l r : JsString) :
    replaceAll a b (l ++ r) = replaceAll a b l ++ replaceAll a b r := by
  simp [replaceAll]

theorem indexOf_eq_none (x : Char) (s : JsString) (h : ∀ c ∈ s, c ≠ x) :
    indexOf x s = none := by
  induction s with
  | nil => simp [indexOf]
  | cons c cs ih =>
    have hc : c ≠ x := h c (by simp)
    have := ih (fun y hy => h y (by simp [hy]))
    simp [indexOf, hc, this]

/-- The parts of a plain segment alone. -/
theorem parts_single (l : JsString) (hl : PlainSegment l) :
    split '_' (replaceAll '-' '_' l) = [l] := by
  rw [replaceAll_of_not_mem _ _ _ (fun c hc => (hl.2 c hc).1)]
  exact split_of_not_mem _ _ (fun c hc => (hl.2 c hc).2.1)

/-- The parts of a plain segment followed by a delimiter and more. -/
theorem parts_cons (l r : JsString) (d : Char) (hl : PlainSegment l) (hd : IsDelim d) :
    split '_' (replaceAll '-' '_' (l ++ d :: r)) = l :: split '_' (replaceAll '-' '_' r) := by
  have h1 : replaceAll '-' '_' (l ++ d :: r) = l ++ '_' :: replaceAll '-' '_' r := by
    rw [replaceAll_append, replaceAll_of_not_mem _ _ l (fun c hc => (hl.2 c hc).1)]
    rcases hd with rfl | rfl <;> simp [replaceAll]
  rw [h1]
  exact split_append_sep _ _ _ (fun c hc => (hl.2 c hc).2.1)

theorem isEmpty_eq_false_of_ne_nil {s : JsString} (h : s ≠ []) : s.isEmpty = false := by
  cases s with
  | nil => exact absurd rfl h
  | cons c cs => rfl

/-! ## C1, C2: parse on well-formed identifiers -/

/-- C1: for non-empty segments `L`, `S`, `C` without `-`, `_`, `@`, with `C` of at most three
code units, and either delimiter, `parse` of `L` gives the lower-cased language alone, of `L-C`
the language and the upper-cased country, of `L-S-C` the language, the capitalized script and
the country; no other field is set. -/
theorem parse_language_script_country (ops : CaseOps) (L S C : JsString) (d₁ d₂ : Char)
    (hL : PlainSegment L) (hS : PlainSegment S) (hC : PlainSegment C)
    (hlen : jsLength C ≤ 3) (hd₁ : IsDelim d₁) (hd₂ : IsDelim d₂) :
    parse ops (.str L) =
      .ok (some { keyword := none, language := ops.toLowerCase L,
                  variant := none, country := none, script := none }) ∧
    parse ops (.str (L ++ d₁ :: C)) =
      .ok (some { keyword := none, language := ops.toLowerCase L,
                  variant := none, country := some (ops.toUpperCase C), script := none }) ∧
    parse ops (.str (L ++ d₁ :: (S ++ d₂ :: C))) =
      .ok (some { keyword := none, language := ops.toLowerCase L,
                  variant := none, country := some (ops.toUpperCase C),
                  script := some (ops.capitalize (ops.toLowerCase S)) }) := by
  have hLe := isEmpty_eq_false_of_ne_nil hL.1
  have hSe := isEmpty_eq_false_of_ne_nil hS.1
  have hCe := isEmpty_eq_false_of_ne_nil hC.1
  have hlen' : ¬ 3 < jsLength C := by omega
  have hd₁' : d₁ ≠ '@' := by rcases hd₁ with rfl | rfl <;> decide
  have hd₂' : d₂ ≠ '@' := by rcases hd₂ with rfl | rfl <;> decide
  have i1 : indexOf '@' L = none := indexOf_eq_none _ _ (fun c hc => (hL.2 c hc).2.2)
  have i2 : indexOf '@' (L ++ d₁ :: C) = none := by
    apply indexOf_eq_none
    intro c hc
    simp only [List.mem_append, List.mem_cons] at hc
    rcases hc with h | rfl | h
    · exact (hL.2 c h).2.2
    · exact hd₁'
    · exact (hC.2 c h).2.2
  have i3 : indexOf '@' (L ++ d₁ :: (S ++ d₂ :: C)) = none := by
    apply indexOf_eq_none
    intro c hc
    simp only [List.mem_append, List.mem_cons] at hc
    rcases hc with h | rfl | h | rfl | h
    · exact (hL.2 c h).2.2
    · exact hd₁'
    · exact (hS.2 c h).2.2
    · exact hd₂'
    · exact (hC.2 c h).2.2
  refine ⟨?_, ?_, ?_⟩
  · simp [parse, JsVal.truthy, JsVal.toStr, i1, parts_single L hL, shift, hLe]
  · simp [parse, JsVal.truthy, JsVal.toStr, i2, parts_cons L C d₁ hL hd₁, parts_single C hC,
      shift, pop, hLe, hCe, hlen']
  · simp [parse, JsVal.truthy, JsVal.toStr, i3, parts_cons L _ d₁ hL hd₁,
      parts_cons S C d₂ hS hd₂, parts_single C hC, shift, pop, hLe, hCe, hSe, hlen']

/-- Witness for C1 at `zh-Hans_CN`. -/
theorem parse_language_script_country_witness :
    parse asciiOps (.str "zh".toList) =
      .ok (some { keyword := none, language := "zh".toList,
                  variant := none, country := none, script := none }) ∧
    parse asciiOps (.str "zh-CN".toList) =
      .ok (some { keyword := none, language := "zh".toList,
                  variant := none, country := some "CN".toList, script := none }) ∧
    parse asciiOps (.str "zh-Hans_CN".toList) =
      .ok (some { keyword := none, language := "zh".toList,
                  variant := none, country := some "CN".toList,
                  script := some "Hans".toList }) :=
  parse_language_script_country asciiOps "zh".toList "Hans".toList "CN".toList '-' '_'
    (by decide) (by decide) (by decide) (by decide) (by decide) (by decide)

/-- Counterexample for C2: `parse("en-US-POSIX")` stores `POSIX` as keyword and sets no
variant, so it is not the record `{language: "en", country: "US", variant: "POSIX"}`. -/
theorem parse_en_US_POSIX_has_no_variant :
    parse asciiOps (.str "en-US-POSIX".toList) =
      .ok (some { keyword := some "POSIX".toList, language := "en".toList,
                  variant := none, country := some "US".toList, script := none }) ∧
    parse asciiOps (.str "en-US-POSIX".toList) ≠
      .ok (some { keyword := none, language := "en".toList,
                  variant := some "POSIX".toList, country := some "US".toList,
                  script := none }) := by
  decide

/-- C2 (amended): for non-empty segments `L`, `C`, `V` without `-`, `_`, `@` (whatever the
length of `C`), `parse` of `L-C-V` sets no variant.  When `V` has more than three code units
the result has language `lower(L)`, country `upper(C)` and keyword `V` verbatim, and no script;
when `V` has at most three, it has language `lower(L)`, script `capitalize(lower(C))` and
country `upper(V)`, and no keyword. -/
theorem parse_language_country_tail (ops : CaseOps) (L C V : JsString) (d₁ d₂ : Char)
    (hL : PlainSegment L) (hC : PlainSegment C) (hV : PlainSegment V)
    (hd₁ : IsDelim d₁) (hd₂ : IsDelim d₂) :
    parse ops (.str (L ++ d₁ :: (C ++ d₂ :: V))) =
      if 3 < jsLength V then
        .ok (some { keyword := some V, language := ops.toLowerCase L,
                    variant := none, country := some (ops.toUpperCase C), script := none })
      else
        .ok (some { keyword := none, language := ops.toLowerCase L,
                    variant := none, country := some (ops.toUpperCase V),
                    script := some (ops.capitalize (ops.toLowerCase C)) }) := by
  have hLe := isEmpty_eq_false_of_ne_nil hL.1
  have hCe := isEmpty_eq_false_of_ne_nil hC.1
  have hVe := isEmpty_eq_false_of_ne_nil hV.1
  have hd₁' : d₁ ≠ '@' := by rcases hd₁ with rfl | rfl <;> decide
  have hd₂' : d₂ ≠ '@' := by rcases hd₂ with rfl | rfl <;> decide
  have i3 : indexOf '@' (L ++ d₁ :: (C ++ d₂ :: V)) = none := by
    apply indexOf_eq_none
    intro c hc
    simp only [List.mem_append, List.mem_cons] at hc
    rcases hc with h | rfl | h | rfl | h
    · exact (hL.2 c h).2.2
    · exact hd₁'
    · exact (hC.2 c h).2.2
    · exact hd₂'
    · exact (hV.2 c h).2.2
  by_cases hv : 3 < jsLength V
  · simp [parse, JsVal.truthy, JsVal.toStr, i3, parts_cons L _ d₁ hL hd₁,
      parts_cons C V d₂ hC hd₂, parts_single V hV, shift, pop, hLe, hCe, hVe, hv]
  · simp [parse, JsVal.truthy, JsVal.toStr, i3, parts_cons L _ d₁ hL hd₁,
      parts_cons C V d₂ hC hd₂, parts_single V hV, shift, pop, hLe, hCe, hVe, hv]

/-- Witness for the amended C2 at `en-US-POSIX`. -/
theorem parse_language_country_tail_witness :
    parse asciiOps (.str "en-US-POSIX".toList) =
      if 3 < jsLength "POSIX".toList then
        .ok (some { keyword := some "POSIX".toList, language := "en".toList,
                    variant := none, country := some "US".toList, script := none })
      else
        .ok (some { keyword := none, language := "en".toList,
                    variant := none, country := some "POSIX".toList,
                    script := some "Us".toList }) :=
  parse_language_country_tail asciiOps "en".toList "US".toList "POSIX".toList '-' '-'
    (by decide) (by decide) (by decide) (by decide) (by decide)

/-! ## C8: parse is total -/

theorem jsLength_nil : jsLength [] = 0 := rfl

theorem parse_str_eq (ops : CaseOps) (s : JsString) :
    parse ops (.str s) =
      .ok (if s.isEmpty then none else parseByShape ops (keywordOf s) (partsOf s)) := by
  cases hs : s.isEmpty
  · unfold parse keywordOf partsOf
    simp only [JsVal.truthy, hs, JsVal.toStr]
    generalize (match indexOf '@' s with
      | some i => some (s.drop (i + 1))
      | none => none) = kw
    generalize split '_' (replaceAll '-' '_' (match indexOf '@' s with
      | some i => s.take i
      | none => s)) = ps
    rcases ps with _ | ⟨l, _ | ⟨a, _ | ⟨b, _ | ⟨c, _ | ⟨d, rest⟩⟩⟩⟩⟩
    · simp [parseByShape]
    · by_cases hl : l = [] <;> simp [parseByShape, shift, pop, caseField, hl]
    · by_cases hl : l = [] <;> by_cases h3 : 3 < jsLength a <;>
        rcases a with _ | ⟨x, xs⟩ <;>
        first
          | (simp [jsLength_nil] at h3; done)
          | simp [parseByShape, shift, pop, caseField, hl, h3]
    · by_cases hl : l = [] <;> by_cases h3 : 3 < jsLength b <;>
        rcases a with _ | ⟨x, xs⟩ <;> rcases b with _ | ⟨y, ys⟩ <;>
        first
          | (simp [jsLength_nil] at h3; done)
          | simp [parseByShape, shift, pop, caseField, hl, h3]
    · by_cases hl : l = [] <;> by_cases h3 : 3 < jsLength b <;>
        rcases a with _ | ⟨x, xs⟩ <;> rcases b with _ | ⟨y, ys⟩ <;>
        rcases c with _ | ⟨z, zs⟩ <;>
        first
          | (simp [jsLength_nil] at h3; done)
          | simp [parseByShape, shift, pop, caseField, hl, h3]
    · simp [parseByShape]
  · simp [parse, JsVal.truthy, hs]

theorem take_indexOf_eq_takeWhile (s : JsString) :
    (match indexOf '@' s with
      | some i => s.take i
      | none => s) = s.takeWhile (fun c => c != '@') := by
  induction s with
  | nil => simp [indexOf]
  | cons c cs ih =>
    by_cases hc : c = '@'
    · simp [indexOf, hc, List.takeWhile_cons]
    · cases hi : indexOf '@' cs with
      | none =>
        rw [hi] at ih
        simp only at ih
        simp [indexOf, hc, hi, List.takeWhile_cons, ← ih]
      | some i =>
        rw [hi] at ih
        simp only at ih
        simp [indexOf, hc, hi, List.takeWhile_cons, ← ih]

theorem split_replaceAll_eq_splitOnP (t : JsString) :
    split '_' (replaceAll '-' '_' t) = List.splitOnP (fun c => c == '-' || c == '_') t := by
  induction t with
  | nil => simp [replaceAll, split]
  | cons c cs ih =>
    have hcons : replaceAll '-' '_' (c :: cs) =
        (if c = '-' then '_' else c) :: replaceAll '-' '_' cs := by simp [replaceAll]
    rw [hcons, List.splitOnP_cons, ← ih]
    by_cases h1 : c = '-'
    · simp [h1, split]
    · by_cases h2 : c = '_'
      · simp [h2, split]
      · have hne := split_ne_nil '_' (replaceAll '-' '_' cs)
        cases hsp : split '_' (replaceAll '-' '_' cs) with
        | nil => exact absurd hsp hne
        | cons p ps => simp [h1, h2, split, hsp]

theorem partsOf_eq_specSegments (s : JsString) : partsOf s = specSegments s := by
  unfold partsOf specSegments
  rw [take_indexOf_eq_takeWhile, split_replaceAll_eq_splitOnP]

theorem partsOf_ne_nil (s : JsString) : partsOf s ≠ [] := split_ne_nil _ _

theorem parseByShape_eq_none_iff (ops : CaseOps) (kw : Option JsString) (ps : List JsString)
    (hps : ps ≠ []) :
    parseByShape ops kw ps = none ↔ 4 < ps.length ∨ ps.head? = some [] := by
  rcases ps with _ | ⟨l, _ | ⟨a, _ | ⟨b, _ | ⟨c, _ | ⟨d, rest⟩⟩⟩⟩⟩
  · exact absurd rfl hps
  all_goals by_cases hl : l = []
  all_goals simp [parseByShape, hl]
  all_goals split_ifs <;> simp

/-- C8: `parse` never throws, whatever the argument, and on a string `s` it returns `undefined`
exactly when `s` is empty, or the part of `s` before its first `@` cuts at `-` and `_` into more
than four segments, or the first of these segments is empty. -/
theorem parse_total_absent_iff (ops : CaseOps) :
    (∀ v : JsVal, ∃ r, parse ops v = .ok r) ∧
    (∀ s : JsString, parse ops (.str s) = .ok none ↔
      (s = [] ∨ 4 < (specSegments s).length ∨ (specSegments s).head? = some [])) := by
  constructor
  · intro v
    cases v with
    | undefined => exact ⟨none, by simp [parse, JsVal.truthy]⟩
    | null => exact ⟨none, by simp [parse, JsVal.truthy]⟩
    | str s => exact ⟨_, parse_str_eq ops s⟩
  · intro s
    rw [parse_str_eq, ← partsOf_eq_specSegments]
    cases s with
    | nil => simp
    | cons c cs =>
      have := parseByShape_eq_none_iff ops (keywordOf (c :: cs)) (partsOf (c :: cs))
        (partsOf_ne_nil _)
      simpa using this

/-! ## C10: normalize -/

theorem asciiOps_keepsNonEmpty : asciiOps.KeepsNonEmpty := by
  intro s hs
  cases s with
  | nil => exact absurd rfl hs
  | cons c cs => simp [asciiOps]

theorem caseField_ne_nil {f : JsString → JsString} {v x : JsString}
    (hf : ∀ s, s ≠ [] → f s ≠ []) (h : caseField f v = some x) : x ≠ [] := by
  unfold caseField at h
  split_ifs at h with hv
  cases h
  exact hf v (by intro h0; simp [h0] at hv)

theorem caseField_upper_ne_nil {ops : CaseOps} (hops : ops.KeepsNonEmpty) {v x : JsString}
    (h : caseField ops.toUpperCase v = some x) : x ≠ [] :=
  caseField_ne_nil (fun s hs => (hops s hs).2.1) h

theorem caseField_script_ne_nil {ops : CaseOps} (hops : ops.KeepsNonEmpty) {v x : JsString}
    (h : caseField (fun y => ops.capitalize (ops.toLowerCase y)) v = some x) : x ≠ [] :=
  caseField_ne_nil (fun s hs => (hops _ (hops s hs).1).2.2) h

/-- Every field of a record built by `parseByShape` is non-empty when the case conversions keep
non-empty strings non-empty. -/
theorem parseByShape_fields (ops : CaseOps) (hops : ops.KeepsNonEmpty) (kw : Option JsString)
    (ps : List JsString) (p : ParsedLocale) (h : parseByShape ops kw ps = some p) :
    p.language ≠ [] ∧ (∀ c, p.country = some c → c ≠ []) ∧
      (∀ c, p.script = some c → c ≠ []) ∧ (∀ c, p.variant = some c → c ≠ []) := by
  have hlow : ∀ l : JsString, l.isEmpty = false → ops.toLowerCase l ≠ [] := by
    intro l hl
    exact (hops l (by intro h0; simp [h0] at hl)).1
  rcases ps with _ | ⟨l, _ | ⟨a, _ | ⟨b, _ | ⟨c, _ | ⟨d, rest⟩⟩⟩⟩⟩
  all_goals simp only [parseByShape] at h
  all_goals try split_ifs at h
  all_goals try cases h
  all_goals
    refine ⟨?_, ?_, ?_, ?_⟩
  all_goals try (apply hlow; simpa using ‹¬ l.isEmpty = true›)
  all_goals intro x hx
  all_goals try cases hx
  all_goals first
    | exact caseField_upper_ne_nil hops hx
    | exact caseField_script_ne_nil hops hx

theorem parse_fields (ops : CaseOps) (hops : ops.KeepsNonEmpty) (v : JsVal) (p : ParsedLocale)
    (h : parse ops v = .ok (some p)) :
    p.language ≠ [] ∧ (∀ c, p.country = some c → c ≠ []) ∧
      (∀ c, p.script = some c → c ≠ []) ∧ (∀ c, p.variant = some c → c ≠ []) := by
  cases v with
  | undefined => simp [parse, JsVal.truthy] at h
  | null => simp [parse, JsVal.truthy] at h
  | str s =>
    rw [parse_str_eq] at h
    cases hs : s.isEmpty
    · rw [hs] at h
      simp only [Bool.false_eq_true, if_false, Except.ok.injEq] at h
      exact parseByShape_fields ops hops _ _ p h
    · rw [hs] at h
      simp at h

theorem parse_ok (ops : CaseOps) (v : JsVal) : ∃ r, parse ops v = .ok r := by
  cases v with
  | undefined => exact ⟨none, by simp [parse, JsVal.truthy]⟩
  | null => exact ⟨none, by simp [parse, JsVal.truthy]⟩
  | str s => exact ⟨_, parse_str_eq ops s⟩

/-- C10: when the case conversions keep non-empty strings non-empty, `normalize(locale, d)` is
`undefined` exactly when `parse(locale)` is, and otherwise it is the language, followed by
`d` and the script if the record has a script, followed by `d` and the country if it has a
country; the variant and the keyword do not contribute.  An omitted delimiter is `_`. -/
theorem normalize_eq_specNormalize (ops : CaseOps) (hops : ops.KeepsNonEmpty) (locale : JsVal)
    (d : JsString) :
    ∃ r, parse ops locale = .ok r ∧
      normalize ops locale (.str d) =
        .ok (match r with
             | none => .undefined
             | some p => .str (specNormalize p d)) ∧
      normalize ops locale .undefined =
        .ok (match r with
             | none => .undefined
             | some p => .str (specNormalize p ['_'])) := by
  obtain ⟨r, hr⟩ := parse_ok ops locale
  refine ⟨r, hr, ?_⟩
  cases r with
  | none => simp [normalize, hr]
  | some p =>
    obtain ⟨-, hc, hsc, -⟩ := parse_fields ops hops locale p hr
    have e1 : ∀ (dl : JsString),
        (match p.script with
          | some script => if script.isEmpty then p.language else p.language ++ (dl ++ script)
          | none => p.language) =
        p.language ++ (match p.script with
          | some script => dl ++ script
          | none => []) := by
      intro dl
      cases hsp : p.script with
      | none => simp
      | some x => simp [isEmpty_eq_false_of_ne_nil (hsc x hsp)]
    have e2 : ∀ (dl acc : JsString),
        (match p.country with
          | some country => if country.isEmpty then acc else acc ++ (dl ++ country)
          | none => acc) =
        acc ++ (match p.country with
          | some country => dl ++ country
          | none => []) := by
      intro dl acc
      cases hcp : p.country with
      | none => simp
      | some x => simp [isEmpty_eq_false_of_ne_nil (hc x hcp)]
    simp only [normalize, hr, JsVal.toStr, specNormalize, e1, e2]
    simp

/-- Witness for C10 at `zh-Hans-CN` with the delimiter `-`. -/
theorem normalize_eq_specNormalize_witness :
    ∃ r, parse asciiOps (.str "zh-Hans-CN".toList) = .ok r ∧
      normalize asciiOps (.str "zh-Hans-CN".toList) (.str ['-']) =
        .ok (match r with
             | none => .undefined
             | some p => .str (specNormalize p ['-'])) ∧
      normalize asciiOps (.str "zh-Hans-CN".toList) .undefined =
        .ok (match r with
             | none => .undefined
             | some p => .str (specNormalize p ['_'])) :=
  normalize_eq_specNormalize asciiOps asciiOps_keepsNonEmpty (.str "zh-Hans-CN".toList) ['-']

/-! ## The index built by prepareSupported -/

theorem objGet_objSet {α : Type} (o : List (JsString × α)) (k k' : JsString) (v : α) :
    objGet (objSet o k v) k' = if k = k' then some v else objGet o k' := by
  induction o with
  | nil => simp [objSet, objGet]
  | cons kv rest ih =>
    obtain ⟨k0, v0⟩ := kv
    by_cases h0 : k0 = k
    · subst h0
      by_cases h1 : k0 = k' <;> simp [objSet, objGet, h1]
    · by_cases h1 : k0 = k'
      · subst h1
        simp [objSet, objGet, h0, Ne.symm h0]
      · simp [objSet, objGet, h0, h1, ih]

theorem prepareFrom_append (ops : CaseOps) (acc : SupportedIndex) (l : List JsString)
    (x : JsString) :
    prepareFrom ops acc (l ++ [x]) =
      match prepareFrom ops acc l with
      | .error e => .error e
      | .ok lgs => prepareStep ops lgs x := by
  induction l generalizing acc with
  | nil =>
    simp only [List.nil_append, prepareFrom]
    cases prepareStep ops acc x <;> rfl
  | cons y ys ih =>
    simp only [List.cons_append, prepareFrom]
    cases prepareStep ops acc y with
    | error e => rfl
    | ok lgs' => exact ih lgs'

theorem langOf_countryOf_of_parse {ops : CaseOps} {x : JsString} {p : ParsedLocale}
    (hp : parse ops (.str x) = .ok (some p)) :
    langOf ops x = some p.language ∧ countryOf ops x = p.country := by
  simp [langOf, countryOf, hp]

theorem parse_of_langOf {ops : CaseOps} {x L : JsString} (h : langOf ops x = some L) :
    ∃ p, parse ops (.str x) = .ok (some p) ∧ p.language = L := by
  unfold langOf at h
  split at h
  · next p hp => exact ⟨p, hp, by simpa using h⟩
  · cases h

theorem ne_nil_of_langOf {ops : CaseOps} {x L : JsString} (h : langOf ops x = some L) :
    x ≠ [] := by
  obtain ⟨p, hp, -⟩ := parse_of_langOf h
  intro hx
  subst hx
  simp [parse, JsVal.truthy] at hp

theorem specMain_append (ops : CaseOps) (l : List JsString) (x L : JsString) :
    specMain ops (l ++ [x]) L =
      if hasLangCountry ops L none x = true then some x else specMain ops l L := by
  simp only [specMain, List.reverse_append, List.reverse_cons, List.reverse_nil,
    List.nil_append, List.singleton_append, List.find?_cons]
  cases hasLangCountry ops L none x <;> simp

theorem specCountry_append (ops : CaseOps) (l : List JsString) (x L C : JsString) :
    specCountry ops (l ++ [x]) L C =
      if hasLangCountry ops L (some C) x = true then some x else specCountry ops l L C := by
  simp only [specCountry, List.reverse_append, List.reverse_cons, List.reverse_nil,
    List.nil_append, List.singleton_append, List.find?_cons]
  cases hasLangCountry ops L (some C) x <;> simp

theorem specFirstCountry_append (ops : CaseOps) (l : List JsString) (x L : JsString) :
    specFirstCountry ops (l ++ [x]) L =
      match specFirstCountry ops l L with
      | some s => some s
      | none => if hasLangAnyCountry ops L x = true then some x else none := by
  simp only [specFirstCountry, List.find?_append, List.find?_cons, List.find?_nil]
  cases List.find? (hasLangAnyCountry ops L) l <;>
    cases hasLangAnyCountry ops L x <;> simp

theorem spec_none_of_no_lang (ops : CaseOps) (l : List JsString) (L : JsString)
    (h : ¬ ∃ s ∈ l, langOf ops s = some L) :
    specMain ops l L = none ∧ specFirstCountry ops l L = none ∧
      ∀ C, specCountry ops l L C = none := by
  have hno : ∀ s ∈ l, langOf ops s ≠ some L := fun s hs hL => h ⟨s, hs, hL⟩
  refine ⟨?_, ?_, ?_⟩
  · simp only [specMain, List.find?_eq_none, List.mem_reverse]
    intro s hs
    simp [hasLangCountry, hno s hs]
  · simp only [specFirstCountry, List.find?_eq_none]
    intro s hs
    simp [hasLangAnyCountry, hno s hs]
  · intro C
    simp only [specCountry, List.find?_eq_none, List.mem_reverse]
    intro s hs
    simp [hasLangCountry, hno s hs]

theorem specFirstCountry_truthy (ops : CaseOps) (l : List JsString) (L : JsString) :
    optTruthy (specFirstCountry ops l L) = (specFirstCountry ops l L).isSome := by
  cases h : specFirstCountry ops l L with
  | none => rfl
  | some s =>
    have hs := List.find?_some h
    simp only [hasLangAnyCountry, decide_eq_true_eq] at hs
    simp [optTruthy, isEmpty_eq_false_of_ne_nil (ne_nil_of_langOf hs.1)]

theorem updateEntry_some (e0 : LanguageEntry) (c x : JsString) (hc : c ≠ []) :
    (updateEntry e0 (some c) x).main = e0.main ∧
    (updateEntry e0 (some c) x).firstCountry =
      (if optTruthy e0.firstCountry then e0.firstCountry else some x) ∧
    (updateEntry e0 (some c) x).countries = objSet e0.countries c x := by
  have ht : optTruthy (some c) = true := by
    simp [optTruthy, isEmpty_eq_false_of_ne_nil hc]
  cases h : optTruthy e0.firstCountry <;>
    simp [updateEntry, ht, optVal, JsVal.toStr, h]

theorem updateEntry_spec (ops : CaseOps) (hops : ops.KeepsNonEmpty) (l : List JsString)
    (x : JsString) (p : ParsedLocale) (hp : parse ops (.str x) = .ok (some p))
    (e0 : LanguageEntry)
    (h0 : e0.main = specMain ops l p.language ∧
      e0.firstCountry = specFirstCountry ops l p.language ∧
      ∀ C, objGet e0.countries C = specCountry ops l p.language C) :
    (updateEntry e0 p.country x).main = specMain ops (l ++ [x]) p.language ∧
    (updateEntry e0 p.country x).firstCountry = specFirstCountry ops (l ++ [x]) p.language ∧
    ∀ C, objGet (updateEntry e0 p.country x).countries C =
      specCountry ops (l ++ [x]) p.language C := by
  obtain ⟨hlang, hcountry⟩ := langOf_countryOf_of_parse hp
  obtain ⟨hm, hf, hcs⟩ := h0
  have htr := specFirstCountry_truthy ops l p.language
  rw [specMain_append, specFirstCountry_append]
  simp only [specCountry_append]
  cases hc : p.country with
  | none =>
    rw [hc] at hcountry
    simp [updateEntry, optTruthy, hasLangCountry, hasLangAnyCountry, hlang, hcountry, hm, hf,
      hcs]
    cases specFirstCountry ops l p.language <;> rfl
  | some c =>
    rw [hc] at hcountry
    have hcne : c ≠ [] := (parse_fields ops hops _ p hp).2.1 c hc
    have hce := isEmpty_eq_false_of_ne_nil hcne
    obtain ⟨u1, u2, u3⟩ := updateEntry_some e0 c x hcne
    rw [u1, u2, u3]
    refine ⟨?_, ?_, ?_⟩
    · simp [hasLangCountry, hlang, hcountry, hm]
    · rw [← hf] at htr
      simp only [hasLangAnyCountry, hlang, hcountry, ← hf]
      cases hfc : e0.firstCountry with
      | none => simp [optTruthy]
      | some s =>
        rw [hfc] at htr
        simp [htr]
    · intro C
      simp only [hasLangCountry, hlang, hcountry, objGet_objSet, hcs]
      by_cases hcC : c = C <;> simp [hcC]

theorem parse_of_allParse {ops : CaseOps} {supported : List JsString}
    (h : AllParse ops supported) (x : JsString) (hx : x ∈ supported) :
    ∃ p, parse ops (.str x) = .ok (some p) := by
  have hx' := h x hx
  cases hl : langOf ops x with
  | none => simp [hl] at hx'
  | some L =>
    obtain ⟨p, hp, -⟩ := parse_of_langOf hl
    exact ⟨p, hp⟩

theorem ne_nil_of_parse {ops : CaseOps} {x : JsString} {p : ParsedLocale}
    (hp : parse ops (.str x) = .ok (some p)) : x ≠ [] := by
  intro hx
  subst hx
  simp [parse, JsVal.truthy] at hp

theorem find?_reverse_eq_some {α : Type} (q : α → Bool) (l : List α) (r : α)
    (h : l.reverse.find? q = some r) :
    q r = true ∧ ∃ pre post, l = pre ++ r :: post ∧ ∀ t ∈ post, q t = false := by
  obtain ⟨hq, as, bs, hl, has⟩ := List.find?_eq_some.1 h
  refine ⟨hq, bs.reverse, as.reverse, ?_, ?_⟩
  · have := congrArg List.reverse hl
    simpa using this
  · intro t ht
    have := has t (by simpa using ht)
    simpa using this

theorem truthy_str_of_truthy {v : JsVal} (h : v.truthy = true) :
    ∃ s : JsString, v = .str s ∧ s ≠ [] := by
  cases v with
  | undefined => simp [JsVal.truthy] at h
  | null => simp [JsVal.truthy] at h
  | str s =>
    refine ⟨s, rfl, ?_⟩
    intro hs
    subst hs
    simp [JsVal.truthy] at h

theorem absentAsUndefined_bestOfEntry (e : LanguageEntry) (c : Option JsString) (flag : Bool) :
    absentAsUndefined (bestOfEntry e c .null flag) =
      absentAsUndefined (bestOfEntry e c .undefined flag) := by
  unfold bestOfEntry
  cases e.main
  · simp only []
    split_ifs <;> rfl
  · simp only []

theorem optVal_origin (ops : CaseOps) (supported : List JsString) (L : JsString)
    (o : Option JsString)
    (ho : ∀ s, o = some s → s ∈ supported ∧ langOf ops s = some L)
    (ht : optTruthy o = true) :
    ∃ s ∈ supported, optVal o = .str s ∧ langOf ops s = some L := by
  cases o with
  | none => simp [optTruthy] at ht
  | some s => exact ⟨s, (ho s rfl).1, rfl, (ho s rfl).2⟩

theorem idxGet_of_not_inherited (lgs : SupportedIndex) (k : JsString)
    (hk : isInheritedKey k = false) :
    idxGet lgs k = (objGet lgs.own k).map IndexValue.entry := by
  unfold idxGet
  cases objGet lgs.own k <;> simp [hk]

theorem idxGet_inherited (lgs : SupportedIndex) (k : JsString)
    (hk : isInheritedKey k = true) (hown : objGet lgs.own k = none) :
    idxGet lgs k = some (.inherited k) := by
  simp [idxGet, hown, hk]

/-- One step of `prepareSupported` on a language that names no member of `Object.prototype`:
the entry of the language is created if needed and updated. -/
theorem prepareStep_entry (ops : CaseOps) (lgs : SupportedIndex) (x : JsString)
    (p : ParsedLocale) (hp : parse ops (.str x) = .ok (some p)) (hl : p.language ≠ [])
    (hk : isInheritedKey p.language = false) :
    ∃ own', prepareStep ops lgs x = .ok { own := own', inheritedMain := lgs.inheritedMain } ∧
      ∀ L, objGet own' L =
        if p.language = L then
          some (updateEntry ((objGet lgs.own p.language).getD emptyEntry) p.country x)
        else objGet lgs.own L := by
  have hle := isEmpty_eq_false_of_ne_nil hl
  cases hg : objGet lgs.own p.language with
  | none =>
    refine ⟨objSet (objSet lgs.own p.language emptyEntry) p.language
      (updateEntry emptyEntry p.country x), ?_, ?_⟩
    · simp only [prepareStep, hp, hle, idxGet, hg, hk, updateEntry, emptyEntry]
      cases hc : optTruthy p.country <;> simp [objGet_objSet]
    · intro L
      simp only [objGet_objSet, Option.getD_none]
      by_cases h : p.language = L <;> simp [h]
  | some e =>
    refine ⟨objSet lgs.own p.language (updateEntry e p.country x), ?_, ?_⟩
    · simp only [prepareStep, hp, hle, idxGet, hg, updateEntry]
      cases hc : optTruthy p.country <;> simp [hg]
    · intro L
      simp only [objGet_objSet, Option.getD_some]

/-- One step of `prepareSupported` on a language that names a member of `Object.prototype` and
has no own entry: a `TypeError` when there is a country, else a write of `main` on the
member. -/
theorem prepareStep_inherited (ops : CaseOps) (lgs : SupportedIndex) (x : JsString)
    (p : ParsedLocale) (hp : parse ops (.str x) = .ok (some p)) (hl : p.language ≠ [])
    (hk : isInheritedKey p.language = true) (hown : objGet lgs.own p.language = none) :
    prepareStep ops lgs x =
      if optTruthy p.country = true then .error .typeError
      else .ok { own := lgs.own,
                 inheritedMain := objSet lgs.inheritedMain p.language x } := by
  have hle := isEmpty_eq_false_of_ne_nil hl
  simp only [prepareStep, hp, hle, idxGet, hown, hk]
  cases hc : optTruthy p.country <;> simp [hown]

theorem inheritedWithCountry_of_parse {ops : CaseOps} {x : JsString} {p : ParsedLocale}
    (hp : parse ops (.str x) = .ok (some p)) :
    inheritedWithCountry ops x = (isInheritedKey p.language && p.country.isSome) := by
  obtain ⟨h1, h2⟩ := langOf_countryOf_of_parse hp
  simp [inheritedWithCountry, h1, h2]

theorem spec_append_other (ops : CaseOps) (l : List JsString) (x L : JsString)
    (h : langOf ops x ≠ some L) :
    specMain ops (l ++ [x]) L = specMain ops l L ∧
    specFirstCountry ops (l ++ [x]) L = specFirstCountry ops l L ∧
    ∀ C, specCountry ops (l ++ [x]) L C = specCountry ops l L C := by
  have hx1 : ∀ C, hasLangCountry ops L C x = false := by
    intro C
    simp [hasLangCountry, h]
  have hx2 : hasLangAnyCountry ops L x = false := by
    simp [hasLangAnyCountry, h]
  refine ⟨?_, ?_, ?_⟩
  · rw [specMain_append]
    simp [hx1]
  · rw [specFirstCountry_append]
    cases specFirstCountry ops l L <;> simp [hx2]
  · intro C
    rw [specCountry_append]
    simp [hx1]

theorem exists_append_other (ops : CaseOps) (l : List JsString) (x L : JsString)
    (h : langOf ops x ≠ some L) :
    (∃ s ∈ l ++ [x], langOf ops s = some L) ↔ ∃ s ∈ l, langOf ops s = some L := by
  constructor
  · rintro ⟨s, hs, hsL⟩
    simp only [List.mem_append, List.mem_singleton] at hs
    rcases hs with hs | rfl
    · exact ⟨s, hs, hsL⟩
    · exact absurd hsL h
  · rintro ⟨s, hs, hsL⟩
    exact ⟨s, by simp [hs], hsL⟩

theorem indexOf_nil (ops : CaseOps) :
    IndexOf ops [] { own := [], inheritedMain := [] } := by
  refine ⟨?_, ?_, ?_⟩
  · intro L
    simp [objGet]
  · intro L e he
    simp [objGet] at he
  · intro k
    simp [objGet, specMain]

/-- One more element whose language names no member of `Object.prototype`. -/
theorem indexOf_step_entry (ops : CaseOps) (hops : ops.KeepsNonEmpty) (l : List JsString)
    (x : JsString) (p : ParsedLocale) (hp : parse ops (.str x) = .ok (some p))
    (hk : isInheritedKey p.language = false) (lgs : SupportedIndex)
    (hidx : IndexOf ops l lgs) (own' : List (JsString × LanguageEntry))
    (hget : ∀ L, objGet own' L =
        if p.language = L then
          some (updateEntry ((objGet lgs.own p.language).getD emptyEntry) p.country x)
        else objGet lgs.own L) :
    IndexOf ops (l ++ [x]) { own := own', inheritedMain := lgs.inheritedMain } := by
  obtain ⟨h1, h2, h3⟩ := hidx
  obtain ⟨hlang, hcountry⟩ := langOf_countryOf_of_parse hp
  refine ⟨?_, ?_, ?_⟩
  · intro L
    simp only []
    rw [hget]
    by_cases hL : p.language = L
    · subst hL
      simp only [if_true, reduceCtorEq, false_iff, not_or, not_not]
      exact ⟨by simp [hk], x, by simp, hlang⟩
    · have hne : langOf ops x ≠ some L := by
        rw [hlang]
        intro h
        exact hL (by simpa using h)
      simp only [hL, if_false, h1 L, exists_append_other ops l x L hne]
  · intro L e he
    simp only [] at he
    rw [hget] at he
    by_cases hL : p.language = L
    · subst hL
      simp only [if_true, Option.some.injEq] at he
      subst he
      apply updateEntry_spec ops hops l x p hp
      cases hg : objGet lgs.own p.language with
      | none =>
        have hno : ¬ ∃ s ∈ l, langOf ops s = some p.language := by
          rcases (h1 _).1 hg with h | h
          · rw [hk] at h
            cases h
          · exact h
        obtain ⟨a, b, c⟩ := spec_none_of_no_lang ops l p.language hno
        simp [emptyEntry, a, b, c, objGet]
      | some e0 => simpa using h2 _ e0 hg
    · simp only [hL, if_false] at he
      have hne : langOf ops x ≠ some L := by
        rw [hlang]
        intro h
        exact hL (by simpa using h)
      obtain ⟨a, b, c⟩ := h2 L e he
      obtain ⟨a', b', c'⟩ := spec_append_other ops l x L hne
      exact ⟨by rw [a', a], by rw [b', b], fun C => by rw [c' C, c C]⟩
  · intro k
    simp only []
    rw [h3 k]
    cases hik : isInheritedKey k with
    | false => simp
    | true =>
      have hne : langOf ops x ≠ some k := by
        rw [hlang]
        intro h
        have : p.language = k := by simpa using h
        rw [this, hik] at hk
        cases hk
      simp [(spec_append_other ops l x k hne).1]

/-- One more element whose language names a member of `Object.prototype`, without country. -/
theorem indexOf_step_inherited (ops : CaseOps) (l : List JsString)
    (x : JsString) (p : ParsedLocale) (hp : parse ops (.str x) = .ok (some p))
    (hk : isInheritedKey p.language = true) (hc : p.country = none) (lgs : SupportedIndex)
    (hidx : IndexOf ops l lgs) :
    IndexOf ops (l ++ [x])
      { own := lgs.own, inheritedMain := objSet lgs.inheritedMain p.language x } := by
  obtain ⟨h1, h2, h3⟩ := hidx
  obtain ⟨hlang, hcountry⟩ := langOf_countryOf_of_parse hp
  rw [hc] at hcountry
  have other : ∀ L, isInheritedKey L = false → langOf ops x ≠ some L := by
    intro L hL
    rw [hlang]
    intro h
    have : p.language = L := by simpa using h
    rw [this, hL] at hk
    cases hk
  refine ⟨?_, ?_, ?_⟩
  · intro L
    simp only []
    rw [h1 L]
    cases hL : isInheritedKey L with
    | true => simp
    | false =>
      rw [exists_append_other ops l x L (other L hL)]
  · intro L e he
    simp only [] at he
    have hL : isInheritedKey L = false := by
      cases hi : isInheritedKey L with
      | false => rfl
      | true =>
        have := (h1 L).2 (Or.inl hi)
        rw [this] at he
        cases he
    obtain ⟨a, b, c⟩ := h2 L e he
    obtain ⟨a', b', c'⟩ := spec_append_other ops l x L (other L hL)
    exact ⟨by rw [a', a], by rw [b', b], fun C => by rw [c' C, c C]⟩
  · intro k
    simp only [objGet_objSet]
    by_cases hpk : p.language = k
    · subst hpk
      rw [specMain_append]
      simp [hk, hasLangCountry, hlang, hcountry]
    · have hne : langOf ops x ≠ some k := by
        rw [hlang]
        intro h
        exact hpk (by simpa using h)
      rw [if_neg hpk, h3 k, (spec_append_other ops l x k hne).1]

/-- The index built from a list whose elements all parse: the construction throws a `TypeError`
when some element has a language that names a member of `Object.prototype` and a country, and
otherwise returns the reference index of the list. -/
theorem prepareSupported_spec (ops : CaseOps) (hops : ops.KeepsNonEmpty)
    (supported : List JsString) (h : AllParse ops supported) :
    ((∃ s ∈ supported, inheritedWithCountry ops s = true) →
      prepareSupported ops supported = .error .typeError) ∧
    ((∀ s ∈ supported, inheritedWithCountry ops s = false) →
      ∃ lgs, prepareSupported ops supported = .ok lgs ∧ IndexOf ops supported lgs) := by
  induction supported using List.reverseRecOn with
  | nil =>
    refine ⟨?_, fun _ => ⟨_, rfl, indexOf_nil ops⟩⟩
    rintro ⟨s, hs, -⟩
    cases hs
  | append_singleton l x ih =>
    obtain ⟨iha, ihb⟩ := ih (fun s hs => h s (by simp [hs]))
    obtain ⟨p, hp⟩ := parse_of_allParse h x (by simp)
    have hne : p.language ≠ [] := (parse_fields ops hops _ p hp).1
    have hx := inheritedWithCountry_of_parse hp
    by_cases hbad : ∃ s ∈ l, inheritedWithCountry ops s = true
    · have herr := iha hbad
      constructor
      · intro _
        unfold prepareSupported at herr ⊢
        rw [prepareFrom_append, herr]
      · intro hall
        obtain ⟨s, hs, hsb⟩ := hbad
        rw [hall s (by simp [hs])] at hsb
        cases hsb
    · have hgood : ∀ s ∈ l, inheritedWithCountry ops s = false := by
        intro s hs
        cases hb : inheritedWithCountry ops s with
        | false => rfl
        | true => exact absurd ⟨s, hs, hb⟩ hbad
      obtain ⟨lgs, hl, hidx⟩ := ihb hgood
      have hrun : prepareSupported ops (l ++ [x]) = prepareStep ops lgs x := by
        unfold prepareSupported at hl ⊢
        rw [prepareFrom_append, hl]
      cases hk : isInheritedKey p.language with
      | false =>
        rw [hk] at hx
        obtain ⟨own', hstep, hget⟩ := prepareStep_entry ops lgs x p hp hne hk
        constructor
        · rintro ⟨s, hs, hsb⟩
          simp only [List.mem_append, List.mem_singleton] at hs
          rcases hs with hs | rfl
          · exact absurd ⟨s, hs, hsb⟩ hbad
          · rw [hx] at hsb
            cases hsb
        · intro _
          exact ⟨_, hrun.trans hstep, indexOf_step_entry ops hops l x p hp hk lgs hidx own' hget⟩
      | true =>
        rw [hk] at hx
        have hown : objGet lgs.own p.language = none := (hidx.1 _).2 (Or.inl hk)
        have hstep := prepareStep_inherited ops lgs x p hp hne hk hown
        cases hc : p.country with
        | none =>
          rw [hc] at hx hstep
          constructor
          · rintro ⟨s, hs, hsb⟩
            simp only [List.mem_append, List.mem_singleton] at hs
            rcases hs with hs | rfl
            · exact absurd ⟨s, hs, hsb⟩ hbad
            · rw [hx] at hsb
              cases hsb
          · intro _
            refine ⟨_, hrun.trans (hstep.trans ?_),
              indexOf_step_inherited ops l x p hp hk hc lgs hidx⟩
            simp [optTruthy]
        | some c =>
          rw [hc] at hx hstep
          have hcne : c ≠ [] := (parse_fields ops hops _ p hp).2.1 c hc
          have ht : optTruthy (some c) = true := by
            simp [optTruthy, isEmpty_eq_false_of_ne_nil hcne]
          constructor
          · intro _
            rw [hrun, hstep, ht]
            rfl
          · intro hall
            have := hall x (by simp)
            rw [hx] at this
            cases this

/-- When the construction returns, what it returns is the reference index of the list. -/
theorem prepareSupported_indexOf (ops : CaseOps) (hops : ops.KeepsNonEmpty)
    (supported : List JsString) (h : AllParse ops supported) (lgs : SupportedIndex)
    (hprep : prepareSupported ops supported = .ok lgs) : IndexOf ops supported lgs := by
  obtain ⟨ha, hb⟩ := prepareSupported_spec ops hops supported h
  by_cases hbad : ∃ s ∈ supported, inheritedWithCountry ops s = true
  · rw [ha hbad] at hprep
    cases hprep
  · have hgood : ∀ s ∈ supported, inheritedWithCountry ops s = false := by
      intro s hs
      cases hb : inheritedWithCountry ops s with
      | false => rfl
      | true => exact absurd ⟨s, hs, hb⟩ hbad
    obtain ⟨lgs', hl, hidx⟩ := hb hgood
    rw [hl] at hprep
    cases hprep
    exact hidx

/-! ## C6, C7: an unparseable string reaches the destructuring of the result of parse -/

/-- C6 (failing input): `getBest(["en"], "_US", "en", false)` throws a `TypeError`; it does not
return the default locale `"en"`. -/
theorem getBest_unparseable_locale_throws :
    getBestFuel asciiOps 3 (.array ["en".toList]) (.str "_US".toList) (.str "en".toList) false =
      some (.error .typeError) ∧
    parse asciiOps (.str "_US".toList) = .ok none ∧
    getBestFuel asciiOps 3 (.array ["en".toList]) (.str "_US".toList) (.str "en".toList) false ≠
      some (.ok (.str "en".toList)) := by
  decide

/-- C7 (failing input): `prepareSupported(["en", "a-b-c-d-e"])` throws a `TypeError`, which
does not carry the offending string; it does not throw the error `Locale a-b-c-d-e is not
parsable`. -/
theorem prepareSupported_unparseable_entry_throws :
    prepareSupported asciiOps ["en".toList, "a-b-c-d-e".toList] = .error .typeError ∧
    parse asciiOps (.str "a-b-c-d-e".toList) = .ok none ∧
    prepareSupported asciiOps ["en".toList, "a-b-c-d-e".toList] ≠
      .error (.error "Locale a-b-c-d-e is not parsable".toList) := by
  decide

/-! ## C12: the keyword after `@` -/

theorem takeWhile_append_at (B K : JsString) (hB : ∀ c ∈ B, c ≠ '@') :
    (B ++ '@' :: K).takeWhile (fun c => c != '@') = B ∧
    (B ++ '@' :: K).dropWhile (fun c => c != '@') = '@' :: K := by
  induction B with
  | nil => simp [List.takeWhile_cons, List.dropWhile_cons]
  | cons c cs ih =>
    have hc : c ≠ '@' := hB c (by simp)
    obtain ⟨i1, i2⟩ := ih (fun y hy => hB y (by simp [hy]))
    simp [List.takeWhile_cons, List.dropWhile_cons, hc, i1, i2]

theorem takeWhile_of_no_at (B : JsString) (hB : ∀ c ∈ B, c ≠ '@') :
    B.takeWhile (fun c => c != '@') = B := by
  rw [List.takeWhile_eq_self_iff]
  intro c hc
  simpa using hB c hc

theorem indexOf_append_at (B K : JsString) (hB : ∀ c ∈ B, c ≠ '@') :
    indexOf '@' (B ++ '@' :: K) = some B.length := by
  induction B with
  | nil => simp [indexOf]
  | cons c cs ih =>
    have hc : c ≠ '@' := hB c (by simp)
    simp [indexOf, hc, ih (fun y hy => hB y (by simp [hy]))]

theorem keywordOf_append_at (B K : JsString) (hB : ∀ c ∈ B, c ≠ '@') :
    keywordOf (B ++ '@' :: K) = some K := by
  simp [keywordOf, indexOf_append_at B K hB]

theorem partsOf_append_at (B K : JsString) (hB : ∀ c ∈ B, c ≠ '@') :
    partsOf (B ++ '@' :: K) = partsOf B := by
  rw [partsOf_eq_specSegments, partsOf_eq_specSegments]
  unfold specSegments
  rw [(takeWhile_append_at B K hB).1, takeWhile_of_no_at B hB]

theorem parseByShape_keyword (ops : CaseOps) (kw K : Option JsString) (ps : List JsString)
    (p : ParsedLocale) (h : parseByShape ops kw ps = some p) (hk : p.keyword = kw) (hkw : kw = none) :
    parseByShape ops K ps = some { p with keyword := K } := by
  subst hkw
  rcases ps with _ | ⟨l, _ | ⟨a, _ | ⟨b, _ | ⟨c, _ | ⟨d, rest⟩⟩⟩⟩⟩
  all_goals simp only [parseByShape] at h ⊢
  all_goals try split_ifs at h ⊢
  all_goals try cases h
  all_goals first
    | rfl
    | (simp at hk)

/-- C12: for every string `B` without `@` that `parse` turns into a record without keyword, and
every string `K`, `parse` of `B@K` is the same record with the keyword `K`, character for
character. -/
theorem parse_keyword_verbatim (ops : CaseOps) (B K : JsString) (p : ParsedLocale)
    (hB : ∀ c ∈ B, c ≠ '@')
    (hp : parse ops (.str B) = .ok (some p)) (hk : p.keyword = none) :
    parse ops (.str (B ++ '@' :: K)) =
      .ok (some { keyword := some K, language := p.language, variant := p.variant,
                  country := p.country, script := p.script }) := by
  have hBne := ne_nil_of_parse hp
  rw [parse_str_eq] at hp ⊢
  rw [isEmpty_eq_false_of_ne_nil hBne] at hp
  have hne : (B ++ '@' :: K).isEmpty = false := by
    cases B <;> rfl
  rw [hne, keywordOf_append_at B K hB, partsOf_append_at B K hB]
  simp only [Bool.false_eq_true, if_false, Except.ok.injEq] at hp ⊢
  have hkw : keywordOf B = none := by
    simp [keywordOf, indexOf_eq_none '@' B hB]
  rw [hkw] at hp
  exact parseByShape_keyword ops none (some K) _ p hp hk rfl

/-- Witness for C12 at `de@collation=phonebook`. -/
theorem parse_keyword_verbatim_witness :
    parse asciiOps (.str ("de".toList ++ '@' :: "collation=Phone-Book_@x".toList)) =
      .ok (some { keyword := some "collation=Phone-Book_@x".toList, language := "de".toList,
                  variant := none, country := none, script := none }) :=
  parse_keyword_verbatim asciiOps "de".toList "collation=Phone-Book_@x".toList
    { keyword := none, language := "de".toList } (by decide) (by decide) rfl

/-! ## C13, C15: four segments, and the oversized country -/

theorem partsOf_of_no_at (B : JsString) (hB : ∀ c ∈ B, c ≠ '@') :
    partsOf B = split '_' (replaceAll '-' '_' B) := by
  simp [partsOf, indexOf_eq_none '@' B hB]

theorem isDelim_ne_at {d : Char} (hd : IsDelim d) : d ≠ '@' := by
  rcases hd with rfl | rfl <;> decide

theorem parseByShape_variant (ops : CaseOps) (kw : Option JsString) (ps : List JsString)
    (p : ParsedLocale) (v : JsString) (h : parseByShape ops kw ps = some p)
    (hv : p.variant = some v) : ps.length = 4 := by
  rcases ps with _ | ⟨l, _ | ⟨a, _ | ⟨b, _ | ⟨c, _ | ⟨d, rest⟩⟩⟩⟩⟩
  all_goals simp only [parseByShape] at h
  all_goals try split_ifs at h
  all_goals try cases h
  all_goals first
    | rfl
    | (simp at hv)

/-- C13: for non-empty segments `L`, `S`, `C`, `V` without `-`, `_`, `@`, with `C` of at most
three code units, `parse` of `L-S-C-V` is the record with language `lower(L)`, script
`capitalize(lower(S))`, country `upper(C)`, variant `upper(V)` and no keyword; and whenever a
record returned by `parse` has a variant, the identifier before `@` has exactly four
segments. -/
theorem parse_four_segments (ops : CaseOps) (L S C V : JsString) (d₁ d₂ d₃ : Char)
    (hL : PlainSegment L) (hS : PlainSegment S) (hC : PlainSegment C) (hV : PlainSegment V)
    (hlen : jsLength C ≤ 3) (hd₁ : IsDelim d₁) (hd₂ : IsDelim d₂) (hd₃ : IsDelim d₃) :
    parse ops (.str (L ++ d₁ :: (S ++ d₂ :: (C ++ d₃ :: V)))) =
      .ok (some { keyword := none, language := ops.toLowerCase L,
                  variant := some (ops.toUpperCase V), country := some (ops.toUpperCase C),
                  script := some (ops.capitalize (ops.toLowerCase S)) }) ∧
    (∀ (s : JsString) (p : ParsedLocale) (v : JsString),
      parse ops (.str s) = .ok (some p) → p.variant = some v →
        (specSegments s).length = 4) := by
  constructor
  · have hLe := isEmpty_eq_false_of_ne_nil hL.1
    have hSe := isEmpty_eq_false_of_ne_nil hS.1
    have hCe := isEmpty_eq_false_of_ne_nil hC.1
    have hVe := isEmpty_eq_false_of_ne_nil hV.1
    have hlen' : ¬ 3 < jsLength C := by omega
    have hno : ∀ c ∈ L ++ d₁ :: (S ++ d₂ :: (C ++ d₃ :: V)), c ≠ '@' := by
      intro c hc
      simp only [List.mem_append, List.mem_cons] at hc
      rcases hc with h | rfl | h | rfl | h | rfl | h
      · exact (hL.2 c h).2.2
      · exact isDelim_ne_at hd₁
      · exact (hS.2 c h).2.2
      · exact isDelim_ne_at hd₂
      · exact (hC.2 c h).2.2
      · exact isDelim_ne_at hd₃
      · exact (hV.2 c h).2.2
    have hkw : keywordOf (L ++ d₁ :: (S ++ d₂ :: (C ++ d₃ :: V))) = none := by
      simp [keywordOf, indexOf_eq_none '@' _ hno]
    have hne : (L ++ d₁ :: (S ++ d₂ :: (C ++ d₃ :: V))).isEmpty = false := by
      cases L <;> rfl
    rw [parse_str_eq, hne, hkw, partsOf_of_no_at _ hno, parts_cons L _ d₁ hL hd₁,
      parts_cons S _ d₂ hS hd₂, parts_cons C V d₃ hC hd₃, parts_single V hV]
    simp [parseByShape, caseField, hLe, hSe, hCe, hVe, hlen']
  · intro s p v hp hv
    have hs := isEmpty_eq_false_of_ne_nil (ne_nil_of_parse hp)
    rw [parse_str_eq, hs] at hp
    simp only [Bool.false_eq_true, if_false, Except.ok.injEq] at hp
    rw [← partsOf_eq_specSegments]
    exact parseByShape_variant ops _ _ p v hp hv

/-- Witness for C13 at `sr-Latn_RS-revised`. -/
theorem parse_four_segments_witness :
    parse asciiOps (.str "sr-latn_rs-revised".toList) =
      .ok (some { keyword := none, language := "sr".toList,
                  variant := some "REVISED".toList, country := some "RS".toList,
                  script := some "Latn".toList }) ∧
    (∀ (s : JsString) (p : ParsedLocale) (v : JsString),
      parse asciiOps (.str s) = .ok (some p) → p.variant = some v →
        (specSegments s).length = 4) :=
  parse_four_segments asciiOps "sr".toList "latn".toList "rs".toList "revised".toList
    '-' '_' '-' (by decide) (by decide) (by decide) (by decide) (by decide) (by decide)
    (by decide) (by decide)

theorem specSegments_ne_nil_arg {s : JsString} {l : JsString} {rest : List JsString}
    (hl : l ≠ []) (h : specSegments s = l :: rest) : s.isEmpty = false := by
  cases s with
  | nil =>
    simp [specSegments] at h
    exact absurd h.1.symm (fun e => hl e.symm)
  | cons c cs => rfl

/-- C15: when the segment `x` in country position has more than three code units, `parse` stores
`x` as it is as keyword, whatever follows `@`, sets no script, and takes the country from the
segment before `x` when there is one after the language and it is non-empty.  Country position
is the last segment of a two- or three-segment identifier and the third segment of a
four-segment one.  In particular `parse` of `L-x` and of `L-x@K` is the record with language
`lower(L)` and keyword `x`. -/
theorem parse_oversized_country (ops : CaseOps) (l x : JsString) (hl : l ≠ [])
    (hx : 3 < jsLength x) :
    (∀ s, specSegments s = [l, x] →
      parse ops (.str s) =
        .ok (some { keyword := some x, language := ops.toLowerCase l,
                    variant := none, country := none, script := none })) ∧
    (∀ s a, specSegments s = [l, a, x] →
      parse ops (.str s) =
        .ok (some { keyword := some x, language := ops.toLowerCase l,
                    variant := none, country := caseField ops.toUpperCase a,
                    script := none })) ∧
    (∀ s a v, specSegments s = [l, a, x, v] →
      parse ops (.str s) =
        .ok (some { keyword := some x, language := ops.toLowerCase l,
                    variant := caseField ops.toUpperCase v,
                    country := caseField ops.toUpperCase a, script := none })) ∧
    (∀ (K : JsString) (d : Char), PlainSegment l → PlainSegment x → IsDelim d →
      parse ops (.str (l ++ d :: x)) =
        .ok (some { keyword := some x, language := ops.toLowerCase l,
                    variant := none, country := none, script := none }) ∧
      parse ops (.str (l ++ d :: (x ++ '@' :: K))) =
        .ok (some { keyword := some x, language := ops.toLowerCase l,
                    variant := none, country := none, script := none })) := by
  have hle := isEmpty_eq_false_of_ne_nil hl
  have two : ∀ s, specSegments s = [l, x] →
      parse ops (.str s) =
        .ok (some { keyword := some x, language := ops.toLowerCase l,
                    variant := none, country := none, script := none }) := by
    intro s hs
    rw [parse_str_eq, specSegments_ne_nil_arg hl hs, partsOf_eq_specSegments, hs]
    simp [parseByShape, hle, hx]
  refine ⟨two, ?_, ?_, ?_⟩
  · intro s a hs
    rw [parse_str_eq, specSegments_ne_nil_arg hl hs, partsOf_eq_specSegments, hs]
    simp [parseByShape, hle, hx]
  · intro s a v hs
    rw [parse_str_eq, specSegments_ne_nil_arg hl hs, partsOf_eq_specSegments, hs]
    simp [parseByShape, hle, hx]
  · intro K d hL hX hd
    have hno : ∀ c ∈ l ++ d :: x, c ≠ '@' := by
      intro c hc
      simp only [List.mem_append, List.mem_cons] at hc
      rcases hc with h | rfl | h
      · exact (hL.2 c h).2.2
      · exact isDelim_ne_at hd
      · exact (hX.2 c h).2.2
    have hseg : specSegments (l ++ d :: x) = [l, x] := by
      rw [← partsOf_eq_specSegments, partsOf_of_no_at _ hno, parts_cons l x d hL hd,
        parts_single x hX]
    constructor
    · exact two _ hseg
    · apply two
      have := partsOf_append_at (l ++ d :: x) K hno
      rw [partsOf_eq_specSegments, partsOf_eq_specSegments, hseg] at this
      simpa using this

/-- Witness for C15 at the segments `en` and `POSIX`. -/
theorem parse_oversized_country_witness :
    (∀ s, specSegments s = ["en".toList, "POSIX".toList] →
      parse asciiOps (.str s) =
        .ok (some { keyword := some "POSIX".toList, language := "en".toList,
                    variant := none, country := none, script := none })) ∧
    (∀ s a, specSegments s = ["en".toList, a, "POSIX".toList] →
      parse asciiOps (.str s) =
        .ok (some { keyword := some "POSIX".toList, language := "en".toList,
                    variant := none, country := caseField asciiOps.toUpperCase a,
                    script := none })) ∧
    (∀ s a v, specSegments s = ["en".toList, a, "POSIX".toList, v] →
      parse asciiOps (.str s) =
        .ok (some { keyword := some "POSIX".toList, language := "en".toList,
                    variant := caseField asciiOps.toUpperCase v,
                    country := caseField asciiOps.toUpperCase a, script := none })) ∧
    (∀ (K : JsString) (d : Char), PlainSegment "en".toList → PlainSegment "POSIX".toList →
      IsDelim d →
      parse asciiOps (.str ("en".toList ++ d :: "POSIX".toList)) =
        .ok (some { keyword := some "POSIX".toList, language := "en".toList,
                    variant := none, country := none, script := none }) ∧
      parse asciiOps (.str ("en".toList ++ d :: ("POSIX".toList ++ '@' :: K))) =
        .ok (some { keyword := some "POSIX".toList, language := "en".toList,
                    variant := none, country := none, script := none })) :=
  parse_oversized_country asciiOps "en".toList "POSIX".toList (by decide) (by decide)

/-! ## C20: the two delimiters are interchangeable -/

theorem keywordOf_eq_dropWhile (s : JsString) :
    keywordOf s =
      match s.dropWhile (fun c => c != '@') with
      | [] => none
      | _ :: k => some k := by
  unfold keywordOf
  induction s with
  | nil => simp [indexOf]
  | cons c cs ih =>
    by_cases hc : c = '@'
    · simp [indexOf, hc, List.dropWhile_cons]
    · cases hi : indexOf '@' cs with
      | none =>
        rw [hi] at ih
        simp only at ih
        simp [indexOf, hc, hi, List.dropWhile_cons, ← ih]
      | some i =>
        rw [hi] at ih
        simp only at ih
        simp [indexOf, hc, hi, List.dropWhile_cons, ← ih]

theorem partsOf_eq_takeWhile (s : JsString) :
    partsOf s = split '_' (replaceAll '-' '_' (s.takeWhile (fun c => c != '@'))) := by
  unfold partsOf
  rw [take_indexOf_eq_takeWhile]

theorem replaceAll_eq_of_zip (a b : JsString) (hlen : a.length = b.length)
    (h : ∀ p ∈ a.zip b, p.1 = p.2 ∨ (IsDelim p.1 ∧ IsDelim p.2)) :
    replaceAll '-' '_' a = replaceAll '-' '_' b := by
  induction a generalizing b with
  | nil =>
    cases b with
    | nil => rfl
    | cons y ys => simp at hlen
  | cons x xs ih =>
    cases b with
    | nil => simp at hlen
    | cons y ys =>
      have hxy : x = y ∨ (IsDelim x ∧ IsDelim y) := h (x, y) (by simp)
      have htail := ih ys (by simpa using hlen) (fun p hp => h p (by simp [hp]))
      have hhead : (if x = '-' then '_' else x) = (if y = '-' then '_' else y) := by
        rcases hxy with rfl | ⟨hx, hy⟩
        · rfl
        · rcases hx with rfl | rfl <;> rcases hy with rfl | rfl <;> decide
      simp only [replaceAll, List.map_cons] at htail ⊢
      rw [hhead, htail]

/-- C20: if `s'` is obtained from `s` by exchanging `-` and `_` at some places before the first
`@`, then `parse` returns the same result on both: `undefined` on both, or the same record. -/
theorem parse_delims_interchangeable (ops : CaseOps) (s s' : JsString)
    (h : SameUpToDelims s s') : parse ops (.str s) = parse ops (.str s') := by
  obtain ⟨hlen, hzip, hdrop⟩ := h
  have hparts : partsOf s = partsOf s' := by
    rw [partsOf_eq_takeWhile, partsOf_eq_takeWhile, replaceAll_eq_of_zip _ _ hlen hzip]
  have hkw : keywordOf s = keywordOf s' := by
    rw [keywordOf_eq_dropWhile, keywordOf_eq_dropWhile, hdrop]
  have hempty : s.isEmpty = s'.isEmpty := by
    have e1 := List.takeWhile_append_dropWhile (fun c => c != '@') s
    have e2 := List.takeWhile_append_dropWhile (fun c => c != '@') s'
    have l1 := congrArg List.length e1
    have l2 := congrArg List.length e2
    rw [List.length_append] at l1 l2
    rw [hlen, hdrop, l2] at l1
    cases s with
    | nil =>
      cases s' with
      | nil => rfl
      | cons y ys => simp at l1
    | cons x xs =>
      cases s' with
      | nil => simp at l1
      | cons y ys => rfl
  rw [parse_str_eq, parse_str_eq, hparts, hkw, hempty]

/-- Witness for C20: `zh-Hans_CN@a-b_c` and `zh_Hans-CN@a-b_c`. -/
theorem parse_delims_interchangeable_witness :
    parse asciiOps (.str "zh-Hans_CN@a-b_c".toList) =
      parse asciiOps (.str "zh_Hans-CN@a-b_c".toList) :=
  parse_delims_interchangeable asciiOps "zh-Hans_CN@a-b_c".toList "zh_Hans-CN@a-b_c".toList
    (by decide)

/-! ## The case conversions on ASCII letters -/

theorem char_eq_of_toNat {a b : Char} (h : a.toNat = b.toNat) : a = b := by
  rw [← Char.ofNat_toNat a, ← Char.ofNat_toNat b, h]

theorem asciiLower_toNat (c : Char) :
    (asciiLower c).toNat = if 65 ≤ c.toNat ∧ c.toNat ≤ 90 then c.toNat + 32 else c.toNat := by
  unfold asciiLower
  split_ifs with h
  · obtain ⟨h1, h2⟩ := h
    generalize c.toNat = n at h1 h2
    interval_cases n <;> rfl
  · rfl

theorem asciiUpper_toNat (c : Char) :
    (asciiUpper c).toNat = if 97 ≤ c.toNat ∧ c.toNat ≤ 122 then c.toNat - 32 else c.toNat := by
  unfold asciiUpper
  split_ifs with h
  · obtain ⟨h1, h2⟩ := h
    generalize c.toNat = n at h1 h2
    interval_cases n <;> rfl
  · rfl

theorem asciiLower_idem (c : Char) : asciiLower (asciiLower c) = asciiLower c := by
  apply char_eq_of_toNat
  rw [asciiLower_toNat (asciiLower c), asciiLower_toNat c]
  split_ifs <;> omega

theorem asciiUpper_idem (c : Char) : asciiUpper (asciiUpper c) = asciiUpper c := by
  apply char_eq_of_toNat
  rw [asciiUpper_toNat (asciiUpper c), asciiUpper_toNat c]
  split_ifs <;> omega

theorem asciiUpper_lower_upper (c : Char) :
    asciiUpper (asciiLower (asciiUpper c)) = asciiUpper c := by
  apply char_eq_of_toNat
  rw [asciiUpper_toNat (asciiLower (asciiUpper c)), asciiLower_toNat (asciiUpper c),
    asciiUpper_toNat c]
  split_ifs <;> omega

theorem asciiLower_plain (c : Char) (h : c ≠ '-' ∧ c ≠ '_' ∧ c ≠ '@') :
    asciiLower c ≠ '-' ∧ asciiLower c ≠ '_' ∧ asciiLower c ≠ '@' := by
  have hn := asciiLower_toNat c
  have h1 : c.toNat ≠ 45 := fun e => h.1 (char_eq_of_toNat e)
  have h2 : c.toNat ≠ 95 := fun e => h.2.1 (char_eq_of_toNat e)
  have h3 : c.toNat ≠ 64 := fun e => h.2.2 (char_eq_of_toNat e)
  refine ⟨?_, ?_, ?_⟩ <;>
  · intro e
    rw [e] at hn
    have : ('-' : Char).toNat = 45 := rfl
    have : ('_' : Char).toNat = 95 := rfl
    have : ('@' : Char).toNat = 64 := rfl
    split_ifs at hn <;> omega

theorem asciiUpper_plain (c : Char) (h : c ≠ '-' ∧ c ≠ '_' ∧ c ≠ '@') :
    asciiUpper c ≠ '-' ∧ asciiUpper c ≠ '_' ∧ asciiUpper c ≠ '@' := by
  have hn := asciiUpper_toNat c
  have h1 : c.toNat ≠ 45 := fun e => h.1 (char_eq_of_toNat e)
  have h2 : c.toNat ≠ 95 := fun e => h.2.1 (char_eq_of_toNat e)
  have h3 : c.toNat ≠ 64 := fun e => h.2.2 (char_eq_of_toNat e)
  refine ⟨?_, ?_, ?_⟩ <;>
  · intro e
    rw [e] at hn
    have : ('-' : Char).toNat = 45 := rfl
    have : ('_' : Char).toNat = 95 := rfl
    have : ('@' : Char).toNat = 64 := rfl
    split_ifs at hn <;> omega

theorem asciiOps_idempotent : asciiOps.Idempotent := by
  intro s
  simp [asciiOps, asciiLower_idem, asciiUpper_idem]

theorem asciiOps_keepsPlain : asciiOps.KeepsPlain := by
  intro s hs
  refine ⟨?_, ?_, ?_⟩
  · intro c hc
    simp only [asciiOps, List.mem_map] at hc
    obtain ⟨x, hx, rfl⟩ := hc
    exact asciiLower_plain x (hs x hx)
  · intro c hc
    simp only [asciiOps, List.mem_map] at hc
    obtain ⟨x, hx, rfl⟩ := hc
    exact asciiUpper_plain x (hs x hx)
  · cases s with
    | nil => intro c hc; simp [asciiOps] at hc
    | cons y ys =>
      intro c hc
      simp only [asciiOps, List.mem_cons, List.mem_map] at hc
      rcases hc with rfl | ⟨x, hx, rfl⟩
      · exact asciiUpper_plain y (hs y (by simp))
      · exact asciiLower_plain x (hs x (by simp [hx]))

/-! ## The case conversions on ASCII strings, and on `ß` -/

theorem asciiLower_lt (c : Char) (h : c.toNat < 128) : (asciiLower c).toNat < 128 := by
  rw [asciiLower_toNat]
  split_ifs <;> omega

theorem asciiUpper_lt (c : Char) (h : c.toNat < 128) : (asciiUpper c).toNat < 128 := by
  rw [asciiUpper_toNat]
  split_ifs <;> omega

theorem isAscii_map_lower {s : JsString} (h : IsAscii s) : IsAscii (s.map asciiLower) := by
  intro c hc
  obtain ⟨x, hx, rfl⟩ := List.mem_map.1 hc
  exact asciiLower_lt x (h x hx)

theorem asciiUpper_lower (c : Char) : asciiUpper (asciiLower c) = asciiUpper c := by
  apply char_eq_of_toNat
  rw [asciiUpper_toNat (asciiLower c), asciiLower_toNat c, asciiUpper_toNat c]
  split_ifs <;> omega

theorem asciiLower_upper_lower (c : Char) :
    asciiLower (asciiUpper (asciiLower c)) = asciiLower c := by
  apply char_eq_of_toNat
  rw [asciiLower_toNat (asciiUpper (asciiLower c)), asciiUpper_toNat (asciiLower c),
    asciiLower_toNat c]
  split_ifs <;> omega

theorem asciiOps_asciiExact : asciiOps.AsciiExact := fun _ _ => ⟨rfl, rfl, rfl⟩

/-- The script of an ASCII segment, under conversions that are the ASCII ones on ASCII
strings. -/
theorem script_of_ascii (ops : CaseOps) (hax : ops.AsciiExact) (c0 : Char) (cs0 : JsString)
    (ha : IsAscii (c0 :: cs0)) :
    ops.capitalize (ops.toLowerCase (c0 :: cs0)) = asciiUpper c0 :: cs0.map asciiLower := by
  rw [(hax _ ha).1]
  have h2 : IsAscii (asciiOps.toLowerCase (c0 :: cs0)) := isAscii_map_lower ha
  rw [(hax _ h2).2.2]
  simp [asciiOps, asciiUpper_lower, asciiLower_idem]

theorem isAscii_script {c0 : Char} {cs0 : JsString} (ha : IsAscii (c0 :: cs0)) :
    IsAscii (asciiUpper c0 :: cs0.map asciiLower) := by
  intro c hc
  simp only [List.mem_cons, List.mem_map] at hc
  rcases hc with rfl | ⟨x, hx, rfl⟩
  · exact asciiUpper_lt c0 (ha c0 (by simp))
  · exact asciiLower_lt x (ha x (by simp [hx]))

/-- The script of an ASCII segment has an upper-case first letter and a lower-case remainder. -/
theorem script_shape_of_ascii (ops : CaseOps) (hax : ops.AsciiExact) (a : JsString)
    (hne : a ≠ []) (ha : IsAscii a) :
    ∃ c rest, ops.capitalize (ops.toLowerCase a) = c :: rest ∧
      ops.toUpperCase [c] = [c] ∧ ops.toLowerCase rest = rest := by
  cases a with
  | nil => exact absurd rfl hne
  | cons c0 cs0 =>
    have hs := isAscii_script ha
    refine ⟨asciiUpper c0, cs0.map asciiLower, script_of_ascii ops hax c0 cs0 ha, ?_, ?_⟩
    · have h1 : IsAscii [asciiUpper c0] := by
        intro c hc
        simp only [List.mem_singleton] at hc
        subst hc
        exact hs _ (by simp)
      rw [(hax _ h1).2.1]
      simp [asciiOps, asciiUpper_idem]
    · have h2 : IsAscii (cs0.map asciiLower) := by
        intro c hc
        exact hs c (by simp [hc])
      rw [(hax _ h2).1]
      simp [asciiOps, asciiLower_idem]

/-- The script of an ASCII segment is its own script. -/
theorem script_stable_of_ascii (ops : CaseOps) (hax : ops.AsciiExact) (a : JsString)
    (ha : IsAscii a) (hne : a ≠ []) :
    ops.capitalize (ops.toLowerCase (ops.capitalize (ops.toLowerCase a))) =
      ops.capitalize (ops.toLowerCase a) := by
  cases a with
  | nil => exact absurd rfl hne
  | cons c0 cs0 =>
    rw [script_of_ascii ops hax c0 cs0 ha,
      script_of_ascii ops hax (asciiUpper c0) (cs0.map asciiLower) (isAscii_script ha)]
    simp [asciiUpper_idem, asciiLower_idem]

theorem sharpSUpper_ne_nil (c : Char) : sharpSUpper c ≠ [] := by
  unfold sharpSUpper
  split_ifs <;> simp

theorem sharpSUpper_of_ascii (c : Char) (h : c.toNat < 128) :
    sharpSUpper c = [asciiUpper c] := by
  unfold sharpSUpper
  have : c ≠ 'ß' := by
    intro e
    rw [e] at h
    revert h
    decide
  simp [this]

theorem sharpSOps_keepsNonEmpty : sharpSOps.KeepsNonEmpty := by
  intro s hs
  cases s with
  | nil => exact absurd rfl hs
  | cons c cs =>
    refine ⟨by simp [sharpSOps], ?_, ?_⟩
    · simp [sharpSOps, sharpSUpper_ne_nil]
    · simp [sharpSOps, sharpSUpper_ne_nil]

theorem sharpSUpper_flatMap (c : Char) :
    (sharpSUpper c).flatMap sharpSUpper = sharpSUpper c := by
  unfold sharpSUpper
  by_cases h : c = 'ß'
  · simp only [h, if_true]
    decide
  · have hu : asciiUpper c ≠ 'ß' := by
      intro e
      have hn := asciiUpper_toNat c
      rw [e] at hn
      have h223 : ('ß' : Char).toNat = 223 := rfl
      rw [h223] at hn
      split_ifs at hn with h1
      · omega
      · exact h (char_eq_of_toNat (by rw [h223]; exact hn.symm))
    simp [h, hu, asciiUpper_idem, List.flatMap]

theorem sharpSOps_idempotent : sharpSOps.Idempotent := by
  intro s
  refine ⟨by simp [sharpSOps, asciiLower_idem], ?_⟩
  simp only [sharpSOps]
  induction s with
  | nil => rfl
  | cons c cs ih =>
    simp only [List.flatMap_cons, List.flatMap_append, ih, sharpSUpper_flatMap]

theorem flatMap_sharpSUpper_of_ascii (s : JsString) (h : IsAscii s) :
    s.flatMap sharpSUpper = s.map asciiUpper := by
  induction s with
  | nil => rfl
  | cons c cs ih =>
    have hc := sharpSUpper_of_ascii c (h c (by simp))
    have hcs : IsAscii cs := fun x hx => h x (by simp [hx])
    simp [List.flatMap_cons, hc, ih hcs]

theorem sharpSOps_asciiExact : sharpSOps.AsciiExact := by
  intro s hs
  refine ⟨rfl, flatMap_sharpSUpper_of_ascii s hs, ?_⟩
  cases s with
  | nil => rfl
  | cons c cs =>
    have h1 := sharpSUpper_of_ascii (asciiLower c) (asciiLower_lt c (hs c (by simp)))
    simp [sharpSOps, asciiOps, h1, asciiUpper_lower]

/-! ## C17: the fields of a record are case-normalized -/

theorem caseField_origin {f : JsString → JsString} {v x : JsString}
    (h : caseField f v = some x) : v ≠ [] ∧ x = f v := by
  unfold caseField at h
  split_ifs at h with hv
  cases h
  exact ⟨by intro h0; simp [h0] at hv, rfl⟩

/-- Where the fields of a record built by `parseByShape` come from: each is the conversion of
a non-empty part. -/
theorem parseByShape_origin (ops : CaseOps) (kw : Option JsString) (ps : List JsString)
    (p : ParsedLocale) (h : parseByShape ops kw ps = some p) :
    (∃ l ∈ ps, l ≠ [] ∧ p.language = ops.toLowerCase l) ∧
    (∀ c, p.country = some c → ∃ a ∈ ps, a ≠ [] ∧ c = ops.toUpperCase a) ∧
    (∀ c, p.variant = some c → ∃ a ∈ ps, a ≠ [] ∧ c = ops.toUpperCase a) ∧
    (∀ c, p.script = some c →
      ∃ a ∈ ps, a ≠ [] ∧ c = ops.capitalize (ops.toLowerCase a)) := by
  have hne : ∀ l : JsString, ¬ l.isEmpty = true → l ≠ [] := by
    intro l hl h0
    simp [h0] at hl
  rcases ps with _ | ⟨l, _ | ⟨a, _ | ⟨b, _ | ⟨c, _ | ⟨d, rest⟩⟩⟩⟩⟩
  all_goals simp only [parseByShape] at h
  all_goals try split_ifs at h with hl
  all_goals try cases h
  all_goals refine ⟨⟨l, by simp, hne l hl, rfl⟩, ?_, ?_, ?_⟩
  all_goals intro x hx
  all_goals try cases hx
  all_goals dsimp only at hx
  all_goals
    obtain ⟨h1, h2⟩ := caseField_origin hx
    first
      | exact ⟨a, by simp, h1, h2⟩
      | exact ⟨b, by simp, h1, h2⟩
      | exact ⟨c, by simp, h1, h2⟩

theorem parse_origin (ops : CaseOps) (v : JsVal) (p : ParsedLocale)
    (h : parse ops v = .ok (some p)) :
    ∃ s, v = .str s ∧
    (∃ l ∈ partsOf s, l ≠ [] ∧ p.language = ops.toLowerCase l) ∧
    (∀ c, p.country = some c → ∃ a ∈ partsOf s, a ≠ [] ∧ c = ops.toUpperCase a) ∧
    (∀ c, p.variant = some c → ∃ a ∈ partsOf s, a ≠ [] ∧ c = ops.toUpperCase a) ∧
    (∀ c, p.script = some c →
      ∃ a ∈ partsOf s, a ≠ [] ∧ c = ops.capitalize (ops.toLowerCase a)) := by
  cases v with
  | undefined => simp [parse, JsVal.truthy] at h
  | null => simp [parse, JsVal.truthy] at h
  | str s =>
    refine ⟨s, rfl, ?_⟩
    have hs := isEmpty_eq_false_of_ne_nil (ne_nil_of_parse h)
    rw [parse_str_eq, hs] at h
    simp only [Bool.false_eq_true, if_false, Except.ok.injEq] at h
    exact parseByShape_origin ops _ _ p h

/-- Counterexample for C17: the upper case of `ß` is `SS`, so `parse("de-ß-DE")` has the script
`SS`, whose remainder `S` is not lower-case. -/
theorem parse_script_not_capitalized :
    parse sharpSOps (.str "de-ß-DE".toList) =
      .ok (some { keyword := none, language := "de".toList, country := some "DE".toList,
                  script := some "SS".toList }) ∧
    ¬ ∃ c rest, "SS".toList = c :: rest ∧ sharpSOps.toUpperCase [c] = [c] ∧
      sharpSOps.toLowerCase rest = rest := by
  refine ⟨by decide, ?_⟩
  rintro ⟨c, rest, h, -, hl⟩
  cases h
  revert hl
  decide

/-- C17 (amended): when the case conversions keep non-empty strings non-empty, are idempotent
and are the ASCII ones on ASCII strings, every record returned by `parse` has a non-empty
language equal to its lower-casing, and, when present, a non-empty country and a non-empty
variant equal to their upper-casing, and a non-empty script; the script is the capitalization
of the lower-cased script segment of the input, and when that segment is made of ASCII
characters its first letter is upper-case and its remainder lower-case. -/
theorem parse_case_normalized (ops : CaseOps) (hne : ops.KeepsNonEmpty)
    (hid : ops.Idempotent) (hax : ops.AsciiExact) (v : JsVal) (p : ParsedLocale)
    (hp : parse ops v = .ok (some p)) :
    (p.language ≠ [] ∧ ops.toLowerCase p.language = p.language) ∧
    (∀ c, p.country = some c → c ≠ [] ∧ ops.toUpperCase c = c) ∧
    (∀ x, p.variant = some x → x ≠ [] ∧ ops.toUpperCase x = x) ∧
    (∀ sc, p.script = some sc → sc ≠ [] ∧
      ∃ s a, v = .str s ∧ a ∈ specSegments s ∧ sc = ops.capitalize (ops.toLowerCase a) ∧
        (IsAscii a →
          ∃ c rest, sc = c :: rest ∧ ops.toUpperCase [c] = [c] ∧
            ops.toLowerCase rest = rest)) := by
  obtain ⟨s, hv, ⟨l, -, hl, hlang⟩, hc, hvar, hsc⟩ := parse_origin ops v p hp
  refine ⟨?_, ?_, ?_, ?_⟩
  · rw [hlang]
    exact ⟨(hne l hl).1, (hid l).1⟩
  · intro c hcc
    obtain ⟨a, -, ha, rfl⟩ := hc c hcc
    exact ⟨(hne a ha).2.1, (hid a).2⟩
  · intro x hx
    obtain ⟨a, -, ha, rfl⟩ := hvar x hx
    exact ⟨(hne a ha).2.1, (hid a).2⟩
  · intro sc hs
    obtain ⟨a, hamem, ha, rfl⟩ := hsc sc hs
    refine ⟨(hne _ (hne a ha).1).2.2, s, a, hv, ?_, rfl, ?_⟩
    · rw [← partsOf_eq_specSegments]
      exact hamem
    · intro hascii
      exact script_shape_of_ascii ops hax a ha hascii

/-- Witness for the amended C17 at `sr-latn-rs-revised`, with the conversions that know `ß`. -/
theorem parse_case_normalized_witness :
    ("sr".toList ≠ [] ∧ sharpSOps.toLowerCase "sr".toList = "sr".toList) ∧
    (∀ c, some "RS".toList = some c → c ≠ [] ∧ sharpSOps.toUpperCase c = c) ∧
    (∀ x, some "REVISED".toList = some x → x ≠ [] ∧ sharpSOps.toUpperCase x = x) ∧
    (∀ sc, some "Latn".toList = some sc → sc ≠ [] ∧
      ∃ s a, JsVal.str "sr-latn-rs-revised".toList = .str s ∧ a ∈ specSegments s ∧
        sc = sharpSOps.capitalize (sharpSOps.toLowerCase a) ∧
        (IsAscii a →
          ∃ c rest, sc = c :: rest ∧ sharpSOps.toUpperCase [c] = [c] ∧
            sharpSOps.toLowerCase rest = rest)) :=
  parse_case_normalized sharpSOps sharpSOps_keepsNonEmpty sharpSOps_idempotent
    sharpSOps_asciiExact (.str "sr-latn-rs-revised".toList)
    { keyword := none, language := "sr".toList, variant := some "REVISED".toList,
      country := some "RS".toList, script := some "Latn".toList } (by decide)

/-! ## C18: normalize applied twice -/

theorem mem_split (sep : Char) (t : JsString) :
    ∀ x ∈ split sep t, ∀ c ∈ x, c ∈ t ∧ c ≠ sep := by
  induction t with
  | nil =>
    intro x hx c hc
    simp only [split, List.mem_singleton] at hx
    subst hx
    cases hc
  | cons y ys ih =>
    intro x hx c hc
    unfold split at hx
    split_ifs at hx with hy
    · simp only [List.mem_cons] at hx
      rcases hx with rfl | hx
      · cases hc
      · obtain ⟨h1, h2⟩ := ih x hx c hc
        exact ⟨by simp [h1], h2⟩
    · cases hsp : split sep ys with
      | nil => exact absurd hsp (split_ne_nil sep ys)
      | cons q qs =>
        rw [hsp] at hx ih
        simp only [List.mem_cons] at hx
        rcases hx with rfl | hx
        · simp only [List.mem_cons] at hc
          rcases hc with rfl | hc
          · exact ⟨by simp, hy⟩
          · obtain ⟨h1, h2⟩ := ih q (by simp) c hc
            exact ⟨by simp [h1], h2⟩
        · obtain ⟨h1, h2⟩ := ih x (by simp [hx]) c hc
          exact ⟨by simp [h1], h2⟩

theorem partsOf_plain (s : JsString) : ∀ x ∈ partsOf s, Plain x := by
  intro x hx c hc
  rw [partsOf_eq_takeWhile] at hx
  obtain ⟨h1, h2⟩ := mem_split '_' _ x hx c hc
  simp only [replaceAll, List.mem_map] at h1
  obtain ⟨y, hy, hyc⟩ := h1
  have hy' := List.mem_takeWhile_imp hy
  by_cases hd : y = '-'
  · simp [hd] at hyc
    exact absurd hyc.symm h2
  · simp only [hd, if_false] at hyc
    subst hyc
    exact ⟨hd, h2, by simpa using hy'⟩

theorem normalize_of_parse (ops : CaseOps) (hops : ops.KeepsNonEmpty) (v : JsVal)
    (p : ParsedLocale) (hp : parse ops v = .ok (some p)) :
    normalize ops v .undefined = .ok (.str (specNormalize p ['_'])) := by
  obtain ⟨-, hc, hsc, -⟩ := parse_fields ops hops v p hp
  simp only [normalize, hp, JsVal.toStr, specNormalize, if_true]
  cases hs : p.script with
  | none =>
    cases hcn : p.country with
    | none => simp
    | some c => simp [isEmpty_eq_false_of_ne_nil (hc c hcn)]
  | some x =>
    cases hcn : p.country with
    | none => simp [isEmpty_eq_false_of_ne_nil (hsc x hs)]
    | some c =>
      simp [isEmpty_eq_false_of_ne_nil (hsc x hs), isEmpty_eq_false_of_ne_nil (hc c hcn)]

theorem plain_no_at {s : JsString} (h : Plain s) : ∀ c ∈ s, c ≠ '@' :=
  fun c hc => (h c hc).2.2

theorem plain_join {a b : JsString} (ha : Plain a) (hb : Plain b) :
    ∀ c ∈ a ++ '_' :: b, c ≠ '@' := by
  intro c hc
  simp only [List.mem_append, List.mem_cons] at hc
  rcases hc with h | rfl | h
  · exact (ha c h).2.2
  · decide
  · exact (hb c h).2.2

/-- The record of a plain segment alone. -/
theorem parse_plain_language (ops : CaseOps) (g : JsString) (hg : PlainSegment g) :
    parse ops (.str g) =
      .ok (some { keyword := none, language := ops.toLowerCase g }) := by
  have hge := isEmpty_eq_false_of_ne_nil hg.1
  have n1 : ∀ x ∈ g, x ≠ '@' := plain_no_at hg.2
  rw [parse_str_eq, hge, partsOf_of_no_at _ n1, parts_single g hg]
  simp [parseByShape, keywordOf, indexOf_eq_none '@' _ n1, hge]

/-- The records of the plain forms `g_c` and `g_sc_c` with a short `c`. -/
theorem parse_plain_forms (ops : CaseOps) (g sc c : JsString)
    (hg : PlainSegment g) (hsc : PlainSegment sc) (hc : PlainSegment c)
    (hlen : jsLength c ≤ 3) :
    parse ops (.str (g ++ '_' :: c)) =
      .ok (some { keyword := none, language := ops.toLowerCase g,
                  country := some (ops.toUpperCase c) }) ∧
    parse ops (.str (g ++ '_' :: (sc ++ '_' :: c))) =
      .ok (some { keyword := none, language := ops.toLowerCase g,
                  country := some (ops.toUpperCase c),
                  script := some (ops.capitalize (ops.toLowerCase sc)) }) := by
  have hge := isEmpty_eq_false_of_ne_nil hg.1
  have hsce := isEmpty_eq_false_of_ne_nil hsc.1
  have hce := isEmpty_eq_false_of_ne_nil hc.1
  have hlen' : ¬ 3 < jsLength c := by omega
  have hd : IsDelim '_' := Or.inr rfl
  have n2 : ∀ x ∈ g ++ '_' :: c, x ≠ '@' := plain_join hg.2 hc.2
  have n3 : ∀ x ∈ g ++ '_' :: (sc ++ '_' :: c), x ≠ '@' := by
    intro x hx
    simp only [List.mem_append, List.mem_cons] at hx
    rcases hx with h | rfl | h | rfl | h
    · exact (hg.2 x h).2.2
    · decide
    · exact (hsc.2 x h).2.2
    · decide
    · exact (hc.2 x h).2.2
  have e1 : (g ++ '_' :: c).isEmpty = false := by cases g <;> rfl
  have e2 : (g ++ '_' :: (sc ++ '_' :: c)).isEmpty = false := by cases g <;> rfl
  refine ⟨?_, ?_⟩
  · rw [parse_str_eq, e1, partsOf_of_no_at _ n2, parts_cons g c '_' hg hd, parts_single c hc]
    simp [parseByShape, caseField, keywordOf, indexOf_eq_none '@' _ n2, hge, hce, hlen']
  · rw [parse_str_eq, e2, partsOf_of_no_at _ n3, parts_cons g _ '_' hg hd,
      parts_cons sc c '_' hsc hd, parts_single c hc]
    simp [parseByShape, caseField, keywordOf, indexOf_eq_none '@' _ n3, hge, hce, hsce, hlen']

/-- Counterexample for C18: `normalize("zh-Hans-")` is `zh_Hans` and `normalize("zh_Hans")` is
`zh`; `normalize("en-Hans-POSIX")` is `en_HANS` and `normalize("en_HANS")` is `en`; and, the
upper case of `ß` being `SS`, `normalize("de-ßa-DE")` is `de_SSa_DE` and
`normalize("de_SSa_DE")` is `de_Ssa_DE`. -/
theorem normalize_not_idempotent :
    normalize asciiOps (.str "zh-Hans-".toList) .undefined = .ok (.str "zh_Hans".toList) ∧
    normalize asciiOps (.str "zh_Hans".toList) .undefined = .ok (.str "zh".toList) ∧
    normalize asciiOps (.str "en-Hans-POSIX".toList) .undefined =
      .ok (.str "en_HANS".toList) ∧
    normalize asciiOps (.str "en_HANS".toList) .undefined = .ok (.str "en".toList) ∧
    normalize sharpSOps (.str "de-ßa-DE".toList) .undefined = .ok (.str "de_SSa_DE".toList) ∧
    normalize sharpSOps (.str "de_SSa_DE".toList) .undefined =
      .ok (.str "de_Ssa_DE".toList) := by
  decide

theorem sharpSOps_keepsPlain : sharpSOps.KeepsPlain := by
  have hup : ∀ y : Char, (y ≠ '-' ∧ y ≠ '_' ∧ y ≠ '@') →
      ∀ c ∈ sharpSUpper y, c ≠ '-' ∧ c ≠ '_' ∧ c ≠ '@' := by
    intro y hy c hc
    unfold sharpSUpper at hc
    split_ifs at hc
    · simp only [List.mem_cons, List.mem_singleton, List.not_mem_nil, or_false, or_self] at hc
      subst hc
      decide
    · simp only [List.mem_singleton] at hc
      subst hc
      exact asciiUpper_plain y hy
  intro s hs
  refine ⟨?_, ?_, ?_⟩
  · intro c hc
    simp only [sharpSOps, List.mem_map] at hc
    obtain ⟨x, hx, rfl⟩ := hc
    exact asciiLower_plain x (hs x hx)
  · intro c hc
    simp only [sharpSOps, List.mem_flatMap] at hc
    obtain ⟨x, hx, hcx⟩ := hc
    exact hup x (hs x hx) c hcx
  · cases s with
    | nil => intro c hc; simp [sharpSOps] at hc
    | cons y ys =>
      intro c hc
      simp only [sharpSOps, List.map_cons, List.mem_append, List.mem_map] at hc
      rcases hc with hc | ⟨x, hx, rfl⟩
      · exact hup _ (asciiLower_plain y (hs y (by simp))) c hc
      · exact asciiLower_plain x (hs x (by simp [hx]))

/-- The characters of the parts are characters of the input. -/
theorem partsOf_mem (s : JsString) : ∀ x ∈ partsOf s, ∀ c ∈ x, c ∈ s := by
  intro x hx c hc
  rw [partsOf_eq_takeWhile] at hx
  obtain ⟨h1, h2⟩ := mem_split '_' _ x hx c hc
  simp only [replaceAll, List.mem_map] at h1
  obtain ⟨y, hy, hyc⟩ := h1
  have hy' := (List.takeWhile_sublist _).subset hy
  by_cases hd : y = '-'
  · simp [hd] at hyc
    exact absurd hyc.symm h2
  · simp only [hd, if_false] at hyc
    subst hyc
    exact hy'

/-- The script of the record of an ASCII input is its own capitalization. -/
theorem script_fixed_of_ascii (ops : CaseOps) (hax : ops.AsciiExact) (s : JsString)
    (hs : IsAscii s) (p : ParsedLocale) (hp : parse ops (.str s) = .ok (some p)) :
    ∀ x, p.script = some x → ops.capitalize (ops.toLowerCase x) = x := by
  intro x hx
  obtain ⟨s0, hv, -, -, -, hsc⟩ := parse_origin ops _ p hp
  cases hv
  obtain ⟨a, hamem, ha, rfl⟩ := hsc x hx
  exact script_stable_of_ascii ops hax a (fun c hc => hs c (partsOf_mem s a hamem c hc)) ha

/-- C18 (amended): when the case conversions keep non-empty strings non-empty, are idempotent
and introduce none of `-`, `_`, `@`, then for every locale whose record has neither script nor
country, or has a country of at most three code units, and whose script, when present, is left
unchanged by lower-casing and capitalizing it, `normalize(locale)` is a string `s` with
`normalize(s) = s`. -/
theorem normalize_idempotent (ops : CaseOps) (hne : ops.KeepsNonEmpty) (hid : ops.Idempotent)
    (hpl : ops.KeepsPlain)
    (locale : JsVal) (p : ParsedLocale) (hp : parse ops locale = .ok (some p))
    (hcond : (p.script = none ∧ p.country = none) ∨
      ∃ c, p.country = some c ∧ jsLength c ≤ 3)
    (hscript : ∀ x, p.script = some x → ops.capitalize (ops.toLowerCase x) = x) :
    ∃ s, normalize ops locale .undefined = .ok (.str s) ∧
      normalize ops (.str s) .undefined = .ok (.str s) := by
  refine ⟨specNormalize p ['_'], normalize_of_parse ops hne locale p hp, ?_⟩
  obtain ⟨s0, -, ⟨l, hlmem, hl, hlang⟩, hc, -, hsc⟩ := parse_origin ops locale p hp
  have hg : PlainSegment p.language := by
    rw [hlang]
    exact ⟨(hne l hl).1, (hpl l (partsOf_plain s0 l hlmem)).1⟩
  have hglow : ops.toLowerCase p.language = p.language := by
    rw [hlang]
    exact (hid l).1
  have country_facts : ∀ c, p.country = some c →
      PlainSegment c ∧ ops.toUpperCase c = c := by
    intro c hcc
    obtain ⟨a, hamem, ha, rfl⟩ := hc c hcc
    exact ⟨⟨(hne a ha).2.1, (hpl a (partsOf_plain s0 a hamem)).2.1⟩, (hid a).2⟩
  have script_facts : ∀ x, p.script = some x →
      PlainSegment x ∧ ops.capitalize (ops.toLowerCase x) = x := by
    intro x hx
    refine ⟨?_, hscript x hx⟩
    obtain ⟨a, hamem, ha, rfl⟩ := hsc x hx
    have hpa := partsOf_plain s0 a hamem
    exact ⟨(hne _ (hne a ha).1).2.2, (hpl _ (hpl a hpa).1).2.2⟩
  cases hs : p.script with
  | none =>
    cases hcn : p.country with
    | none =>
      have hform : specNormalize p ['_'] = p.language := by
        simp [specNormalize, hs, hcn]
      rw [hform]
      have h1 := parse_plain_language ops p.language hg
      rw [normalize_of_parse ops hne _ _ h1]
      simp [specNormalize, hglow]
    | some c =>
      obtain ⟨hcp, hcu⟩ := country_facts c hcn
      have hlen : jsLength c ≤ 3 := by
        rcases hcond with ⟨-, h⟩ | ⟨c', h, hl'⟩
        · rw [hcn] at h
          cases h
        · rw [hcn] at h
          cases h
          exact hl'
      have hform : specNormalize p ['_'] = p.language ++ '_' :: c := by
        simp [specNormalize, hs, hcn]
      rw [hform]
      have h2 := (parse_plain_forms ops p.language c c hg hcp hcp hlen).1
      rw [normalize_of_parse ops hne _ _ h2]
      simp [specNormalize, hglow, hcu]
  | some x =>
    obtain ⟨hxp, hxc⟩ := script_facts x hs
    cases hcn : p.country with
    | none =>
      rcases hcond with ⟨h, -⟩ | ⟨c', h, -⟩
      · rw [hs] at h
        cases h
      · rw [hcn] at h
        cases h
    | some c =>
      obtain ⟨hcp, hcu⟩ := country_facts c hcn
      have hlen : jsLength c ≤ 3 := by
        rcases hcond with ⟨-, h⟩ | ⟨c', h, hl'⟩
        · rw [hcn] at h
          cases h
        · rw [hcn] at h
          cases h
          exact hl'
      have hform : specNormalize p ['_'] = p.language ++ '_' :: (x ++ '_' :: c) := by
        simp [specNormalize, hs, hcn]
      rw [hform]
      have h3 := (parse_plain_forms ops p.language x c hg hxp hcp hlen).2
      rw [normalize_of_parse ops hne _ _ h3]
      simp [specNormalize, hglow, hcu, hxc]

/-- Witness for the amended C18 at `ZH_hans-cn`, with the conversions that know `ß`. -/
theorem normalize_idempotent_witness :
    ∃ s, normalize sharpSOps (.str "ZH_hans-cn".toList) .undefined = .ok (.str s) ∧
      normalize sharpSOps (.str s) .undefined = .ok (.str s) :=
  normalize_idempotent sharpSOps sharpSOps_keepsNonEmpty sharpSOps_idempotent
    sharpSOps_keepsPlain (.str "ZH_hans-cn".toList)
    { keyword := none, language := "zh".toList, country := some "CN".toList,
      script := some "Hans".toList } (by decide) (Or.inr ⟨"CN".toList, rfl, by decide⟩)
    (by intro x hx; cases hx; decide)

/-! ## C14: normalizeAcceptLanguage keeps the order of the header -/

theorem takeLetters_append (n : Nat) (l r : JsString)
    (hl : ∀ c ∈ l, isAsciiLetter c = true) (hn : l.length ≤ n)
    (hr : ∀ c rest, r = c :: rest → isAsciiLetter c = false) :
    takeLetters n (l ++ r) = l := by
  induction l generalizing n with
  | nil =>
    cases n with
    | zero => rfl
    | succ m =>
      cases r with
      | nil => rfl
      | cons c cs => simp [takeLetters, hr c cs rfl]
  | cons x xs ih =>
    cases n with
    | zero => simp at hn
    | succ m =>
      have hx : isAsciiLetter x = true := hl x (by simp)
      have := ih m (fun c hc => hl c (by simp [hc])) (by simpa using hn)
      simp [takeLetters, hx, this]

theorem takeWhile_append_stop (q : Char → Bool) (l r : JsString)
    (hl : ∀ c ∈ l, q c = true) (hr : ∀ c rest, r = c :: rest → q c = false) :
    (l ++ r).takeWhile q = l := by
  induction l with
  | nil =>
    cases r with
    | nil => rfl
    | cons c cs => simp [List.takeWhile_cons, hr c cs rfl]
  | cons x xs ih =>
    have hx : q x = true := hl x (by simp)
    simp [List.takeWhile_cons, hx, ih (fun c hc => hl c (by simp [hc]))]

theorem matchTag_tag (e : AcceptEntry) (he : e.WellFormed) (r : JsString)
    (hr : ∀ c rest, r = c :: rest → isAsciiLetter c = false ∧ c ≠ '-') :
    matchTag (e.tag ++ r) = some e.tag := by
  obtain ⟨⟨hl1, hl8, hll⟩, hsub, -⟩ := he
  have hlne : e.lang ≠ [] := by
    intro h0
    rw [h0] at hl1
    simp at hl1
  cases hs : e.subtag with
  | none =>
    have ht : takeLetters 8 (e.lang ++ r) = e.lang :=
      takeLetters_append 8 e.lang r hll hl8 (fun c rest h => (hr c rest h).1)
    simp only [AcceptEntry.tag, hs, matchTag, ht, isEmpty_eq_false_of_ne_nil hlne,
      List.drop_left]
    cases r with
    | nil => simp
    | cons c cs => simp [(hr c cs rfl).2]
  | some sub =>
    rw [hs] at hsub
    obtain ⟨hs1, hs8, hsl⟩ := hsub
    have hsne : sub ≠ [] := by
      intro h0
      rw [h0] at hs1
      simp at hs1
    have ht : takeLetters 8 (e.lang ++ '-' :: (sub ++ r)) = e.lang :=
      takeLetters_append 8 e.lang _ hll hl8 (by
        intro c rest h
        cases h
        rfl)
    have ht2 : takeLetters 8 (sub ++ r) = sub :=
      takeLetters_append 8 sub r hsl hs8 (fun c rest h => (hr c rest h).1)
    simp only [AcceptEntry.tag, hs, matchTag, List.append_assoc, List.cons_append, ht,
      isEmpty_eq_false_of_ne_nil hlne, List.drop_left]
    simp [ht2, isEmpty_eq_false_of_ne_nil hsne]

theorem matchWeight_weight (w r : JsString) (hw : IsWeight w) (hr : EndsItem r) :
    matchWeight (w ++ r) = some w := by
  rcases hw with rfl | ⟨h2, hne, hd⟩
  · simp [matchWeight]
  · have hw : w = '0' :: '.' :: w.drop 2 := by
      conv_lhs => rw [← List.take_append_drop 2 w, h2]
      rfl
    generalize w.drop 2 = ds at hw hne hd
    subst hw
    have hstop : ∀ c rest, r = c :: rest → isAsciiDigit c = false := by
      intro c rest h
      rcases hr with h0 | ⟨r', h0⟩
      · rw [h0] at h
        cases h
      · rw [h0] at h
        cases h
        decide
    have ht := takeWhile_append_stop isAsciiDigit ds r hd hstop
    simp [matchWeight, ht, isEmpty_eq_false_of_ne_nil hne]

theorem isWeight_head (w : JsString) (hw : IsWeight w) :
    ∃ c rest, w = c :: rest ∧ isJsSpace c = false := by
  rcases hw with rfl | ⟨h2, -, -⟩
  · exact ⟨'1', [], rfl, by decide⟩
  · cases w with
    | nil => simp at h2
    | cons c rest =>
      refine ⟨c, rest, rfl, ?_⟩
      cases rest with
      | nil => simp at h2
      | cons d rest' =>
        simp only [List.take_succ_cons, List.take_zero, List.cons.injEq, and_true] at h2
        rw [h2.1]
        decide

theorem matchQuality_quality (e : AcceptEntry) (he : e.WellFormed) (r : JsString)
    (hr : EndsItem r) :
    matchQuality (e.quality ++ r) =
      match e.weight with
      | some w => some (';' :: 'q' :: '=' :: w)
      | none => none := by
  obtain ⟨-, -, hw⟩ := he
  cases hwt : e.weight with
  | none =>
    simp only [AcceptEntry.quality, hwt, List.nil_append]
    rcases hr with rfl | ⟨r', rfl⟩
    · rfl
    · simp [matchQuality]
  | some w =>
    rw [hwt] at hw
    obtain ⟨c, rest, hc, hsp⟩ := isWeight_head w hw
    have hm := matchWeight_weight w r hw hr
    have s1 : isJsSpace 'q' = false := by decide
    have s2 : isJsSpace '=' = false := by decide
    simp only [AcceptEntry.quality, hwt, List.cons_append, matchQuality]
    rw [hc] at hm ⊢
    rw [List.cons_append] at hm
    simp [List.takeWhile_cons, s1, s2, hsp, hm]

theorem matchItem_text (e : AcceptEntry) (he : e.WellFormed) (r : JsString)
    (hr : EndsItem r) : matchItem (e.text ++ r) = some e.text := by
  have hstop : ∀ c rest, e.quality ++ r = c :: rest →
      isAsciiLetter c = false ∧ c ≠ '-' ∧ isJsSpace c = false := by
    intro c rest h
    cases hwt : e.weight with
    | some w =>
      simp only [AcceptEntry.quality, hwt, List.cons_append] at h
      cases h
      decide
    | none =>
      simp only [AcceptEntry.quality, hwt, List.nil_append] at h
      rcases hr with h0 | ⟨r', h0⟩
      · rw [h0] at h
        cases h
      · rw [h0] at h
        cases h
        decide
  have htag : matchTag (e.tag ++ (e.quality ++ r)) = some e.tag :=
    matchTag_tag e he _ (fun c rest h => ⟨(hstop c rest h).1, (hstop c rest h).2.1⟩)
  have hws : (e.quality ++ r).takeWhile isJsSpace = [] := by
    cases hq : e.quality ++ r with
    | nil => rfl
    | cons c rest => simp [List.takeWhile_cons, (hstop c rest hq).2.2]
  have hq := matchQuality_quality e he r hr
  simp only [AcceptEntry.text, List.append_assoc, matchItem, htag, List.drop_left, hws,
    List.length_nil, List.drop_zero, hq]
  cases hwt : e.weight with
  | none => simp [AcceptEntry.quality, hwt]
  | some w => simp [AcceptEntry.quality, hwt]

theorem matchAllFrom_skip (pre rest : JsString) :
    matchAllFrom pre.length (pre ++ rest) = matchAllFrom 0 rest := by
  induction pre with
  | nil => rfl
  | cons c cs ih => simpa [matchAllFrom] using ih

theorem matchAllFrom_match (m rest : JsString) (hm : m ≠ [])
    (h : matchItem (m ++ rest) = some m) :
    matchAllFrom 0 (m ++ rest) = m :: matchAllFrom 0 rest := by
  cases m with
  | nil => exact absurd rfl hm
  | cons c cs =>
    rw [List.cons_append] at h ⊢
    simp only [matchAllFrom, h, List.length_cons, Nat.add_sub_cancel]
    rw [matchAllFrom_skip]

theorem matchAllFrom_comma (rest : JsString) :
    matchAllFrom 0 (',' :: rest) = matchAllFrom 0 rest := by
  have h : matchItem (',' :: rest) = none := by
    have hc : isAsciiLetter ',' = false := by decide
    simp [matchItem, matchTag, takeLetters, hc]
  simp [matchAllFrom, h]

theorem lang_ne_nil (e : AcceptEntry) (he : e.WellFormed) : e.lang ≠ [] := by
  intro h0
  have := he.1.1
  rw [h0] at this
  simp at this

theorem text_ne_nil (e : AcceptEntry) (he : e.WellFormed) : e.text ≠ [] := by
  have hl := lang_ne_nil e he
  cases hlang : e.lang with
  | nil => exact absurd hlang hl
  | cons c cs =>
    cases hs : e.subtag <;> simp [AcceptEntry.text, AcceptEntry.tag, hs, hlang]

theorem matchAllFrom_header (es : List AcceptEntry) (hwf : ∀ e ∈ es, e.WellFormed) :
    matchAllFrom 0 (headerOf es) = es.map AcceptEntry.text := by
  induction es with
  | nil => rfl
  | cons e rest ih =>
    have he := hwf e (by simp)
    cases rest with
    | nil =>
      have h := matchItem_text e he [] (Or.inl rfl)
      have := matchAllFrom_match e.text [] (text_ne_nil e he) h
      rw [List.append_nil] at this
      simp only [headerOf, List.map_cons, List.map_nil, this]
      rfl
    | cons e' rest' =>
      have h := matchItem_text e he (',' :: headerOf (e' :: rest')) (Or.inr ⟨_, rfl⟩)
      have := matchAllFrom_match e.text _ (text_ne_nil e he) h
      simp only [headerOf, this, matchAllFrom_comma, List.map_cons]
      rw [ih (fun x hx => hwf x (by simp [hx]))]
      rfl

theorem matchTag_text (e : AcceptEntry) (he : e.WellFormed) :
    matchTag e.text = some e.tag := by
  apply matchTag_tag e he
  intro c rest h
  cases hwt : e.weight with
  | some w =>
    simp only [AcceptEntry.quality, hwt] at h
    cases h
    decide
  | none => simp [AcceptEntry.quality, hwt] at h

theorem letter_plain (c : Char) (h : isAsciiLetter c = true) :
    c ≠ '-' ∧ c ≠ '_' ∧ c ≠ '@' := by
  refine ⟨?_, ?_, ?_⟩ <;>
  · intro e
    rw [e] at h
    exact absurd h (by decide)

theorem letters_plainSegment (s : JsString) (h : IsLetters s) : PlainSegment s := by
  refine ⟨?_, fun c hc => letter_plain c (h.2.2 c hc)⟩
  intro h0
  have := h.1
  rw [h0] at this
  simp at this

theorem parse_tag (ops : CaseOps) (e : AcceptEntry) (he : e.WellFormed) :
    ∃ p, parse ops (.str e.tag) = .ok (some p) := by
  have hl := letters_plainSegment e.lang he.1
  have hle := isEmpty_eq_false_of_ne_nil hl.1
  cases hs : e.subtag with
  | none =>
    simp only [AcceptEntry.tag, hs]
    exact ⟨_, parse_plain_language ops e.lang hl⟩
  | some sub =>
    have hsub := he.2.1
    rw [hs] at hsub
    have hsp := letters_plainSegment sub hsub
    have hno : ∀ c ∈ e.lang ++ '-' :: sub, c ≠ '@' := by
      intro c hc
      simp only [List.mem_append, List.mem_cons] at hc
      rcases hc with h | rfl | h
      · exact (hl.2 c h).2.2
      · decide
      · exact (hsp.2 c h).2.2
    have hne : (e.lang ++ '-' :: sub).isEmpty = false := by
      cases e.lang <;> rfl
    simp only [AcceptEntry.tag, hs]
    rw [parse_str_eq, hne, partsOf_of_no_at _ hno, parts_cons e.lang sub '-' hl (Or.inl rfl),
      parts_single sub hsp]
    by_cases h3 : 3 < jsLength sub <;> simp [parseByShape, hle, h3]

theorem normalize_tag (ops : CaseOps) (hne : ops.KeepsNonEmpty) (e : AcceptEntry)
    (he : e.WellFormed) :
    ∃ s, s ≠ [] ∧ normalize ops (.str e.tag) .undefined = .ok (.str s) := by
  obtain ⟨p, hp⟩ := parse_tag ops e he
  refine ⟨specNormalize p ['_'], ?_, normalize_of_parse ops hne _ p hp⟩
  have hl := (parse_fields ops hne _ p hp).1
  intro h0
  simp only [specNormalize, List.append_eq_nil] at h0
  exact hl h0.1.1

theorem pushItems_entries (ops : CaseOps) (hne : ops.KeepsNonEmpty) (es : List AcceptEntry)
    (hwf : ∀ e ∈ es, e.WellFormed) (acc : List JsVal) :
    pushItems ops (es.map AcceptEntry.text) acc =
      .ok (acc ++ es.map (fun e => normalizeValue ops e.tag)) := by
  induction es generalizing acc with
  | nil => simp [pushItems]
  | cons e rest ih =>
    have he := hwf e (by simp)
    obtain ⟨s, hs, hn⟩ := normalize_tag ops hne e he
    have ht : (JsVal.str s).truthy = true := by
      simp [JsVal.truthy, isEmpty_eq_false_of_ne_nil hs]
    simp only [List.map_cons, pushItems, matchTag_text e he, hn, ht, if_true]
    rw [ih (fun x hx => hwf x (by simp [hx]))]
    simp [normalizeValue, hn]

/-- C14: when the case conversions keep non-empty strings non-empty, for every header made of
entries `lang[-subtag][;q=weight]` separated by commas (`lang` and `subtag` one to eight ASCII
letters, `weight` either `1` or `0.` and digits), `normalizeAcceptLanguage` returns the list of
`normalize(lang[-subtag])` of the entries, in the order of the header, whatever the weights;
each of these is a non-empty string; an absent or empty header gives the empty list. -/
theorem normalizeAcceptLanguage_header (ops : CaseOps) (hne : ops.KeepsNonEmpty)
    (es : List AcceptEntry) (hwf : ∀ e ∈ es, e.WellFormed) :
    normalizeAcceptLanguage ops (.str (headerOf es)) =
      .ok (es.map (fun e => normalizeValue ops e.tag)) ∧
    (∀ e ∈ es, ∃ s, s ≠ [] ∧ normalize ops (.str e.tag) .undefined = .ok (.str s)) ∧
    normalizeAcceptLanguage ops .undefined = .ok [] ∧
    normalizeAcceptLanguage ops .null = .ok [] ∧
    normalizeAcceptLanguage ops (.str []) = .ok [] := by
  refine ⟨?_, fun e he => normalize_tag ops hne e (hwf e he), rfl, rfl, rfl⟩
  cases es with
  | nil => rfl
  | cons e rest =>
    have hne' : (headerOf (e :: rest)).isEmpty = false := by
      have ht := text_ne_nil e (hwf e (by simp))
      cases rest with
      | nil => simpa [headerOf] using isEmpty_eq_false_of_ne_nil ht
      | cons e' rest' =>
        cases htx : e.text with
        | nil => exact absurd htx ht
        | cons c cs => simp [headerOf, htx]
    simp only [normalizeAcceptLanguage, JsVal.truthy, hne', JsVal.toStr]
    rw [matchAllFrom_header _ hwf]
    simpa using pushItems_entries ops hne (e :: rest) hwf []

/-- Witness for C14: the header `en-US,fr;q=0.8,de;q=0.5`. -/
theorem normalizeAcceptLanguage_header_witness :
    normalizeAcceptLanguage asciiOps
        (.str (headerOf [⟨"en".toList, some "US".toList, none⟩,
          ⟨"fr".toList, none, some "0.8".toList⟩, ⟨"de".toList, none, some "0.5".toList⟩])) =
      .ok ([⟨"en".toList, some "US".toList, none⟩,
          ⟨"fr".toList, none, some "0.8".toList⟩,
          (⟨"de".toList, none, some "0.5".toList⟩ : AcceptEntry)].map
        (fun e => normalizeValue asciiOps e.tag)) ∧
    (∀ e ∈ [⟨"en".toList, some "US".toList, none⟩,
          ⟨"fr".toList, none, some "0.8".toList⟩,
          (⟨"de".toList, none, some "0.5".toList⟩ : AcceptEntry)],
      ∃ s, s ≠ [] ∧ normalize asciiOps (.str e.tag) .undefined = .ok (.str s)) ∧
    normalizeAcceptLanguage asciiOps .undefined = .ok [] ∧
    normalizeAcceptLanguage asciiOps .null = .ok [] ∧
    normalizeAcceptLanguage asciiOps (.str []) = .ok [] :=
  normalizeAcceptLanguage_header asciiOps asciiOps_keepsNonEmpty
    [⟨"en".toList, some "US".toList, none⟩, ⟨"fr".toList, none, some "0.8".toList⟩,
      ⟨"de".toList, none, some "0.5".toList⟩] (by decide)

theorem normalizeAcceptLanguage_eval :
    headerOf [⟨"en".toList, some "US".toList, none⟩, ⟨"fr".toList, none, some "0.8".toList⟩,
      ⟨"de".toList, none, some "0.5".toList⟩] = "en-US,fr;q=0.8,de;q=0.5".toList ∧
    normalizeAcceptLanguage asciiOps (.str "en-US,fr;q=0.8,de;q=0.5".toList) =
      .ok [.str "en_US".toList, .str "fr".toList, .str "de".toList] ∧
    matchAllFrom 0 "en-US , fr ; Q = 0.8,abcdefghijk".toList =
      ["en-US ".toList, "fr ; Q = 0.8".toList, "abcdefgh".toList, "ijk".toList] := by
  decide

/-! ## getBest: one activation -/

theorem getBestFuel_found (ops : CaseOps) (n : Nat) (supported : List JsString)
    (lgs : SupportedIndex) (hprep : prepareSupported ops supported = .ok lgs)
    (loc : JsString) (D : JsVal) (flag : Bool) (p : ParsedLocale)
    (hp : parse ops (.str loc) = .ok (some p)) (hl : p.language ≠ [])
    (v : IndexValue) (he : idxGet lgs p.language = some v) :
    getBestFuel ops (n + 1) (.array supported) (.str loc) D flag =
      some (.ok (bestOfValue lgs v p.country D flag)) := by
  have hloc := isEmpty_eq_false_of_ne_nil (ne_nil_of_parse hp)
  have hle := isEmpty_eq_false_of_ne_nil hl
  cases v with
  | entry e =>
    simp only [getBestFuel, hprep, JsVal.truthy, hloc, hp, hle, he, bestOfValue, bestOfEntry]
    simp only [Bool.not_false, Bool.not_true, Bool.false_and, Bool.false_eq_true, if_false]
    split_ifs <;> rfl
  | inherited k =>
    simp only [getBestFuel, hprep, JsVal.truthy, hloc, hp, hle, he, bestOfValue]
    simp only [Bool.not_false, Bool.not_true, Bool.false_and, Bool.false_eq_true, if_false]
    cases inheritedMainOf lgs k <;> rfl

theorem getBestFuel_missing (ops : CaseOps) (n : Nat) (supported : List JsString)
    (lgs : SupportedIndex) (hprep : prepareSupported ops supported = .ok lgs)
    (loc : JsString) (D : JsVal) (flag : Bool) (p : ParsedLocale)
    (hp : parse ops (.str loc) = .ok (some p)) (hl : p.language ≠ [])
    (he : idxGet lgs p.language = none) :
    getBestFuel ops (n + 1) (.array supported) (.str loc) D flag =
      if JsVal.str loc = D then some (.ok .undefined)
      else getBestFuel ops n (.array supported) D .null flag := by
  have hloc := isEmpty_eq_false_of_ne_nil (ne_nil_of_parse hp)
  have hle := isEmpty_eq_false_of_ne_nil hl
  simp only [getBestFuel, hprep, JsVal.truthy, hloc, hp, hle, he]
  simp only [Bool.not_false, Bool.not_true, Bool.false_and, Bool.false_eq_true, if_false]

theorem getBestFuel_falsy (ops : CaseOps) (n : Nat) (supported : List JsString)
    (lgs : SupportedIndex) (hprep : prepareSupported ops supported = .ok lgs)
    (loc D : JsVal) (flag : Bool) (hloc : loc.truthy = false) (hD : D.truthy = false) :
    getBestFuel ops (n + 1) (.array supported) loc D flag = some (.ok .undefined) := by
  simp [getBestFuel, hprep, hloc, hD]

theorem getBestFuel_unparsable (ops : CaseOps) (n : Nat) (supported : List JsString)
    (lgs : SupportedIndex) (hprep : prepareSupported ops supported = .ok lgs)
    (loc : JsString) (D : JsVal) (flag : Bool) (hne : loc ≠ [])
    (hp : parse ops (.str loc) = .ok none) :
    getBestFuel ops (n + 1) (.array supported) (.str loc) D flag =
      some (.error .typeError) := by
  have hloc := isEmpty_eq_false_of_ne_nil hne
  simp [getBestFuel, hprep, JsVal.truthy, hloc, hp]

theorem getBestFuel_substitute (ops : CaseOps) (n : Nat) (supported : List JsString)
    (lgs : SupportedIndex) (hprep : prepareSupported ops supported = .ok lgs)
    (loc D : JsVal) (flag : Bool) (hloc : loc.truthy = false) (hD : D.truthy = true) :
    getBestFuel ops (n + 1) (.array supported) loc D flag =
      getBestFuel ops n (.array supported) D .undefined flag := by
  simp [getBestFuel, hprep, hloc, hD]

/-- When the construction of the index throws, `getBest` throws the same exception. -/
theorem getBestFuel_prepare_error (ops : CaseOps) (n : Nat) (supported : List JsString)
    (e : JsError) (hprep : prepareSupported ops supported = .error e)
    (loc D : JsVal) (flag : Bool) :
    getBestFuel ops (n + 1) (.array supported) loc D flag = some (.error e) := by
  simp [getBestFuel, hprep]

/-- The result of `getBest` when the default locale is falsy: two activations are enough. -/
theorem getBestFuel_absent_default (ops : CaseOps) (hops : ops.KeepsNonEmpty)
    (supported : List JsString) (lgs : SupportedIndex)
    (hprep : prepareSupported ops supported = .ok lgs)
    (loc D : JsVal) (hD : D.truthy = false) (flag : Bool) (n : Nat) :
    getBestFuel ops (n + 2) (.array supported) loc D flag =
      some (if loc.truthy = false then .ok .undefined
        else
          match parse ops loc with
          | .error err => .error err
          | .ok none => .error .typeError
          | .ok (some p) =>
            match idxGet lgs p.language with
            | none => .ok .undefined
            | some v => .ok (bestOfValue lgs v p.country D flag)) := by
  cases hloc : loc.truthy with
  | false =>
    rw [getBestFuel_falsy ops (n + 1) supported lgs hprep loc D flag hloc hD]
    simp
  | true =>
    obtain ⟨s, rfl, hs⟩ := truthy_str_of_truthy hloc
    simp only [Bool.true_eq_false, if_false]
    obtain ⟨r, hr⟩ := parse_ok ops (.str s)
    rw [hr]
    cases r with
    | none => exact getBestFuel_unparsable ops (n + 1) supported lgs hprep s D flag hs hr
    | some p =>
      have hl := (parse_fields ops hops _ p hr).1
      dsimp only
      cases he : idxGet lgs p.language with
      | none =>
        rw [getBestFuel_missing ops (n + 1) supported lgs hprep s D flag p hr hl he]
        have hne : JsVal.str s ≠ D := by
          intro h
          rw [← h, hloc] at hD
          cases hD
        rw [if_neg hne]
        exact getBestFuel_falsy ops n supported lgs hprep D .null flag hD rfl
      | some v =>
        exact getBestFuel_found ops (n + 1) supported lgs hprep s D flag p hr hl v he

theorem absentAsUndefined_bestOfValue (lgs : SupportedIndex) (v : IndexValue)
    (c : Option JsString) (flag : Bool) :
    absentAsUndefined (bestOfValue lgs v c .null flag) =
      absentAsUndefined (bestOfValue lgs v c .undefined flag) := by
  cases v with
  | entry e => exact absentAsUndefined_bestOfEntry e c flag
  | inherited k =>
    simp only [bestOfValue]
    cases inheritedMainOf lgs k <;> rfl

/-! ## C16: the depth of the calls of getBest -/

theorem getBestFuel_one (ops : CaseOps) (supported : Supported) (loc D : JsVal) (flag : Bool)
    (hloc : loc.truthy = false) (hD : D.truthy = false) (n : Nat) :
    getBestFuel ops (n + 1) supported loc D flag =
      getBestFuel ops (0 + 1) supported loc D flag ∧
    (getBestFuel ops (0 + 1) supported loc D flag).isSome = true := by
  cases supported <;> constructor
  all_goals simp only [getBestFuel, hloc, hD]
  all_goals first
    | rfl
    | (split <;> simp)

theorem getBestFuel_two (ops : CaseOps) (supported : Supported) (loc D : JsVal) (flag : Bool)
    (hD : D.truthy = false) (n : Nat) :
    getBestFuel ops (n + 1 + 1) supported loc D flag =
      getBestFuel ops (0 + 1 + 1) supported loc D flag ∧
    (getBestFuel ops (0 + 1 + 1) supported loc D flag).isSome = true := by
  have h1 := fun (d : JsVal) (hd : d.truthy = false) (m : Nat) =>
    getBestFuel_one ops supported D d flag hD hd m
  cases supported <;> constructor
  · conv_lhs => rw [getBestFuel]
    conv_rhs => rw [getBestFuel]
    simp only [(h1 .null rfl n).1, (h1 .undefined rfl n).1]
  · rw [getBestFuel]
    simp only [hD]
    repeat' (first | split | dsimp only)
    all_goals first
      | rfl
      | exact (h1 .null rfl 0).2
      | exact (h1 .undefined rfl 0).2
  · conv_lhs => rw [getBestFuel]
    conv_rhs => rw [getBestFuel]
    simp only [(h1 .null rfl n).1, (h1 .undefined rfl n).1]
  · rw [getBestFuel]
    simp only [hD]
    repeat' (first | split | dsimp only)
    all_goals first
      | rfl
      | exact (h1 .null rfl 0).2
      | exact (h1 .undefined rfl 0).2

theorem getBestFuel_three (ops : CaseOps) (supported : Supported) (loc D : JsVal) (flag : Bool)
    (n : Nat) :
    getBestFuel ops (n + 1 + 1 + 1) supported loc D flag =
      getBestFuel ops (0 + 1 + 1 + 1) supported loc D flag ∧
    (getBestFuel ops (0 + 1 + 1 + 1) supported loc D flag).isSome = true := by
  have h2 := fun (d : JsVal) (hd : d.truthy = false) (m : Nat) =>
    getBestFuel_two ops supported D d flag hd m
  cases supported <;> constructor
  · conv_lhs => rw [getBestFuel]
    conv_rhs => rw [getBestFuel]
    simp only [(h2 .null rfl n).1, (h2 .undefined rfl n).1]
  · rw [getBestFuel]
    dsimp only
    repeat' (first | split | dsimp only)
    all_goals first
      | rfl
      | exact (h2 .null rfl 0).2
      | exact (h2 .undefined rfl 0).2
  · conv_lhs => rw [getBestFuel]
    conv_rhs => rw [getBestFuel]
    simp only [(h2 .null rfl n).1, (h2 .undefined rfl n).1]
  · rw [getBestFuel]
    dsimp only
    repeat' (first | split | dsimp only)
    all_goals first
      | rfl
      | exact (h2 .null rfl 0).2
      | exact (h2 .undefined rfl 0).2

/-- C16: for every supported list or prepared index, every requested locale, every default
locale and both values of the flag, `getBest` ends, with a value or with an exception, within
three activations, that is with at most two nested recursive calls: from three activations on
the outcome is the same whatever the bound. -/
theorem getBest_terminates (ops : CaseOps) (supported : Supported) (loc D : JsVal)
    (flag : Bool) :
    ∃ r, ∀ n, getBestFuel ops (n + 3) supported loc D flag = some r := by
  obtain ⟨-, hs⟩ := getBestFuel_three ops supported loc D flag 0
  cases hr : getBestFuel ops (0 + 1 + 1 + 1) supported loc D flag with
  | none => simp [hr] at hs
  | some r => exact ⟨r, fun n => (getBestFuel_three ops supported loc D flag n).1.trans hr⟩

/-- Two activations are not always enough: the request `xx` with the default `yy`, both
unsupported, needs the third one. -/
theorem getBestFuel_two_not_enough :
    getBestFuel asciiOps 2 (.array ["en".toList]) (.str "xx".toList) (.str "yy".toList) false
      = none ∧
    getBestFuel asciiOps 3 (.array ["en".toList]) (.str "xx".toList) (.str "yy".toList) false
      = some (.ok .undefined) := by
  decide

theorem getBestFuel_absent_default_ok (ops : CaseOps) (hops : ops.KeepsNonEmpty)
    (supported : List JsString) (lgs : SupportedIndex)
    (hprep : prepareSupported ops supported = .ok lgs)
    (loc D : JsVal) (hD : D.truthy = false) (flag : Bool) (hloc : AbsentOrParses ops loc) :
    ∃ v, ∀ n, getBestFuel ops (n + 2) (.array supported) loc D flag = some (.ok v) := by
  cases ht : loc.truthy with
  | false =>
    exact ⟨.undefined, fun n =>
      getBestFuel_falsy ops (n + 1) supported lgs hprep loc D flag ht hD⟩
  | true =>
    obtain ⟨s, rfl, hs⟩ := truthy_str_of_truthy ht
    have hsome : (langOf ops s).isSome = true := by
      rcases hloc with h | h
      · exact absurd h hs
      · exact h
    cases hlang : langOf ops s with
    | none => simp [hlang] at hsome
    | some L =>
      obtain ⟨q, hq, -⟩ := parse_of_langOf hlang
      cases he : idxGet lgs q.language with
      | none =>
        refine ⟨.undefined, fun n => ?_⟩
        rw [getBestFuel_absent_default ops hops supported lgs hprep _ D hD flag n]
        simp [ht, hq, he]
      | some w =>
        refine ⟨bestOfValue lgs w q.country D flag, fun n => ?_⟩
        rw [getBestFuel_absent_default ops hops supported lgs hprep _ D hD flag n]
        simp [ht, hq, he]

/-- When the construction of the index returns, and the requested and the default locale are
absent or parse, `getBest` returns a value. -/
theorem getBestFuel_ok_of_prepared (ops : CaseOps) (hops : ops.KeepsNonEmpty)
    (supported : List JsString) (lgs : SupportedIndex)
    (hprep : prepareSupported ops supported = .ok lgs)
    (loc D : JsVal) (flag : Bool)
    (hloc : AbsentOrParses ops loc) (hD : AbsentOrParses ops D) :
    ∃ v, ∀ n, getBestFuel ops (n + 3) (.array supported) loc D flag = some (.ok v) := by
  cases ht : loc.truthy with
  | false =>
    cases hd : D.truthy with
    | false =>
      exact ⟨.undefined, fun n =>
        getBestFuel_falsy ops (n + 2) supported lgs hprep loc D flag ht hd⟩
    | true =>
      obtain ⟨v, hv⟩ := getBestFuel_absent_default_ok ops hops supported lgs hprep D
        .undefined rfl flag hD
      refine ⟨v, fun n => ?_⟩
      rw [getBestFuel_substitute ops (n + 2) supported lgs hprep loc D flag ht hd]
      exact hv n
  | true =>
    obtain ⟨s, rfl, hs⟩ := truthy_str_of_truthy ht
    have hsome : (langOf ops s).isSome = true := by
      rcases hloc with h | h
      · exact absurd h hs
      · exact h
    cases hlang : langOf ops s with
    | none => simp [hlang] at hsome
    | some L =>
      obtain ⟨p, hp, -⟩ := parse_of_langOf hlang
      have hl := (parse_fields ops hops _ p hp).1
      cases he : idxGet lgs p.language with
      | some w =>
        exact ⟨_, fun n =>
          getBestFuel_found ops (n + 2) supported lgs hprep s D flag p hp hl w he⟩
      | none =>
        by_cases heq : JsVal.str s = D
        · refine ⟨.undefined, fun n => ?_⟩
          rw [getBestFuel_missing ops (n + 2) supported lgs hprep s D flag p hp hl he,
            if_pos heq]
        · obtain ⟨v, hv⟩ := getBestFuel_absent_default_ok ops hops supported lgs hprep D
            .null rfl flag hD
          refine ⟨v, fun n => ?_⟩
          rw [getBestFuel_missing ops (n + 2) supported lgs hprep s D flag p hp hl he,
            if_neg heq]
          exact hv n

/-- The outcome of `getBest` when every element of the supported list parses and the requested
and the default locale are absent or parse: a `TypeError` when some element of the list has a
language that names a member of `Object.prototype` and a country; a value otherwise. -/
theorem getBest_outcome (ops : CaseOps) (hops : ops.KeepsNonEmpty)
    (supported : List JsString) (hall : AllParse ops supported)
    (loc D : JsVal) (flag : Bool)
    (hloc : AbsentOrParses ops loc) (hD : AbsentOrParses ops D) :
    ((∃ s ∈ supported, inheritedWithCountry ops s = true) →
      ∀ n, getBestFuel ops (n + 1) (.array supported) loc D flag =
        some (.error .typeError)) ∧
    ((∀ s ∈ supported, inheritedWithCountry ops s = false) →
      ∃ v, ∀ n, getBestFuel ops (n + 3) (.array supported) loc D flag = some (.ok v)) := by
  obtain ⟨ha, hb⟩ := prepareSupported_spec ops hops supported hall
  constructor
  · intro hbad n
    exact getBestFuel_prepare_error ops n supported _ (ha hbad) loc D flag
  · intro hgood
    obtain ⟨lgs, hprep, -⟩ := hb hgood
    exact getBestFuel_ok_of_prepared ops hops supported lgs hprep loc D flag hloc hD

/-- The request is absent and the default `fr` is not supported: the result is not the default
locale but the best match for it, here `undefined`. -/
theorem getBest_absent_request_eval :
    getBestFuel asciiOps 3 (.array ["en".toList]) .undefined (.str "fr".toList) false =
      some (.ok .undefined) := by
  decide

/-! ## C19: where the result of getBest comes from -/

theorem specMain_origin {ops : CaseOps} {supported : List JsString} {L m : JsString}
    (h : specMain ops supported L = some m) : m ∈ supported ∧ langOf ops m = some L := by
  have h1 := List.mem_of_find?_eq_some h
  have h2 := List.find?_some h
  simp only [hasLangCountry, decide_eq_true_eq] at h2
  exact ⟨by simpa using h1, h2.1⟩

theorem bestOfEntry_origin (ops : CaseOps) (supported : List JsString) (L : JsString)
    (e : LanguageEntry)
    (hspec : e.main = specMain ops supported L ∧
      e.firstCountry = specFirstCountry ops supported L ∧
      ∀ C, objGet e.countries C = specCountry ops supported L C)
    (c : Option JsString) (D : JsVal) (flag : Bool) :
    bestOfEntry e c D flag = D ∨
      ∃ s ∈ supported, bestOfEntry e c D flag = .str s ∧ langOf ops s = some L := by
  obtain ⟨hm, hf, hcs⟩ := hspec
  have hmain : ∀ s, e.main = some s → s ∈ supported ∧ langOf ops s = some L := by
    intro s hs
    rw [hm] at hs
    exact specMain_origin hs
  have hfirst : ∀ s, e.firstCountry = some s → s ∈ supported ∧ langOf ops s = some L := by
    intro s hs
    rw [hf] at hs
    have h1 := List.mem_of_find?_eq_some hs
    have h2 := List.find?_some hs
    simp only [hasLangAnyCountry, decide_eq_true_eq] at h2
    exact ⟨h1, h2.1⟩
  have hcountry : ∀ C s, objGet e.countries C = some s →
      s ∈ supported ∧ langOf ops s = some L := by
    intro C s hs
    rw [hcs C] at hs
    have h1 := List.mem_of_find?_eq_some hs
    have h2 := List.find?_some hs
    simp only [hasLangCountry, decide_eq_true_eq] at h2
    exact ⟨by simpa using h1, h2.1⟩
  have hmainv : (match e.main with
      | some m => JsVal.str m
      | none => D) = D ∨
      ∃ s ∈ supported, (match e.main with
        | some m => JsVal.str m
        | none => D) = .str s ∧ langOf ops s = some L := by
    cases hmn : e.main with
    | none => exact Or.inl rfl
    | some m => exact Or.inr ⟨m, (hmain m hmn).1, rfl, (hmain m hmn).2⟩
  unfold bestOfEntry
  dsimp only
  split_ifs with h1 h2 h3 h4 h5
  · exact Or.inr (optVal_origin ops supported L _ hfirst (by simp at h2; exact h2.2))
  · exact hmainv
  · exact Or.inr (optVal_origin ops supported L _ (hcountry _) h4)
  · exact Or.inr (optVal_origin ops supported L _ hfirst (by simp at h3; exact h3.2))
  · exact Or.inr (optVal_origin ops supported L _ (hcountry _) h5)
  · exact hmainv

/-- The `main` read on an inherited member is an element of the list; when some element has the
name of the member as its language, it is one of these. -/
theorem inheritedMainOf_origin (ops : CaseOps) (hops : ops.KeepsNonEmpty)
    (supported : List JsString) (hall : AllParse ops supported) (lgs : SupportedIndex)
    (hprep : prepareSupported ops supported = .ok lgs) (k m : JsString)
    (hk : isInheritedKey k = true) (hm : inheritedMainOf lgs k = some m) :
    m ∈ supported ∧ ((∃ t ∈ supported, langOf ops t = some k) → langOf ops m = some k) := by
  have hidx := prepareSupported_indexOf ops hops supported hall lgs hprep
  have h3 := hidx.2.2
  unfold inheritedMainOf at hm
  cases h1 : objGet lgs.inheritedMain k with
  | some m' =>
    rw [h1] at hm
    simp only [Option.some.injEq] at hm
    subst hm
    rw [h3 k, if_pos hk] at h1
    exact ⟨(specMain_origin h1).1, fun _ => (specMain_origin h1).2⟩
  | none =>
    rw [h1] at hm
    simp only at hm
    have hp : isInheritedKey "__proto__".toList = true := by decide
    rw [h3 _, if_pos hp] at hm
    refine ⟨(specMain_origin hm).1, ?_⟩
    rintro ⟨t, ht, htk⟩
    exfalso
    rw [h3 k, if_pos hk] at h1
    simp only [specMain, List.find?_eq_none, List.mem_reverse] at h1
    have hnot := h1 t ht
    have hc : (countryOf ops t).isSome = true := by
      cases hct : countryOf ops t with
      | none => simp [hasLangCountry, htk, hct] at hnot
      | some c => rfl
    have hbad : inheritedWithCountry ops t = true := by
      simp [inheritedWithCountry, htk, hk, hc]
    rw [(prepareSupported_spec ops hops supported hall).1 ⟨t, ht, hbad⟩] at hprep
    cases hprep

theorem bestOfValue_origin (ops : CaseOps) (hops : ops.KeepsNonEmpty)
    (supported : List JsString) (hall : AllParse ops supported) (lgs : SupportedIndex)
    (hprep : prepareSupported ops supported = .ok lgs) (L : JsString) (w : IndexValue)
    (hw : idxGet lgs L = some w) (c : Option JsString) (D : JsVal) (flag : Bool) :
    bestOfValue lgs w c D flag = D ∨
      ∃ s ∈ supported, bestOfValue lgs w c D flag = .str s ∧
        ((∃ t ∈ supported, langOf ops t = some L) → langOf ops s = some L) := by
  have hidx := prepareSupported_indexOf ops hops supported hall lgs hprep
  unfold idxGet at hw
  cases hown : objGet lgs.own L with
  | some e =>
    rw [hown] at hw
    simp only [Option.some.injEq] at hw
    subst hw
    rcases bestOfEntry_origin ops supported L e (hidx.2.1 L e hown) c D flag with hb | hb
    · exact Or.inl hb
    · obtain ⟨s, hs, hv, hl⟩ := hb
      exact Or.inr ⟨s, hs, hv, fun _ => hl⟩
  | none =>
    rw [hown] at hw
    simp only at hw
    split_ifs at hw with hk
    simp only [Option.some.injEq] at hw
    subst hw
    simp only [bestOfValue]
    cases hm : inheritedMainOf lgs L with
    | none => exact Or.inl rfl
    | some m =>
      obtain ⟨h1, h2⟩ := inheritedMainOf_origin ops hops supported hall lgs hprep L m hk hm
      exact Or.inr ⟨m, h1, rfl, h2⟩

theorem absent_default_origin (ops : CaseOps) (hops : ops.KeepsNonEmpty)
    (supported : List JsString) (hall : AllParse ops supported) (lgs : SupportedIndex)
    (hprep : prepareSupported ops supported = .ok lgs)
    (loc D : JsVal) (hD : D = .undefined ∨ D = .null) (flag : Bool) (n : Nat) (v : JsVal)
    (h : getBestFuel ops (n + 2) (.array supported) loc D flag = some (.ok v)) :
    v = .undefined ∨ v = .null ∨ ∃ s ∈ supported, v = .str s := by
  have hDf : D.truthy = false := by rcases hD with rfl | rfl <;> rfl
  rw [getBestFuel_absent_default ops hops supported lgs hprep loc D hDf flag n] at h
  simp only [Option.some.injEq] at h
  split_ifs at h with ht
  · cases h
    exact Or.inl rfl
  · obtain ⟨r, hr⟩ := parse_ok ops loc
    rw [hr] at h
    cases r with
    | none => cases h
    | some q =>
      dsimp only at h
      cases he : idxGet lgs q.language with
      | none =>
        rw [he] at h
        cases h
        exact Or.inl rfl
      | some w =>
        rw [he] at h
        simp only [Except.ok.injEq] at h
        subst h
        rcases bestOfValue_origin ops hops supported hall lgs hprep _ w he q.country D flag
          with hb | hb
        · rw [hb]
          rcases hD with rfl | rfl
          · exact Or.inl rfl
          · exact Or.inr (Or.inl rfl)
        · obtain ⟨s, hs, hv, -⟩ := hb
          exact Or.inr (Or.inr ⟨s, hs, hv⟩)

/-- Counterexample for C19: with the list `en-US`, `fr`, the request `en` and the default `fr`,
the language `en` has an index entry and `getBest` returns `fr`, an element of the list that
does not parse to the language `en`. -/
theorem getBest_returns_default_of_other_language :
    getBestFuel asciiOps 3 (.array ["en-US".toList, "fr".toList])
      (.str "en".toList) (.str "fr".toList) false = some (.ok (.str "fr".toList)) ∧
    langOf asciiOps "en".toList = some "en".toList ∧
    (∃ s ∈ ["en-US".toList, "fr".toList], langOf asciiOps s = some "en".toList) ∧
    "fr".toList ∈ ["en-US".toList, "fr".toList] ∧
    langOf asciiOps "fr".toList ≠ some "en".toList := by
  decide

/-- C19 (amended): when every element of the supported list parses and `getBest` returns `v`,
`v` is `undefined` or `null`, or the default locale, or an element of the list; and when the
requested locale parses to a language `L` that some element has, `v` is the default locale or
an element of the list that parses to language `L`. -/
theorem getBest_result_origin (ops : CaseOps) (hops : ops.KeepsNonEmpty)
    (supported : List JsString) (hall : AllParse ops supported)
    (loc D : JsVal) (flag : Bool) (n : Nat) (v : JsVal)
    (h : getBestFuel ops (n + 3) (.array supported) loc D flag = some (.ok v)) :
    (v = .undefined ∨ v = .null ∨ v = D ∨ ∃ s ∈ supported, v = .str s) ∧
    (∀ x L, loc = .str x → langOf ops x = some L →
      (∃ s ∈ supported, langOf ops s = some L) →
      v = D ∨ ∃ s ∈ supported, v = .str s ∧ langOf ops s = some L) := by
  cases hprep : prepareSupported ops supported with
  | error e =>
    rw [getBestFuel_prepare_error ops (n + 2) supported e hprep loc D flag] at h
    cases h
  | ok lgs =>
    have hidx := prepareSupported_indexOf ops hops supported hall lgs hprep
    have widen : (v = .undefined ∨ v = .null ∨ ∃ s ∈ supported, v = .str s) →
        (v = .undefined ∨ v = .null ∨ v = D ∨ ∃ s ∈ supported, v = .str s) := by
      rintro (h1 | h1 | h1)
      · exact Or.inl h1
      · exact Or.inr (Or.inl h1)
      · exact Or.inr (Or.inr (Or.inr h1))
    cases ht : loc.truthy with
    | false =>
      constructor
      · cases hd : D.truthy with
        | false =>
          rw [getBestFuel_falsy ops (n + 2) supported lgs hprep loc D flag ht hd] at h
          simp only [Option.some.injEq, Except.ok.injEq] at h
          exact Or.inl h.symm
        | true =>
          rw [getBestFuel_substitute ops (n + 2) supported lgs hprep loc D flag ht hd] at h
          exact widen (absent_default_origin ops hops supported hall lgs hprep D .undefined
            (Or.inl rfl) flag n v h)
      · intro x L hx hL
        subst hx
        have := ne_nil_of_langOf hL
        simp [JsVal.truthy, isEmpty_eq_false_of_ne_nil this] at ht
    | true =>
      obtain ⟨s, rfl, hs⟩ := truthy_str_of_truthy ht
      obtain ⟨r, hr⟩ := parse_ok ops (.str s)
      cases r with
      | none =>
        rw [getBestFuel_unparsable ops (n + 2) supported lgs hprep s D flag hs hr] at h
        cases h
      | some p =>
        have hl := (parse_fields ops hops _ p hr).1
        have hlang := (langOf_countryOf_of_parse hr).1
        cases he : idxGet lgs p.language with
        | some w =>
          rw [getBestFuel_found ops (n + 2) supported lgs hprep s D flag p hr hl w he] at h
          simp only [Option.some.injEq, Except.ok.injEq] at h
          subst h
          have hb := bestOfValue_origin ops hops supported hall lgs hprep _ w he p.country D flag
          constructor
          · rcases hb with hb | ⟨t, ht1, ht2, -⟩
            · exact Or.inr (Or.inr (Or.inl hb))
            · exact Or.inr (Or.inr (Or.inr ⟨t, ht1, ht2⟩))
          · intro x L hx hL hex
            cases hx
            rw [hlang] at hL
            cases hL
            rcases hb with hb | ⟨t, ht1, ht2, ht3⟩
            · exact Or.inl hb
            · exact Or.inr ⟨t, ht1, ht2, ht3 hex⟩
        | none =>
          rw [getBestFuel_missing ops (n + 2) supported lgs hprep s D flag p hr hl he] at h
          constructor
          · split_ifs at h with heq
            · simp only [Option.some.injEq, Except.ok.injEq] at h
              exact Or.inl h.symm
            · exact widen (absent_default_origin ops hops supported hall lgs hprep D .null
                (Or.inr rfl) flag n v h)
          · intro x L hx hL hex
            cases hx
            rw [hlang] at hL
            cases hL
            have hown : objGet lgs.own p.language = none := by
              unfold idxGet at he
              cases ho : objGet lgs.own p.language with
              | none => rfl
              | some e =>
                rw [ho] at he
                cases he
            have hnk : isInheritedKey p.language = false := by
              unfold idxGet at he
              rw [hown] at he
              simp only at he
              cases hk : isInheritedKey p.language with
              | false => rfl
              | true => simp [hk] at he
            rcases (hidx.1 _).1 hown with hk | hno
            · rw [hnk] at hk
              cases hk
            · exact absurd hex hno

/-- Witness for the amended C19: the request `en-CA` with the default `fr`. -/
theorem getBest_result_origin_witness :
    (JsVal.str "en".toList = .undefined ∨ JsVal.str "en".toList = .null ∨
      JsVal.str "en".toList = .str "fr".toList ∨
      ∃ s ∈ ["en".toList, "en-US".toList, "fr".toList], JsVal.str "en".toList = .str s) ∧
    (∀ x L, JsVal.str "en-CA".toList = .str x → langOf asciiOps x = some L →
      (∃ s ∈ ["en".toList, "en-US".toList, "fr".toList], langOf asciiOps s = some L) →
      JsVal.str "en".toList = .str "fr".toList ∨
        ∃ s ∈ ["en".toList, "en-US".toList, "fr".toList],
          JsVal.str "en".toList = .str s ∧ langOf asciiOps s = some L) :=
  getBest_result_origin asciiOps asciiOps_keepsNonEmpty
    ["en".toList, "en-US".toList, "fr".toList] (by decide)
    (.str "en-CA".toList) (.str "fr".toList) false 0 (.str "en".toList) (by decide)

/-! ## The index and the choice of getBest away from the members of Object.prototype -/

theorem inheritedWithCountry_of_noInherited {ops : CaseOps} {supported : List JsString}
    (h : NoInheritedLanguage ops supported) :
    ∀ s ∈ supported, inheritedWithCountry ops s = false := by
  intro s hs
  unfold inheritedWithCountry
  cases hl : langOf ops s with
  | none => rfl
  | some L => simp [h s hs L hl]

theorem idxGet_eq_none_of_own {lgs : SupportedIndex} {k : JsString}
    (hk : isInheritedKey k = false) (h : objGet lgs.own k = none) : idxGet lgs k = none := by
  simp [idxGet, h, hk]

theorem idxGet_of_own {lgs : SupportedIndex} {k : JsString} {e : LanguageEntry}
    (h : objGet lgs.own k = some e) : idxGet lgs k = some (.entry e) := by
  simp [idxGet, h]

/-- When no element of the list has a language that names a member of `Object.prototype` and
every element parses, `prepareSupported` returns an index that has an entry for `L` exactly when
some element parses to language `L`; in that entry `main` is the last element with language `L`
and no country, `firstCountry` the first element with language `L` and a country, and
`countries` maps `C` to the last element with language `L` and country `C`, and has no key `C`
when there is no such element. -/
theorem prepareSupported_contents_own (ops : CaseOps) (hops : ops.KeepsNonEmpty)
    (supported : List JsString) (hall : AllParse ops supported)
    (hsafe : NoInheritedLanguage ops supported) :
    ∃ lgs, prepareSupported ops supported = .ok lgs ∧
      (∀ L, (∃ e, idxGet lgs L = some (.entry e)) ↔ ∃ s ∈ supported, langOf ops s = some L) ∧
      (∀ L e, idxGet lgs L = some (.entry e) →
        e.main = supported.reverse.find?
          (fun s => decide (langOf ops s = some L ∧ countryOf ops s = none)) ∧
        e.firstCountry = supported.find?
          (fun s => decide (langOf ops s = some L ∧ (countryOf ops s).isSome = true)) ∧
        ∀ C, objGet e.countries C = supported.reverse.find?
          (fun s => decide (langOf ops s = some L ∧ countryOf ops s = some C))) := by
  obtain ⟨lgs, hprep, h1, h2, -⟩ := (prepareSupported_spec ops hops supported hall).2
    (inheritedWithCountry_of_noInherited hsafe)
  have hentry : ∀ L e, idxGet lgs L = some (.entry e) ↔ objGet lgs.own L = some e := by
    intro L e
    unfold idxGet
    cases objGet lgs.own L with
    | none => split_ifs <;> simp
    | some e' => simp
  refine ⟨lgs, hprep, ?_, ?_⟩
  · intro L
    simp only [hentry]
    constructor
    · rintro ⟨e, he⟩
      by_contra hno
      have := (h1 L).2 (Or.inr hno)
      rw [this] at he
      cases he
    · rintro ⟨s, hs, hsL⟩
      cases ho : objGet lgs.own L with
      | some e => exact ⟨e, rfl⟩
      | none =>
        rcases (h1 L).1 ho with hk | hno
        · rw [hsafe s hs L hsL] at hk
          cases hk
        · exact absurd ⟨s, hs, hsL⟩ hno
  · intro L e he
    exact h2 L e ((hentry L e).1 he)

/-- When `prepareSupported` does not throw: if the requested locale parses to language `L` and
country `C`, and some element parses to language `L` and country `C`, `getBest` returns the
last such element, whatever the default and the flag. -/
theorem getBest_exact_match_own (ops : CaseOps) (hops : ops.KeepsNonEmpty)
    (supported : List JsString) (hall : AllParse ops supported)
    (hsafe : ∀ s ∈ supported, inheritedWithCountry ops s = false)
    (loc : JsString) (D : JsVal) (flag : Bool) (n : Nat) (L C : JsString)
    (hloc : langOf ops loc = some L) (hlocC : countryOf ops loc = some C)
    (hex : ∃ s ∈ supported, langOf ops s = some L ∧ countryOf ops s = some C) :
    ∃ r pre post,
      getBestFuel ops (n + 1) (.array supported) (.str loc) D flag = some (.ok (.str r)) ∧
      supported = pre ++ r :: post ∧
      langOf ops r = some L ∧ countryOf ops r = some C ∧
      ∀ t ∈ post, ¬ (langOf ops t = some L ∧ countryOf ops t = some C) := by
  obtain ⟨lgs, hprep, h1, h2, -⟩ := (prepareSupported_spec ops hops supported hall).2 hsafe
  obtain ⟨p, hp, hpl⟩ := parse_of_langOf hloc
  have hpc : p.country = some C := by
    rw [← (langOf_countryOf_of_parse hp).2]
    exact hlocC
  obtain ⟨hl, hcne, -, -⟩ := parse_fields ops hops _ p hp
  have hCe := isEmpty_eq_false_of_ne_nil (hcne C hpc)
  obtain ⟨s, hs, hsL, hsC⟩ := hex
  have hk : isInheritedKey L = false := by
    have := hsafe s hs
    simp only [inheritedWithCountry, hsL, hsC, Option.isSome_some, Bool.and_true] at this
    exact this
  cases he : objGet lgs.own L with
  | none =>
    rcases (h1 L).1 he with h | h
    · rw [hk] at h
      cases h
    · exact absurd ⟨s, hs, hsL⟩ h
  | some e =>
    have hcs := (h2 L e he).2.2 C
    cases hsc : specCountry ops supported L C with
    | none =>
      simp only [specCountry, List.find?_eq_none, List.mem_reverse] at hsc
      exact absurd (by simp [hasLangCountry, hsL, hsC]) (hsc s hs)
    | some r =>
      obtain ⟨hq, pre, post, hdec, hpost⟩ := find?_reverse_eq_some _ _ _ hsc
      simp only [hasLangCountry, decide_eq_true_eq] at hq
      have hre := isEmpty_eq_false_of_ne_nil (ne_nil_of_langOf hq.1)
      refine ⟨r, pre, post, ?_, hdec, hq.1, hq.2, ?_⟩
      · rw [← hpl] at he
        rw [getBestFuel_found ops n supported lgs hprep loc D flag p hp hl _ (idxGet_of_own he)]
        have hget : objGet e.countries C = some r := hcs.trans hsc
        have ht1 : optTruthy (some C) = true := by simp [optTruthy, hCe]
        have ht2 : optTruthy (some r) = true := by simp [optTruthy, hre]
        simp only [bestOfValue, bestOfEntry, hpc, ht1, optVal, JsVal.toStr, hget, ht2]
        simp
      · intro t ht
        have := hpost t ht
        simpa [hasLangCountry] using this

/-- When `prepareSupported` does not throw and the requested locale parses to a language `L`
that names no member of `Object.prototype` and that some element has: if the request has no
country or no element has language `L` with the request's country, `getBest` returns the first
element with language `L` and a country if the flag is set and there is one; otherwise the last
element with language `L` and no country, or the default locale as it is when there is none. -/
theorem getBest_fallback_own (ops : CaseOps) (hops : ops.KeepsNonEmpty)
    (supported : List JsString) (hall : AllParse ops supported)
    (hsafe : ∀ s ∈ supported, inheritedWithCountry ops s = false)
    (loc : JsString) (D : JsVal) (flag : Bool) (n : Nat) (L : JsString)
    (hloc : langOf ops loc = some L) (hk : isInheritedKey L = false)
    (hentry : ∃ s ∈ supported, langOf ops s = some L)
    (hno : countryOf ops loc = none ∨
      ¬ ∃ s ∈ supported, langOf ops s = some L ∧ countryOf ops s = countryOf ops loc) :
    getBestFuel ops (n + 1) (.array supported) (.str loc) D flag =
      some (.ok
        (match (if flag = true then specFirstCountry ops supported L else none) with
         | some first => .str first
         | none =>
           match specMain ops supported L with
           | some main => .str main
           | none => D)) := by
  obtain ⟨lgs, hprep, h1, h2, -⟩ := (prepareSupported_spec ops hops supported hall).2 hsafe
  obtain ⟨p, hp, hpl⟩ := parse_of_langOf hloc
  have hpc : countryOf ops loc = p.country := (langOf_countryOf_of_parse hp).2
  obtain ⟨hl, hcne, -, -⟩ := parse_fields ops hops _ p hp
  obtain ⟨s, hs, hsL⟩ := hentry
  have htr := specFirstCountry_truthy ops supported L
  cases he : objGet lgs.own L with
  | none =>
    rcases (h1 L).1 he with h | h
    · rw [hk] at h
      cases h
    · exact absurd ⟨s, hs, hsL⟩ h
  | some e =>
    obtain ⟨hm, hf, hcs⟩ := h2 L e he
    rw [← hpl] at he
    rw [getBestFuel_found ops n supported lgs hprep loc D flag p hp hl _ (idxGet_of_own he)]
    have hbest : bestOfEntry e p.country D flag =
        if (flag && optTruthy e.firstCountry) = true then optVal e.firstCountry
        else (match e.main with
          | some m => .str m
          | none => D) := by
      cases hc : p.country with
      | none => rfl
      | some C =>
        have hnone : objGet e.countries C = none := by
          rw [hcs C]
          rcases hno with h0 | h0
          · rw [hpc, hc] at h0
            cases h0
          · simp only [specCountry, List.find?_eq_none, List.mem_reverse]
            intro t ht hq
            simp only [hasLangCountry, decide_eq_true_eq] at hq
            exact h0 ⟨t, ht, hq.1, by rw [hq.2, hpc, hc]⟩
        have hCe := isEmpty_eq_false_of_ne_nil (hcne C hc)
        simp only [bestOfEntry, optTruthy, optVal, JsVal.toStr, hCe, hnone]
        rfl
    simp only [bestOfValue]
    rw [hbest, hf, hm, htr]
    cases flag <;> cases specFirstCountry ops supported L <;> simp [optVal]

/-- When `prepareSupported` does not throw and the requested locale parses to a language that
names no member of `Object.prototype` and that no element has, and the default locale differs
from the requested one: `getBest` returns (with three activations or more) the result `r` of
`getBest` on the default locale with the default cleared to `null`; this is the result with the
default cleared to `undefined`, up to the identification of `null` and `undefined`; `r` is
`undefined` when the default locale is absent or empty, and `r` is not an exception when the
default locale, if a string, parses. -/
theorem getBest_unsupported_language_own (ops : CaseOps) (hops : ops.KeepsNonEmpty)
    (supported : List JsString) (hall : AllParse ops supported)
    (hsafe : ∀ s ∈ supported, inheritedWithCountry ops s = false)
    (loc : JsString) (D : JsVal) (flag : Bool) (L : JsString)
    (hloc : langOf ops loc = some L) (hk : isInheritedKey L = false)
    (hno : ¬ ∃ s ∈ supported, langOf ops s = some L)
    (hne : JsVal.str loc ≠ D) :
    ∃ r : Except JsError JsVal,
      (∀ n, getBestFuel ops (n + 3) (.array supported) (.str loc) D flag = some r) ∧
      (∀ n, getBestFuel ops (n + 2) (.array supported) D .null flag = some r) ∧
      (∀ n, (getBestFuel ops (n + 2) (.array supported) D .undefined flag).map
          (Except.map absentAsUndefined) = some (r.map absentAsUndefined)) ∧
      (D.truthy = false → r = .ok .undefined) ∧
      ((∀ d, D = .str d → (langOf ops d).isSome = true) → ∃ v, r = .ok v) := by
  obtain ⟨lgs, hprep, h1, -, -⟩ := (prepareSupported_spec ops hops supported hall).2 hsafe
  obtain ⟨p, hp, hpl⟩ := parse_of_langOf hloc
  have hl := (parse_fields ops hops _ p hp).1
  have he : idxGet lgs p.language = none := by
    rw [hpl]
    exact idxGet_eq_none_of_own hk ((h1 L).2 (Or.inr hno))
  refine ⟨_, ?_, fun n =>
    getBestFuel_absent_default ops hops supported lgs hprep D .null rfl flag n, ?_, ?_, ?_⟩
  · intro n
    rw [getBestFuel_missing ops (n + 2) supported lgs hprep loc D flag p hp hl he, if_neg hne]
    exact getBestFuel_absent_default ops hops supported lgs hprep D .null rfl flag n
  · intro n
    rw [getBestFuel_absent_default ops hops supported lgs hprep D .undefined rfl flag n]
    cases hD : D.truthy with
    | false => simp [Except.map]
    | true =>
      simp only [Bool.true_eq_false, if_false, Option.map_some', Option.some.injEq]
      obtain ⟨r, hr⟩ := parse_ok ops D
      rw [hr]
      cases r with
      | none => rfl
      | some q =>
        dsimp only
        cases idxGet lgs q.language with
        | none => rfl
        | some w => simp [Except.map, absentAsUndefined_bestOfValue]
  · intro hD
    simp [hD]
  · intro hparse
    cases hD : D.truthy with
    | false => exact ⟨.undefined, by simp⟩
    | true =>
      obtain ⟨d, rfl, hd⟩ := truthy_str_of_truthy hD
      have hsome := hparse d rfl
      cases hlang : langOf ops d with
      | none => simp [hlang] at hsome
      | some Ld =>
        obtain ⟨q, hq, -⟩ := parse_of_langOf hlang
        simp only [hD, Bool.true_eq_false, if_false, hq]
        cases idxGet lgs q.language with
        | none => exact ⟨_, rfl⟩
        | some w => exact ⟨_, rfl⟩

/-- When `prepareSupported` does not throw and `x` parses to a language that names no member of
`Object.prototype` and that no element has, `getBest(supported, x, x, flag)` is `undefined`. -/
theorem getBest_default_equals_request_own (ops : CaseOps) (hops : ops.KeepsNonEmpty)
    (supported : List JsString) (hall : AllParse ops supported)
    (hsafe : ∀ s ∈ supported, inheritedWithCountry ops s = false)
    (x : JsString) (flag : Bool) (L : JsString) (n : Nat)
    (hx : langOf ops x = some L) (hk : isInheritedKey L = false)
    (hno : ¬ ∃ s ∈ supported, langOf ops s = some L) :
    getBestFuel ops (n + 1) (.array supported) (.str x) (.str x) flag =
      some (.ok .undefined) := by
  obtain ⟨lgs, hprep, h1, -, -⟩ := (prepareSupported_spec ops hops supported hall).2 hsafe
  obtain ⟨p, hp, hpl⟩ := parse_of_langOf hx
  have hl := (parse_fields ops hops _ p hp).1
  have he : idxGet lgs p.language = none := by
    rw [hpl]
    exact idxGet_eq_none_of_own hk ((h1 L).2 (Or.inr hno))
  rw [getBestFuel_missing ops n supported lgs hprep x (.str x) flag p hp hl he]
  simp

/-! ## C3, C4, C5, C9, C11: a language that names a member of Object.prototype

The index is the plain object `{}`, and `lgs[language]` is tested and read without asking whether
the property is the object's own.  For the language `constructor` the read finds the function
`Object`: `prepareSupported` creates no entry, and throws on an element with a country; `getBest`
takes the member for the entry of a supported language. -/

/-- C3: the list `en-US`, `constructor-US` has only elements that parse, the request `en-US`
parses to the language `en` and the country `US`, and the first element has both; `getBest`
throws a `TypeError`, raised by `prepareSupported` on `constructor-US`, where the claim has it
return `en-US`. -/
theorem getBest_exact_match_throws :
    AllParse asciiOps ["en-US".toList, "constructor-US".toList] ∧
    langOf asciiOps "en-US".toList = some "en".toList ∧
    countryOf asciiOps "en-US".toList = some "US".toList ∧
    "en-US".toList ∈ ["en-US".toList, "constructor-US".toList] ∧
    getBestFuel asciiOps 3 (.array ["en-US".toList, "constructor-US".toList])
      (.str "en-US".toList) .undefined false = some (.error .typeError) := by
  decide

/-- C4: the list `en`, `constructor-US` has only elements that parse, the request `en-CA`
parses to the language `en`, which the first element has, and no element has the language `en`
with the country `CA`; `getBest` throws a `TypeError`, raised by `prepareSupported` on
`constructor-US`, where the claim has it return `en`, the main of the entry. -/
theorem getBest_fallback_throws :
    AllParse asciiOps ["en".toList, "constructor-US".toList] ∧
    langOf asciiOps "en-CA".toList = some "en".toList ∧
    langOf asciiOps "en".toList = some "en".toList ∧
    (¬ ∃ s ∈ ["en".toList, "constructor-US".toList],
      langOf asciiOps s = some "en".toList ∧ countryOf asciiOps s = some "CA".toList) ∧
    specMain asciiOps ["en".toList, "constructor-US".toList] "en".toList = some "en".toList ∧
    getBestFuel asciiOps 3 (.array ["en".toList, "constructor-US".toList])
      (.str "en-CA".toList) .undefined false = some (.error .typeError) := by
  decide

/-- C5: no element of the list `en` has the language `constructor`, and the default `zz`
differs from the request `constructor`; `getBest` returns the default `zz` itself, where the
claim has it return what it returns on the request `zz` with an absent default, which is
`undefined`. -/
theorem getBest_unsupported_language_returns_default :
    AllParse asciiOps ["en".toList] ∧
    langOf asciiOps "constructor".toList = some "constructor".toList ∧
    (¬ ∃ s ∈ ["en".toList], langOf asciiOps s = some "constructor".toList) ∧
    getBestFuel asciiOps 3 (.array ["en".toList])
      (.str "constructor".toList) (.str "zz".toList) false = some (.ok (.str "zz".toList)) ∧
    getBestFuel asciiOps 3 (.array ["en".toList])
      (.str "zz".toList) .undefined false = some (.ok .undefined) := by
  decide

/-- C9: on the list `constructor`, whose element parses to the language `constructor`,
`prepareSupported` returns an index without any entry (the string is written as `main` on the
function `Object`); on the list `constructor-US` it throws a `TypeError`. -/
theorem prepareSupported_inherited_language :
    AllParse asciiOps ["constructor".toList] ∧
    langOf asciiOps "constructor".toList = some "constructor".toList ∧
    prepareSupported asciiOps ["constructor".toList] =
      .ok { own := [], inheritedMain := [("constructor".toList, "constructor".toList)] } ∧
    AllParse asciiOps ["constructor-US".toList] ∧
    prepareSupported asciiOps ["constructor-US".toList] = .error .typeError := by
  decide

/-- C11: no element of the list `en`, `fr` has the language `constructor`; with the request and
the default both `constructor`, `getBest` returns `constructor`, where the claim has it return
`undefined`. -/
theorem getBest_default_equals_request_returns_it :
    AllParse asciiOps ["en".toList, "fr".toList] ∧
    langOf asciiOps "constructor".toList = some "constructor".toList ∧
    (¬ ∃ s ∈ ["en".toList, "fr".toList], langOf asciiOps s = some "constructor".toList) ∧
    getBestFuel asciiOps 3 (.array ["en".toList, "fr".toList])
      (.str "constructor".toList) (.str "constructor".toList) false =
        some (.ok (.str "constructor".toList)) := by
  decide

/-! ## The examples of the documentation, evaluated -/

theorem parse_en_US_eval :
    parse asciiOps (.str "en-US".toList) =
      .ok (some { keyword := none, language := "en".toList, variant := none,
                  country := some "US".toList, script := none }) := by
  decide

theorem parse_keyword_eval :
    parse asciiOps (.str "de@collation=phonebook".toList) =
      .ok (some { keyword := some "collation=phonebook".toList, language := "de".toList,
                  variant := none, country := none, script := none }) := by
  decide

theorem parse_absent_eval :
    parse asciiOps (.str []) = .ok none ∧
    parse asciiOps .undefined = .ok none ∧
    parse asciiOps (.str "a_b_c_d_e".toList) = .ok none ∧
    parse asciiOps (.str "_US".toList) = .ok none := by
  decide

theorem normalize_eval :
    normalize asciiOps (.str "zh-Hans-CN".toList) .undefined = .ok (.str "zh_Hans_CN".toList) ∧
    normalize asciiOps (.str "en-US-POSIX".toList) .undefined = .ok (.str "en_US".toList) := by
  decide

theorem prepareSupported_eval :
    prepareSupported asciiOps ["en".toList, "en-US".toList, "en-GB".toList, "fr".toList] =
      .ok { own :=
              [("en".toList,
                { countries := [("US".toList, "en-US".toList), ("GB".toList, "en-GB".toList)],
                  firstCountry := some "en-US".toList, main := some "en".toList }),
               ("fr".toList, { countries := [], firstCountry := none, main := some "fr".toList })],
            inheritedMain := [] } := by
  decide

theorem getBest_eval :
    getBestFuel asciiOps 3 (.array ["en".toList, "en-US".toList, "en-GB".toList, "fr".toList])
      (.str "en-US".toList) .undefined false = some (.ok (.str "en-US".toList)) ∧
    getBestFuel asciiOps 3 (.array ["en".toList, "en-US".toList, "en-GB".toList, "fr".toList])
      (.str "en-CA".toList) .undefined false = some (.ok (.str "en".toList)) ∧
    getBestFuel asciiOps 3 (.array ["en".toList, "en-US".toList, "en-GB".toList, "fr".toList])
      (.str "en-CA".toList) .undefined true = some (.ok (.str "en-US".toList)) ∧
    getBestFuel asciiOps 3 (.array ["en".toList, "fr".toList])
      (.str "es".toList) (.str "fr".toList) false = some (.ok (.str "fr".toList)) := by
  decide

end LocaleId
